import Mathlib

/-!
# Pixel-Groove execution engine: a shallow embedding

This file embeds the graph model, mutation operations, topology utilities,
single-graph executor and batch scheduler of the Pixel-Groove backend
(`src/backend/src/domain/...`) into Lean 4, and proves or refutes the
specification claims about them.

Python dictionaries are modelled as insertion-ordered association lists,
Python sets as `Finset String`, machine integers as `Int`/`Nat`, and
fallible operations as `Except`.  Wall-clock float fields (timestamps,
canvas positions) are carried as `ℚ` placeholders; no claim computes with
them.  External collaborators (generation backend, blob store) are
abstracted as oracle functions supplied to the executor models.
-/

namespace PixelGroove

/-! ## Association-list helpers (Python `dict` with insertion order) -/

/-- Lookup in an insertion-ordered association list (`d.get(k)`): the value
of the first entry with the key.  A Python dict has at most one. -/
def alookup {α : Type} : List (String × α) → String → Option α
  | [], _ => none
  | p :: t, k => if p.1 = k then some p.2 else alookup t k

/-- `d[k] = v`: replace the value of the (first) existing entry in place,
else append a new entry — exactly a Python dict write under unique keys. -/
def aset {α : Type} : List (String × α) → String → α → List (String × α)
  | [], k, v => [(k, v)]
  | p :: t, k, v => if p.1 = k then (k, v) :: t else p :: aset t k v

/-- `d.pop(k, None)`: drop the (first) entry for a key, silently when
absent. -/
def aerase {α : Type} : List (String × α) → String → List (String × α)
  | [], _ => []
  | p :: t, k => if p.1 = k then t else p :: aerase t k

/-- Keys of an association list, in insertion order. -/
def akeys {α : Type} (l : List (String × α)) : List String :=
  l.map Prod.fst

/-! ## Ports (`domain/models/ports.py`) -/

/-- `PortType`: data types that can flow through ports. -/
inductive PortType
  | image | video | audio | text | any
deriving DecidableEq, Repr

/-- `PortDirection`. -/
inductive PortDirection
  | input | output
deriving DecidableEq, Repr

/-- `Port`: a typed connection point on a node. -/
structure Port where
  id : String
  name : String
  portType : PortType
  direction : PortDirection
  required : Bool := true
  description : String := ""
deriving DecidableEq, Repr

/-- `Port.is_compatible_with`: directions must differ; `any` matches
everything; otherwise the types must be equal. -/
def Port.isCompatibleWith (self other : Port) : Bool :=
  if self.direction = other.direction then false
  else if self.portType = PortType.any ∨ other.portType = PortType.any then true
  else self.portType = other.portType

/-- `Connection`: a link between two specific ports on two nodes. -/
structure Connection where
  fromNodeId : String
  fromPortId : String
  toNodeId : String
  toPortId : String
deriving DecidableEq, Repr

/-- `Connection.get_id`: deterministic id string derived from the tuple. -/
def Connection.getId (c : Connection) : String :=
  c.fromNodeId ++ ":" ++ c.fromPortId ++ "->" ++ c.toNodeId ++ ":" ++ c.toPortId

/-! ## Media (`domain/models/media.py`) -/

inductive MediaType
  | image | video | audio | text
deriving DecidableEq, Repr

structure MediaUrls where
  original : String
  thumbnail : String
deriving DecidableEq, Repr

structure MediaMetadata where
  width : Option Nat := none
  height : Option Nat := none
  duration : Option ℚ := none
  format : Option String := none
  sizeBytes : Option Nat := none
deriving DecidableEq, Repr

/-- Values stored in a node's free-form `params` mapping.  Python's
heterogeneous dict values are restricted to the shapes the domain code
actually reads; `truthy` mirrors Python truthiness for `if`/`not`. -/
inductive PValue
  | bool (b : Bool)
  | str (s : String)
  | int (n : Int)
deriving DecidableEq, Repr

/-- Python truthiness of a param value. -/
def PValue.truthy : PValue → Bool
  | .bool b => b
  | .str s => s ≠ ""
  | .int n => n ≠ 0

/-- A `params` mapping. -/
def Params := List (String × PValue)

instance : DecidableEq Params := by
  unfold Params; infer_instance

instance : Repr Params := by
  unfold Params; infer_instance

/-- `params.get(key, default)` read as a boolean (Python truthiness). -/
def Params.getFlag (p : Params) (key : String) (dflt : Bool) : Bool :=
  match alookup p key with
  | some v => v.truthy
  | none => dflt

/-- `MediaResult`: the output of one node execution. -/
structure MediaResult where
  id : String
  timestamp : Nat
  mediaType : MediaType
  urls : MediaUrls
  prompt : String
  metadata : MediaMetadata
  generationParams : Params := []
  originalPrompt : Option String := none
deriving DecidableEq, Repr

/-! ## Nodes (`domain/models/graph.py`) -/

inductive NodeType
  | generateText | generateImage | generateVideo | generateSpeech
  | generateMusic | analyzeImage | transformImage
deriving DecidableEq, Repr

inductive NodeStatus
  | idle | queued | running | completed | failed
deriving DecidableEq, Repr

/-- Canvas position; the source stores floats, which no claim computes
with, so they are carried as rationals. -/
structure Position where
  x : ℚ
  y : ℚ
deriving DecidableEq, Repr

/-- `Node`: a processing node with typed input/output ports. -/
structure Node where
  id : String
  type : NodeType
  label : String
  params : Params
  position : Position
  provider : String := "gemini"
  status : NodeStatus := .idle
  inputPorts : List Port := []
  outputPorts : List Port := []
  result : Option MediaResult := none
  generationHistory : List MediaResult := []
  errorMessage : Option String := none
  stale : Bool := false
deriving DecidableEq, Repr

/-- `Node.get_input_port`. -/
def Node.getInputPort (n : Node) (portId : String) : Option Port :=
  n.inputPorts.find? (fun p => p.id = portId)

/-- `Node.get_output_port`. -/
def Node.getOutputPort (n : Node) (portId : String) : Option Port :=
  n.outputPorts.find? (fun p => p.id = portId)

/-- `Node.add_generation`: append to history, set result, mark completed
and clear the stale flag. -/
def Node.addGeneration (n : Node) (r : MediaResult) : Node :=
  { n with
    generationHistory := n.generationHistory ++ [r]
    result := some r
    status := .completed
    stale := false }

/-! ## Edges and graphs -/

/-- `Edge`: a connection between two node ports. -/
structure Edge where
  id : String
  connection : Connection
deriving DecidableEq, Repr

/-- `Edge.from_ports`. -/
def Edge.fromPorts (fromNodeId fromPortId toNodeId toPortId : String) : Edge :=
  let conn : Connection :=
    { fromNodeId := fromNodeId, fromPortId := fromPortId
      toNodeId := toNodeId, toPortId := toPortId }
  { id := conn.getId, connection := conn }

/-- `Graph`: a mapping of node id → node (insertion-ordered, as a Python
dict) plus an ordered list of edges. -/
structure Graph where
  id : String
  name : String
  canvasMemory : String := ""
  createdAt : ℚ := 0
  updatedAt : ℚ := 0
  nodes : List (String × Node) := []
  edges : List Edge := []
deriving DecidableEq, Repr

/-- `Graph.add_node`: `self.nodes[node.id] = node`. -/
def Graph.addNode (g : Graph) (n : Node) : Graph :=
  { g with nodes := aset g.nodes n.id n }

/-- `Graph.get_node`. -/
def Graph.getNode (g : Graph) (nodeId : String) : Option Node :=
  alookup g.nodes nodeId

/-- `Graph.remove_edge`: keep every edge whose id differs. -/
def Graph.removeEdge (g : Graph) (edgeId : String) : Graph :=
  { g with edges := g.edges.filter (fun e => e.id ≠ edgeId) }

/-- `Graph.remove_node`: pop the node (silently when absent) and drop
every edge incident to it.  Note: no staleness propagation happens here. -/
def Graph.removeNode (g : Graph) (nodeId : String) : Graph :=
  { g with
    nodes := aerase g.nodes nodeId
    edges := g.edges.filter (fun e =>
      e.connection.fromNodeId ≠ nodeId ∧ e.connection.toNodeId ≠ nodeId) }

/-- `Graph.get_incoming_edges`. -/
def Graph.getIncomingEdges (g : Graph) (nodeId : String) : List Edge :=
  g.edges.filter (fun e => e.connection.toNodeId = nodeId)

/-- `Graph.get_dependencies`: sources of the incoming edges. -/
def Graph.getDependencies (g : Graph) (nodeId : String) : List String :=
  (g.getIncomingEdges nodeId).map (fun e => e.connection.fromNodeId)

/-! ## Prompt composition and enrichment (`domain/services/node_handlers.py`) -/

/-- `NodeHandler._join_texts`: combine canvas memory, upstream texts and the
node's own prompt (Python truthiness of a string is non-emptiness). -/
def joinTexts (upstreamTexts : List String) (nodePrompt : String) (canvasMemory : String) : String :=
  let upstream := String.intercalate "\n" (upstreamTexts.filter (fun t => t ≠ ""))
  let parts : List String :=
    (if canvasMemory ≠ "" then ["Context:\n" ++ canvasMemory] else []) ++
    (if upstream ≠ "" ∧ nodePrompt ≠ "" then
        [upstream ++ "\n\nAdditional direction: " ++ nodePrompt]
     else if upstream ≠ "" then [upstream]
     else if nodePrompt ≠ "" then [nodePrompt] else [])
  String.intercalate "\n\n" parts

/-- `NodeHandler._maybe_enrich`: returns `(final_prompt, original_prompt_if_enriched)`.
The external text-enrichment backend is abstracted as a pure function. -/
def maybeEnrich (enricher : String → String) (prompt : String) (node : Node) : String × Option String :=
  let enrichFlag := node.params.getFlag "enrich" true
  let humanEdited := node.params.getFlag "human_edited" false
  if ¬enrichFlag ∧ ¬humanEdited then (prompt, none)
  else
    let enriched := enricher prompt
    if enriched = prompt then (prompt, none)
    else (enriched, some prompt)

/-! ## Graph search (`get_downstream_nodes`, `get_required_nodes`)

Both Python walks visit ids drawn from a finite universe (the start ids plus
every edge endpoint).  `walk` is that loop; the extra `univ` parameter and its
skip branch exist only to justify termination and are unreachable whenever
`univ` contains the frontier and is closed under `succs`, which holds for the
universes used below.  `get_required_nodes` pops its worklist LIFO in Python
and FIFO here; only the resulting *set* is used, and the correctness theorem
below identifies it with reachability, which is traversal-order independent. -/

/-- Worklist search: repeatedly take the head of the frontier, and expand an
unvisited id through `succs`. -/
def walk (succs : String → List String) (univ : Finset String) :
    List String → Finset String → Finset String
  | [], visited => visited
  | n :: rest, visited =>
    if n ∈ visited then walk succs univ rest visited
    else if n ∈ univ then walk succs univ (rest ++ succs n) (insert n visited)
    else walk succs univ rest (insert n visited)
termination_by frontier visited => ((univ \ visited).card, frontier.length)
decreasing_by
  · apply Prod.Lex.right
    simp
  · apply Prod.Lex.left
    apply Finset.card_lt_card
    constructor
    · exact Finset.sdiff_subset_sdiff (le_refl univ) (Finset.subset_insert _ _)
    · intro hsub
      have hmem : n ∈ univ \ visited := Finset.mem_sdiff.mpr ⟨by assumption, by assumption⟩
      have := hsub hmem
      simp [Finset.mem_sdiff] at this
  · have hEq : univ \ insert n visited = univ \ visited := by
      ext x
      simp only [Finset.mem_sdiff, Finset.mem_insert]
      constructor
      · rintro ⟨hx, hni⟩
        exact ⟨hx, fun hv => hni (Or.inr hv)⟩
      · rintro ⟨hx, hni⟩
        refine ⟨hx, fun hv => ?_⟩
        rcases hv with hv | hv
        · subst hv; exact absurd hx (by assumption)
        · exact hni hv
    rw [hEq]
    apply Prod.Lex.right
    simp

/-- Forward successors of a node through the edge list (used by
`get_downstream_nodes`'s BFS). -/
def Graph.forwardTargets (g : Graph) (nid : String) : List String :=
  (g.edges.filter (fun e => e.connection.fromNodeId = nid)).map
    (fun e => e.connection.toNodeId)

/-- Termination universe: the start id plus every edge endpoint. -/
def Graph.searchUniv (g : Graph) (extra : List String) : Finset String :=
  extra.toFinset ∪ (g.edges.map (fun e => e.connection.fromNodeId)).toFinset ∪
    (g.edges.map (fun e => e.connection.toNodeId)).toFinset

/-- `Graph.get_downstream_nodes`: forward BFS from `nodeId`; the start node
itself is discarded from the result.  Python returns the visited set as a
list in arbitrary (set) order; the embedding keeps the set. -/
def Graph.getDownstreamNodes (g : Graph) (nodeId : String) : Finset String :=
  (walk g.forwardTargets (g.searchUniv [nodeId]) [nodeId] ∅).erase nodeId

/-- `Graph.mark_stale`: set the stale flag on the node and every downstream
node.  Python mutates each looked-up node object; under unique node ids this
equals one pass over the entries. -/
def Graph.markStale (g : Graph) (nodeId : String) : Graph :=
  let ds := g.getDownstreamNodes nodeId
  { g with nodes := g.nodes.map (fun p =>
      if p.1 = nodeId ∨ p.1 ∈ ds then (p.1, { p.2 with stale := true }) else p) }

/-- `get_required_nodes` (`domain/services/graph_utils.py`): backwards
reachability from the output ids over dependency edges. -/
def Graph.getRequiredNodes (g : Graph) (outputs : List String) : Finset String :=
  walk g.getDependencies (g.searchUniv outputs) outputs ∅

/-! ## Cycle detection (`Graph._would_create_cycle`) -/

/-- Append a value to the list stored at the (first) entry of a key
(`adj[k].append(v)`); no-op when the key is absent. -/
def aappendVal : List (String × List String) → String → String → List (String × List String)
  | [], _, _ => []
  | p :: t, k, v => if p.1 = k then (p.1, p.2 ++ [v]) :: t else p :: aappendVal t k v

/-- `adj = {nid: [] for nid in self.nodes}; for edge: adj[src].append(dst)`.
Python raises `KeyError` for an edge whose source is not a node; the
embedding skips such an edge, a branch unreachable for the well-formed
graphs `add_edge` operates on. -/
def Graph.buildAdjBase (g : Graph) : List (String × List String) :=
  g.edges.foldl (fun acc e =>
    if (alookup acc e.connection.fromNodeId).isSome then
      aappendVal acc e.connection.fromNodeId e.connection.toNodeId
    else acc)
    (g.nodes.map (fun p => (p.1, ([] : List String))))

/-- `adj.setdefault(new_conn.from_node_id, []).append(new_conn.to_node_id)`
on top of the per-node adjacency. -/
def Graph.buildAdjWith (g : Graph) (conn : Connection) : List (String × List String) :=
  let base := g.buildAdjBase
  if (alookup base conn.fromNodeId).isSome then
    aappendVal base conn.fromNodeId conn.toNodeId
  else base ++ [(conn.fromNodeId, [conn.toNodeId])]

/-- Neighbour lookup `adj.get(node, [])`. -/
def adjGet (adj : List (String × List String)) (n : String) : List String :=
  (alookup adj n).getD []

/-- The recursion of `has_cycle`: scan the neighbour list of the node on top
of the recursion stack.  `visited` only ever grows (witnessed by the subtype),
`stack` is exactly the current call path (Python's `rec_stack`, which is
popped on exit, equals the path at every instant).  The `univ` fallback
branch is unreachable when every reachable id lies in `univ`. -/
def dfsGo (adjF : String → List String) (univ : Finset String) :
    (neighbors : List String) → (visited : Finset String) → (stack : List String) →
    Bool × {v : Finset String // visited ⊆ v}
  | [], visited, _ => (false, ⟨visited, Finset.Subset.refl _⟩)
  | nb :: rest, visited, stack =>
    if nb ∈ visited then
      if nb ∈ stack then (true, ⟨visited, Finset.Subset.refl _⟩)
      else dfsGo adjF univ rest visited stack
    else
      if nb ∈ univ then
        match dfsGo adjF univ (adjF nb) (insert nb visited) (nb :: stack) with
        | (true, v) => (true, ⟨v.1, Finset.Subset.trans (Finset.subset_insert _ _) v.2⟩)
        | (false, v) =>
          match dfsGo adjF univ rest v.1 stack with
          | (c, v') =>
            (c, ⟨v'.1, Finset.Subset.trans
                  (Finset.Subset.trans (Finset.subset_insert _ _) v.2) v'.2⟩)
      else
        match dfsGo adjF univ rest (insert nb visited) stack with
        | (c, v) => (c, ⟨v.1, Finset.Subset.trans (Finset.subset_insert _ _) v.2⟩)
termination_by neighbors visited stack => ((univ \ visited).card, neighbors.length)
decreasing_by
  · apply Prod.Lex.right
    simp
  · apply Prod.Lex.left
    apply Finset.card_lt_card
    constructor
    · exact Finset.sdiff_subset_sdiff (le_refl univ) (Finset.subset_insert _ _)
    · intro hsub
      have hmem : nb ∈ univ \ visited := Finset.mem_sdiff.mpr ⟨by assumption, by assumption⟩
      have := hsub hmem
      simp [Finset.mem_sdiff] at this
  · rcases lt_or_eq_of_le (Finset.card_le_card
      (Finset.sdiff_subset_sdiff (le_refl univ)
        (Finset.Subset.trans (Finset.subset_insert nb visited) v.2))) with hlt | heq
    · exact Prod.Lex.left _ _ hlt
    · rw [heq]
      apply Prod.Lex.right
      simp
  · have hEq : univ \ insert nb visited = univ \ visited := by
      ext x
      simp only [Finset.mem_sdiff, Finset.mem_insert]
      constructor
      · rintro ⟨hx, hni⟩
        exact ⟨hx, fun hv => hni (Or.inr hv)⟩
      · rintro ⟨hx, hni⟩
        refine ⟨hx, fun hv => ?_⟩
        rcases hv with hv | hv
        · subst hv; exact absurd hx (by assumption)
        · exact hni hv
    rw [hEq]
    apply Prod.Lex.right
    simp

/-- `has_cycle(node)`: mark the node visited, push it on the recursion
stack and scan its neighbours. -/
def hasCycleFromNode (adjF : String → List String) (univ : Finset String)
    (n : String) (visited : Finset String) : Bool × {v : Finset String // visited ⊆ v} :=
  match dfsGo adjF univ (adjF n) (insert n visited) [n] with
  | (c, v) => (c, ⟨v.1, Finset.Subset.trans (Finset.subset_insert _ _) v.2⟩)

/-- The outer loop `for nid in adj: if nid not in visited: has_cycle(nid)`. -/
def dfsScan (adjF : String → List String) (univ : Finset String) :
    List String → Finset String → Bool
  | [], _ => false
  | k :: rest, visited =>
    if k ∈ visited then dfsScan adjF univ rest visited
    else
      match hasCycleFromNode adjF univ k visited with
      | (true, _) => true
      | (false, v) => dfsScan adjF univ rest v.1

/-- Termination universe for the DFS: every key and every listed neighbour. -/
def adjUniv (adj : List (String × List String)) : Finset String :=
  (akeys adj).toFinset ∪ ((adj.map Prod.snd).flatten).toFinset

/-- `Graph._would_create_cycle`: DFS over the adjacency extended with the
prospective connection. -/
def Graph.wouldCreateCycle (g : Graph) (conn : Connection) : Bool :=
  let adj := g.buildAdjWith conn
  dfsScan (adjGet adj) (adjUniv adj) (akeys adj) ∅

/-! ## Edge insertion and the use-case operations -/

/-- The failure modes of `Graph.add_edge` (Python raises `ValueError` with
four distinct messages; the claim groups the first two as "not found"). -/
inductive EdgeErr
  | nodeNotFound | portNotFound | incompatible | cycle
deriving DecidableEq, Repr

/-- `Graph.add_edge`: validate endpoints, ports, compatibility and
acyclicity in that order, then append the edge.  All checks precede the
mutation, so a failing call leaves the graph unchanged. -/
def Graph.addEdge (g : Graph) (e : Edge) : Except EdgeErr Graph :=
  let conn := e.connection
  match g.getNode conn.fromNodeId, g.getNode conn.toNodeId with
  | some fromNode, some toNode =>
    match fromNode.getOutputPort conn.fromPortId, toNode.getInputPort conn.toPortId with
    | some fromPort, some toPort =>
      if ¬ fromPort.isCompatibleWith toPort then .error .incompatible
      else if g.wouldCreateCycle conn then .error .cycle
      else .ok { g with edges := g.edges ++ [e] }
    | _, _ => .error .portNotFound
  | _, _ => .error .nodeNotFound

/-- `EdgeOperations.create_edge` (graph mutation part; repository load/save
are external): build the edge, `add_edge`, then `mark_stale(to_node_id)`. -/
def createEdge (g : Graph) (fromNodeId fromPortId toNodeId toPortId : String) :
    Except EdgeErr (Graph × Edge) :=
  let e := Edge.fromPorts fromNodeId fromPortId toNodeId toPortId
  match g.addEdge e with
  | .error err => .error err
  | .ok g' => .ok (g'.markStale toNodeId, e)

/-- `NodeOperations.delete_node` (graph mutation part; blob-store cleanup
and save are external): exactly `graph.remove_node(node_id)` — notably, no
staleness marking of former downstream nodes. -/
def deleteNode (g : Graph) (nodeId : String) : Graph :=
  g.removeNode nodeId

/-! ## Specification-side relations -/

/-- One directed step through an edge list. -/
def edgeStep (edges : List Edge) (a b : String) : Prop :=
  ∃ e ∈ edges, e.connection.fromNodeId = a ∧ e.connection.toNodeId = b

/-- A directed cycle exists somewhere in an edge list. -/
def hasDirectedCycle (edges : List Edge) : Prop :=
  ∃ n, Relation.TransGen (edgeStep edges) n n

/-- The graph is a DAG. -/
def Graph.Acyclic (g : Graph) : Prop := ¬ hasDirectedCycle g.edges

/-- Well-formedness invariant (a): every edge references existing nodes. -/
def Graph.EdgesWF (g : Graph) : Prop :=
  ∀ e ∈ g.edges, (alookup g.nodes e.connection.fromNodeId).isSome ∧
    (alookup g.nodes e.connection.toNodeId).isSome

/-- Node ids are unique (Python's dict guarantees this). -/
def Graph.NodesNodup (g : Graph) : Prop := (akeys g.nodes).Nodup

/-! ## Kahn's algorithm (`graph_utils.topological_sort`) -/

/-- `in_degree[k] -= 1` / `+= 1` style in-place update of the (first)
entry with the key; no-op when absent. -/
def mapEntry : List (String × Int) → String → (Int → Int) → List (String × Int)
  | [], _, _ => []
  | p :: t, k, f => if p.1 = k then (p.1, f p.2) :: t else p :: mapEntry t k f

/-- `in_degree = {nid: 0 for nid in graph.nodes}; for edge: in_degree[dst] += 1`.
(Python raises `KeyError` on an edge whose target is not a node; the
embedding leaves such an edge out, unreachable for well-formed graphs.) -/
def Graph.buildInDeg (g : Graph) : List (String × Int) :=
  g.edges.foldl (fun acc e =>
    if (alookup acc e.connection.toNodeId).isSome then
      mapEntry acc e.connection.toNodeId (· + 1)
    else acc)
    (g.nodes.map (fun p => (p.1, (0 : Int))))

/-- Sum of the positive parts of the in-degree table (termination measure). -/
def sumPos : List (String × Int) → Nat
  | [] => 0
  | p :: t => p.2.toNat + sumPos t

/-- The inner loop of Kahn's algorithm: for each neighbour of the popped
node, decrement its in-degree, and enqueue it when the count reaches zero.
The attached bound (the new measure plus the enqueued count never exceeds
the old measure) drives the termination of `kahnLoop`. -/
def kahnStep : (inDeg : List (String × Int)) → (targets : List String) →
    {r : List (String × Int) × List String // sumPos r.1 + r.2.length ≤ sumPos inDeg}
  | inDeg, [] => ⟨(inDeg, []), by simp⟩
  | inDeg, dst :: rest =>
    have hle : ∀ l : List (String × Int), sumPos (mapEntry l dst (· - 1)) ≤ sumPos l := by
      intro l
      induction l with
      | nil => simp [mapEntry]
      | cons p t ih =>
        by_cases hp : p.1 = dst
        · simp only [mapEntry, if_pos hp, sumPos]
          omega
        · simp only [mapEntry, if_neg hp, sumPos]
          omega
    if h : alookup (mapEntry inDeg dst (· - 1)) dst = some 0 then
      have hlt : ∀ l : List (String × Int),
          alookup (mapEntry l dst (· - 1)) dst = some 0 →
          sumPos (mapEntry l dst (· - 1)) < sumPos l := by
        intro l
        induction l with
        | nil => simp [mapEntry, alookup]
        | cons p t ih =>
          intro hl
          by_cases hp : p.1 = dst
          · simp only [mapEntry, if_pos hp, alookup, if_pos hp, Option.some.injEq] at hl
            simp only [mapEntry, if_pos hp, sumPos]
            omega
          · simp only [mapEntry, if_neg hp, alookup, if_neg hp] at hl
            have := ih hl
            simp only [mapEntry, if_neg hp, sumPos]
            omega
      let r := kahnStep (mapEntry inDeg dst (· - 1)) rest
      ⟨(r.1.1, dst :: r.1.2), by
        have h1 := r.2
        have h2 := hlt inDeg h
        simp only [List.length_cons]
        omega⟩
    else
      let r := kahnStep (mapEntry inDeg dst (· - 1)) rest
      ⟨r.1, by
        have h1 := r.2
        have h2 := hle inDeg
        omega⟩

/-- The Kahn drain loop: pop the queue head, append it to the order, then
decrement successors and enqueue the ones reaching zero. -/
def kahnLoop (adjF : String → List String) :
    (queue : List String) → (inDeg : List (String × Int)) → (order : List String) →
    List String
  | [], _, order => order
  | nid :: rest, inDeg, order =>
    let r := kahnStep inDeg (adjF nid)
    kahnLoop adjF (rest ++ r.1.2) r.1.1 (order ++ [nid])
termination_by queue inDeg _ => sumPos inDeg + queue.length
decreasing_by
  have := (kahnStep inDeg (adjF nid)).2
  simp only [List.length_append, List.length_cons]
  omega

/-- `topological_sort`: node ids in execution order. -/
def Graph.topologicalSort (g : Graph) : List String :=
  let inDeg := g.buildInDeg
  let adj := g.buildAdjBase
  let queue := (inDeg.filter (fun p => p.2 = 0)).map Prod.fst
  kahnLoop (adjGet adj) queue inDeg []

/-! ## Level partitioning (`graph_utils.topological_levels`) -/

/-- In-list predecessors of `nid`: sources of edges into `nid` that also
occur in `ids` (the `adj_reverse[dst].add(src)` collection restricted to
listed nodes, as a set). -/
def Graph.predsIn (g : Graph) (ids : List String) (nid : String) : Finset String :=
  ((g.edges.filter (fun e =>
      e.connection.toNodeId = nid ∧ e.connection.fromNodeId ∈ ids)).map
    (fun e => e.connection.fromNodeId)).toFinset

/-- The fold computing `levels[nid] = max((levels.get(p, 0) for p in preds),
default=-1) + 1` over the list in order. -/
def Graph.levelFold (g : Graph) (ids : List String) : List (String × Nat) :=
  ids.foldl (fun levels nid =>
    let preds := g.predsIn ids nid
    let lv : Nat :=
      if preds = ∅ then 0
      else (preds.sup (fun p => (alookup levels p).getD 0)) + 1
    aset levels nid lv) []

/-- The level of a node after the fold (unlisted ids default to 0). -/
def Graph.levelOf (g : Graph) (ids : List String) (nid : String) : Nat :=
  (alookup (g.levelFold ids) nid).getD 0

/-- `topological_levels`: group the listed nodes by level, levels in
increasing order, each group in list order. -/
def Graph.topologicalLevels (g : Graph) (ids : List String) : List (List String) :=
  let lvOf : String → Nat := fun nid => (alookup (g.levelFold ids) nid).getD 0
  let sortedVals := ((ids.map lvOf).dedup).insertionSort (· ≤ ·)
  sortedVals.map (fun L => ids.filter (fun nid => lvOf nid = L))

/-! ## Single-graph executor (`domain/services/graph_executor.py`)

The executor drives node handlers level by level.  Handler execution plus
input resolution is abstracted by an oracle `String → Except String
MediaResult` (the resolver reads but never writes executor state, and every
control-flow decision of the executor depends only on whether the handler
task resolved or raised).  The externally set cancellation flag is modelled
by a predicate on the level index at which it is polled.  Events carry the
event type and the node id; payload dictionaries carry no control flow. -/

inductive EvType
  | started | nodeStarted | nodeSkipped | nodeCompleted | nodeFailed
  | runCancelled | runCompleted | runFailed
deriving DecidableEq, Repr

structure EEvent where
  etype : EvType
  node : Option String := none
deriving DecidableEq, Repr

inductive ExecStatus
  | pending | running | completed | failed | cancelled
deriving DecidableEq, Repr

/-- The skip predicate shared by the executor and the batch scheduler's
`_is_skippable`: `not force and not stale and status == COMPLETED and
result is not None`. -/
def isSkippable (force : Bool) (n : Node) : Bool :=
  !force && !n.stale && decide (n.status = NodeStatus.completed) && n.result.isSome

/-- Generic in-place update of the (first) entry with a key. -/
def aupdate {α : Type} : List (String × α) → String → (α → α) → List (String × α)
  | [], _, _ => []
  | p :: t, k, f => if p.1 = k then (p.1, f p.2) :: t else p :: aupdate t k f

/-- Mutate one node object in the graph (Python mutates the instance held
in the dict). -/
def Graph.updateNode (g : Graph) (nid : String) (f : Node → Node) : Graph :=
  { g with nodes := aupdate g.nodes nid f }

instance : Inhabited MediaResult :=
  ⟨{ id := "", timestamp := 0, mediaType := .text,
     urls := { original := "", thumbnail := "" }, prompt := "",
     metadata := {} }⟩

/-- The per-level partition loop: emit `node_skipped` (seeding the node's
stored result into the run outputs) for cached nodes, collect the rest
into `to_run`.  Ids with no node are silently skipped (`if not node:
continue`).  The `getD default` never falls back: the skip predicate
includes `result is not None`. -/
def levelPartition (force : Bool) (g : Graph) (levelNodes : List String)
    (outputs0 : List (String × MediaResult)) :
    List EEvent × List (String × MediaResult) × List String :=
  levelNodes.foldl (fun acc nid =>
    match g.getNode nid with
    | none => acc
    | some node =>
      if isSkippable force node then
        (acc.1 ++ [⟨.nodeSkipped, some nid⟩],
         aset acc.2.1 nid (node.result.getD default), acc.2.2)
      else (acc.1, acc.2.1, acc.2.2 ++ [nid]))
    ([], outputs0, [])

/-- Mark every dispatched node of the level running. -/
def markRunning (g : Graph) (toRun : List String) : Graph :=
  toRun.foldl (fun gacc nid =>
    gacc.updateNode nid (fun n => { n with status := .running })) g

/-- One `node_started` event per dispatched node, in dispatch order. -/
def startEvents (toRun : List String) : List EEvent :=
  toRun.map (fun nid => ⟨.nodeStarted, some nid⟩)

/-- The post-`gather` reporting loop, in task insertion order: on an
exception mark the node failed and emit `node_failed`; on success
`add_generation`, record the output and emit `node_completed`. -/
def runResults (oracle : String → Except String MediaResult) (g : Graph)
    (outputs : List (String × MediaResult)) (toRun : List String) :
    Graph × List (String × MediaResult) × List EEvent × Bool :=
  toRun.foldl (fun acc nid =>
    match oracle nid with
    | .error msg =>
      (acc.1.updateNode nid
         (fun n => { n with status := .failed, errorMessage := some msg }),
       acc.2.1, acc.2.2.1 ++ [⟨.nodeFailed, some nid⟩], true)
    | .ok r =>
      (acc.1.updateNode nid (fun n => n.addGeneration r),
       aset acc.2.1 nid r, acc.2.2.1 ++ [⟨.nodeCompleted, some nid⟩], acc.2.2.2))
    (g, outputs, [], false)

/-- The level loop of `GraphExecutor.execute`: poll cancellation, partition
the level, dispatch, await, report; stop after a failing level. -/
def execLoop (oracle : String → Except String MediaResult) (cancelAt : Nat → Bool)
    (force : Bool) :
    List (List String) → Nat → Graph → List (String × MediaResult) → List EEvent →
    List EEvent × Graph × ExecStatus
  | [], _, g, _, events => (events ++ [⟨.runCompleted, none⟩], g, .completed)
  | level :: rest, i, g, outputs, events =>
    if cancelAt i then (events ++ [⟨.runCancelled, none⟩], g, .cancelled)
    else
      match levelPartition force g level outputs with
      | (skipEvents, outputs1, toRun) =>
        if toRun = [] then
          execLoop oracle cancelAt force rest (i + 1) g outputs1 (events ++ skipEvents)
        else
          match runResults oracle (markRunning g toRun) outputs1 toRun with
          | (g2, outputs2, resultEvents, hasFailure) =>
            if hasFailure then
              (events ++ skipEvents ++ startEvents toRun ++ resultEvents ++
                 [⟨.runFailed, none⟩], g2, .failed)
            else
              execLoop oracle cancelAt force rest (i + 1) g2 outputs2
                (events ++ skipEvents ++ startEvents toRun ++ resultEvents)

/-- `GraphExecutor.execute`: emit `started`, compute the required sub-DAG,
its topological order and its levels, then run the level loop. -/
def Graph.execute (g : Graph) (outputs : List String) (force : Bool)
    (oracle : String → Except String MediaResult) (cancelAt : Nat → Bool) :
    List EEvent × Graph × ExecStatus :=
  let required := g.getRequiredNodes outputs
  let order := g.topologicalSort.filter (fun nid => nid ∈ required)
  let levels := g.topologicalLevels order
  execLoop oracle cancelAt force levels 0 g [] [⟨.started, none⟩]

/-! ## Batch scheduler (`domain/services/batch_scheduler.py`)

The batch scheduler runs worker coroutines for many graphs on one asyncio
loop.  State mutations happen only between suspension points, so the run is
an arbitrary interleaving of the atomic blocks delimited by `await`.  The
model is a transition system: `initBatch` performs the deterministic part
(argument bookkeeping, the skip pre-pass, the initial dispatch and the
all-skipped early exit, none of which yield to other tasks), and `BStep`
relates states across one atomic block of some worker, a cancellation
request, or the terminal event emission of the drain loop.

Fidelity notes, to read alongside the source:
* `trace` records events in queue-`put` order, which is the order the drain
  loop yields them; the client-visible stream is the prefix up to the
  sentinel, so safety properties proved over `trace` hold for it.
* per-type semaphores and the priority sort only restrict or reorder
  interleavings and never change any single atomic block, so the step
  relation (which allows every interleaving) over-approximates them; the
  `ready`-phase of a worker covers the whole wait for its semaphore.
* worker-local `Node` object mutations (`status`, `error_message`) are not
  tracked; no claim about the batch path reads them.
* `promoted` is ghost bookkeeping (which parents ran their promotion
  block); it influences no step. -/

inductive GraphOutcome
  | pending | running | completed | failed | cancelled
deriving DecidableEq, Repr

/-- `SchedulableNode`: a work unit in the global pool.  The `graph` object
reference (used only by the input resolver, abstracted here by the handler
oracle) is not carried. -/
structure SNode where
  nodeId : String
  graphId : String
  nodeType : NodeType
  dependencies : Finset String
  node : Node
  canvasMemory : String := ""
deriving DecidableEq

/-- Batch events, with the payload fields the claims inspect. -/
inductive BEvent
  | batchStarted (graphIds : List String) (totalNodes : Nat)
  | nodeSkipped (graphId nodeId : String)
  | nodeStarted (graphId nodeId : String)
  | nodeCompleted (graphId nodeId : String)
  | nodeFailed (graphId nodeId : String) (err : String)
  | graphCompleted (graphId : String)
  | graphFailed (graphId : String) (err : String)
  | batchCancelled
  | batchCompleted (outcomes : List (String × GraphOutcome))
deriving DecidableEq, Repr

/-- Program counter of one worker coroutine, naming the next atomic block:
`ready` (cancel/failed-graph guard, then `node_started`), `executing`
(awaiting resolver+handler), `checkGraph` (graph-completion test after
`node_completed` was queued), `promoting` (decrement children, spawn),
`failEmitting` (second failure event), `finishing` (the `finally` block). -/
inductive WPhase
  | ready | executing | checkGraph | promoting | failEmitting | finishing
deriving DecidableEq, Repr

/-- `self._node_map[nid]` (ids are unique in every run the operations
layer builds). -/
def sfind (nodes : List SNode) (nid : String) : Option SNode :=
  nodes.find? (fun sn => sn.nodeId = nid)

/-- All node ids of the pool. -/
def snodeIds (nodes : List SNode) : List String := nodes.map (fun sn => sn.nodeId)

/-- `valid_deps = sn.dependencies & set(node_map.keys())`. -/
def validDeps (nodes : List SNode) (sn : SNode) : Finset String :=
  sn.dependencies ∩ (snodeIds nodes).toFinset

/-- `children[dep]`: reverse adjacency of the valid dependencies. -/
def childrenOf (nodes : List SNode) (pid : String) : Finset String :=
  ((nodes.filter (fun sn => pid ∈ validDeps nodes sn)).map (fun sn => sn.nodeId)).toFinset

/-- `graph_total[g]`: how many pool nodes belong to the graph. -/
def graphTotalOf (nodes : List SNode) (g : String) : Nat :=
  (nodes.filter (fun sn => sn.graphId = g)).length

/-- Static data of one batch run. -/
structure BParams where
  nodes : List SNode
  graphIds : List String
  force : Bool
  oracle : String → Except String MediaResult

/-- Mutable scheduler state (`_SchedulerState` plus the context fields and
the event stream). -/
structure BState where
  wphase : String → Option WPhase
  pending : String → Int
  finished : Finset String
  launched : Finset String
  promoted : Finset String
  failedGraphs : Finset String
  graphDone : String → Nat
  outcomes : String → Option GraphOutcome
  remaining : Int
  cancelled : Bool
  sentinel : Bool
  terminalDone : Bool
  trace : List BEvent

/-- Pointwise update of a worker phase. -/
def setPhase (w : String → Option WPhase) (n : String) (v : Option WPhase) :
    String → Option WPhase :=
  fun x => if x = n then v else w x

/-- Spawn workers in phase `ready` for each id of a set. -/
def spawnPhases (w : String → Option WPhase) (cs : Finset String) :
    String → Option WPhase :=
  fun x => if x ∈ cs then some WPhase.ready else w x

/-- `pending_deps[child] -= 1` over a set of children. -/
def decPendingMany (pending : String → Int) (cs : Finset String) : String → Int :=
  fun x => if x ∈ cs then pending x - 1 else pending x

/-- `graph_done[g] += k`. -/
def bumpGraphDone (gd : String → Nat) (g : String) (k : Nat) : String → Nat :=
  fun x => if x = g then gd x + k else gd x

/-- `graph_outcomes[g] = v`. -/
def setOutcome (oc : String → Option GraphOutcome) (g : String) (v : GraphOutcome) :
    String → Option GraphOutcome :=
  fun x => if x = g then some v else oc x

/-- State before the pre-pass: counters initialised, `batch_started`
emitted, every graph outcome seeded `pending` (as the operations layer
does before handing the context to the scheduler). -/
def batchStart (P : BParams) : BState :=
  { wphase := fun _ => none
    pending := fun nid => match sfind P.nodes nid with
      | some sn => ((validDeps P.nodes sn).card : Int)
      | none => 0
    finished := ∅
    launched := ∅
    promoted := ∅
    failedGraphs := ∅
    graphDone := fun _ => 0
    outcomes := fun g => if g ∈ P.graphIds then some GraphOutcome.pending else none
    remaining := (P.nodes.length : Int)
    cancelled := false
    sentinel := false
    terminalDone := false
    trace := [BEvent.batchStarted P.graphIds P.nodes.length] }

/-- `mark_skipped` plus its `node_skipped` event. -/
def applySkip (P : BParams) (s : BState) (sn : SNode) : BState :=
  { s with
    finished := insert sn.nodeId s.finished
    launched := insert sn.nodeId s.launched
    graphDone := bumpGraphDone s.graphDone sn.graphId 1
    remaining := s.remaining - 1
    pending := decPendingMany s.pending (childrenOf P.nodes sn.nodeId)
    trace := s.trace ++ [BEvent.nodeSkipped sn.graphId sn.nodeId] }

/-- The pre-pass over the pool in list order. -/
def prepass (P : BParams) : BState :=
  P.nodes.foldl (fun s sn => if isSkippable P.force sn.node then applySkip P s sn else s)
    (batchStart P)

/-- `get_ready_nodes()` as a set of ids: zero pending deps, not launched,
graph not failed.  (The priority sort permutes only the spawn loop, whose
resulting state is order-independent.) -/
def readySet (P : BParams) (s : BState) : Finset String :=
  ((P.nodes.filter (fun sn =>
      s.pending sn.nodeId ≤ 0 ∧ sn.nodeId ∉ s.launched ∧
        sn.graphId ∉ s.failedGraphs)).map (fun sn => sn.nodeId)).toFinset

/-- The all-skipped early exit (`if state.remaining == 0` after the
pre-pass): emit `graph_completed` for each complete graph in `graph_ids`
order, then `batch_completed` with default outcome `completed`. -/
def earlyComplete (P : BParams) (s : BState) : BState :=
  let s' := P.graphIds.foldl (fun acc gid =>
    if acc.graphDone gid ≥ graphTotalOf P.nodes gid then
      { acc with
        outcomes := setOutcome acc.outcomes gid GraphOutcome.completed
        trace := acc.trace ++ [BEvent.graphCompleted gid] }
    else acc) s
  { s' with
    terminalDone := true
    sentinel := true
    trace := s'.trace ++ [BEvent.batchCompleted
      (P.graphIds.map (fun gid => (gid, (s'.outcomes gid).getD GraphOutcome.completed)))] }

/-- The deterministic prefix of a batch run: `batch_started`, the empty
pool early exit, the skip pre-pass, the initial dispatch, and the
all-skipped early exit. -/
def initBatch (P : BParams) : BState :=
  if P.nodes = [] then
    let s := batchStart P
    { s with
      terminalDone := true
      sentinel := true
      trace := s.trace ++ [BEvent.batchCompleted []] }
  else
    let s1 := prepass P
    let ready := readySet P s1
    let s2 := { s1 with
      launched := s1.launched ∪ ready
      wphase := spawnPhases s1.wphase ready }
    if s2.remaining = 0 then earlyComplete P s2 else s2

/-- Unfinished pool mates of a failing node's graph (iterated by
`mark_graph_failed` after the failing node itself is added to
`finished`). -/
def graphMates (P : BParams) (s : BState) (sn : SNode) : Finset String :=
  ((P.nodes.filter (fun o =>
      o.graphId = sn.graphId ∧ o.nodeId ∉ insert sn.nodeId s.finished)).map
    (fun o => o.nodeId)).toFinset

/-- Children becoming ready in `promote_children`: pending hit zero, not
yet launched, graph not failed. -/
def newlyReady (P : BParams) (s : BState) (pid : String) : Finset String :=
  (childrenOf P.nodes pid).filter (fun c =>
    s.pending c - 1 ≤ 0 ∧ c ∉ s.launched ∧
      ((sfind P.nodes c).map (fun sn => decide (sn.graphId ∈ s.failedGraphs))) = some false)

/-- One atomic block of the batch run. -/
inductive BStep (P : BParams) : BState → BState → Prop
  | cancel (s : BState) :
      ¬s.cancelled →
      BStep P s { s with cancelled := true }
  | beginGuarded (s : BState) (sn : SNode) :
      sfind P.nodes sn.nodeId = some sn →
      s.wphase sn.nodeId = some WPhase.ready →
      (s.cancelled ∨ sn.graphId ∈ s.failedGraphs) →
      BStep P s { s with wphase := setPhase s.wphase sn.nodeId (some WPhase.finishing) }
  | beginRun (s : BState) (sn : SNode) :
      sfind P.nodes sn.nodeId = some sn →
      s.wphase sn.nodeId = some WPhase.ready →
      ¬(s.cancelled ∨ sn.graphId ∈ s.failedGraphs) →
      BStep P s { s with
        wphase := setPhase s.wphase sn.nodeId (some WPhase.executing)
        trace := s.trace ++ [BEvent.nodeStarted sn.graphId sn.nodeId] }
  | succeed (s : BState) (sn : SNode) (r : MediaResult) :
      sfind P.nodes sn.nodeId = some sn →
      s.wphase sn.nodeId = some WPhase.executing →
      P.oracle sn.nodeId = .ok r →
      BStep P s { s with
        wphase := setPhase s.wphase sn.nodeId (some WPhase.checkGraph)
        finished := insert sn.nodeId s.finished
        graphDone := bumpGraphDone s.graphDone sn.graphId 1
        trace := s.trace ++ [BEvent.nodeCompleted sn.graphId sn.nodeId] }
  | checkGraphDone (s : BState) (sn : SNode) :
      sfind P.nodes sn.nodeId = some sn →
      s.wphase sn.nodeId = some WPhase.checkGraph →
      s.graphDone sn.graphId ≥ graphTotalOf P.nodes sn.graphId →
      BStep P s { s with
        wphase := setPhase s.wphase sn.nodeId (some WPhase.promoting)
        outcomes := setOutcome s.outcomes sn.graphId GraphOutcome.completed
        trace := s.trace ++ [BEvent.graphCompleted sn.graphId] }
  | checkGraphPendingStep (s : BState) (sn : SNode) :
      sfind P.nodes sn.nodeId = some sn →
      s.wphase sn.nodeId = some WPhase.checkGraph →
      s.graphDone sn.graphId < graphTotalOf P.nodes sn.graphId →
      BStep P s { s with
        wphase := setPhase s.wphase sn.nodeId (some WPhase.promoting) }
  | promote (s : BState) (sn : SNode) :
      sfind P.nodes sn.nodeId = some sn →
      s.wphase sn.nodeId = some WPhase.promoting →
      BStep P s { s with
        wphase := spawnPhases (setPhase s.wphase sn.nodeId (some WPhase.finishing))
          (newlyReady P s sn.nodeId)
        pending := decPendingMany s.pending (childrenOf P.nodes sn.nodeId)
        launched := s.launched ∪ newlyReady P s sn.nodeId
        promoted := insert sn.nodeId s.promoted }
  | fail (s : BState) (sn : SNode) (msg : String) :
      sfind P.nodes sn.nodeId = some sn →
      s.wphase sn.nodeId = some WPhase.executing →
      P.oracle sn.nodeId = .error msg →
      BStep P s { s with
        wphase := setPhase s.wphase sn.nodeId (some WPhase.failEmitting)
        finished := insert sn.nodeId s.finished ∪ graphMates P s sn
        failedGraphs := insert sn.graphId s.failedGraphs
        graphDone := bumpGraphDone s.graphDone sn.graphId (graphMates P s sn).card
        remaining := s.remaining - ((graphMates P s sn).card : Int)
        outcomes := setOutcome s.outcomes sn.graphId GraphOutcome.failed
        trace := s.trace ++ [BEvent.nodeFailed sn.graphId sn.nodeId msg] }
  | failEmit (s : BState) (sn : SNode) (msg : String) :
      sfind P.nodes sn.nodeId = some sn →
      s.wphase sn.nodeId = some WPhase.failEmitting →
      P.oracle sn.nodeId = .error msg →
      BStep P s { s with
        wphase := setPhase s.wphase sn.nodeId (some WPhase.finishing)
        trace := s.trace ++ [BEvent.graphFailed sn.graphId msg] }
  | finishWorker (s : BState) (sn : SNode) :
      sfind P.nodes sn.nodeId = some sn →
      s.wphase sn.nodeId = some WPhase.finishing →
      BStep P s { s with
        wphase := setPhase s.wphase sn.nodeId none
        remaining := s.remaining - 1
        sentinel := s.sentinel ∨ s.remaining - 1 = 0 }
  | terminal (s : BState) :
      s.sentinel → ¬s.terminalDone →
      BStep P s { s with
        terminalDone := true
        trace := s.trace ++
          [if s.cancelled then BEvent.batchCancelled
           else BEvent.batchCompleted
             (P.graphIds.map (fun gid => (gid, (s.outcomes gid).getD GraphOutcome.pending)))] }

/-- Reachability of batch states from the deterministic prefix. -/
def BReach (P : BParams) (s : BState) : Prop :=
  Relation.ReflTransGen (BStep P) (initBatch P) s

/-! ## Specification-side predicates used by the claims -/

/-- One step along a successor function. -/
def succRel (succs : String → List String) (a b : String) : Prop := b ∈ succs a

/-- No cycle is reachable from `n` through `succs`. -/
def CleanFrom (succs : String → List String) (n : String) : Prop :=
  ¬ ∃ m, Relation.ReflTransGen (succRel succs) n m ∧
      Relation.TransGen (succRel succs) m m

/-- A dependency `d` has reached a terminal outcome in a single-graph
event list. -/
def sgTerminal (events : List EEvent) (d : String) : Prop :=
  EEvent.mk EvType.nodeCompleted (some d) ∈ events ∨
    EEvent.mk EvType.nodeSkipped (some d) ∈ events

/-- Single-graph dispatch discipline: every `node_started` event is
preceded by a terminal event for each of the node's dependencies inside
the required set. -/
def sgDepsRespected (g : Graph) (required : Finset String) (events : List EEvent) : Prop :=
  ∀ pre n post, events = pre ++ EEvent.mk EvType.nodeStarted (some n) :: post →
    ∀ d ∈ g.getDependencies n, d ∈ required → sgTerminal pre d

/-- A dependency `d` has reached a terminal outcome in a batch trace. -/
def bTerminal (trace : List BEvent) (d : String) : Prop :=
  (∃ gid, BEvent.nodeCompleted gid d ∈ trace) ∨
    (∃ gid, BEvent.nodeSkipped gid d ∈ trace)

/-- Batch dispatch discipline: every `node_started` event is preceded by a
terminal event for each valid dependency of the node. -/
def bDepsRespected (P : BParams) (trace : List BEvent) : Prop :=
  ∀ pre gid n post, trace = pre ++ BEvent.nodeStarted gid n :: post →
    ∀ sn, sfind P.nodes n = some sn →
      ∀ d ∈ validDeps P.nodes sn, bTerminal pre d

/-- Ids skipped by the batch pre-pass. -/
def skipSet (P : BParams) : Finset String :=
  ((P.nodes.filter (fun sn => isSkippable P.force sn.node)).map (fun sn => sn.nodeId)).toFinset

/-- `ids` is topologically ordered: every in-list predecessor of a listed
node occurs strictly earlier in the list. -/
def TopoOrdered (g : Graph) (ids : List String) : Prop :=
  ∀ v l1 l2, ids = l1 ++ v :: l2 → ∀ u ∈ g.predsIn ids v, u ∈ l1

/-- The level recurrence of the specification:
`level(n) = 1 + max(level(p) for p in predecessors(n) ∩ ids)`, roots at 0. -/
def LevelsRecurrence (g : Graph) (ids : List String) (lv : String → Nat) : Prop :=
  ∀ v ∈ ids, lv v = if g.predsIn ids v = ∅ then 0 else (g.predsIn ids v).sup lv + 1

/-- The claim about `topological_levels`: some recurrence-satisfying level
assignment exists under which the result is exactly the partition of `ids`
into level groups, listed by increasing level. -/
def LevelsClaim (g : Graph) (ids : List String) : Prop :=
  ∃ lv : String → Nat, LevelsRecurrence g ids lv ∧
    g.topologicalLevels ids =
      (((ids.map lv).dedup).insertionSort (· ≤ ·)).map
        (fun L => ids.filter (fun v => lv v = L))

/-! ## Concrete inputs for counterexamples and witnesses -/

/-- Output port name, type and description per `_PORT_SPECS`. -/
def outPortSpec : NodeType → String × PortType × String
  | .generateText => ("text", .text, "Generated text")
  | .generateImage => ("image", .image, "Generated image")
  | .generateVideo => ("video", .video, "Generated video")
  | .generateSpeech => ("audio", .audio, "Generated speech")
  | .generateMusic => ("audio", .audio, "Generated music")
  | .analyzeImage => ("text", .text, "Image description")
  | .transformImage => ("image", .image, "Modified image")

/-- `Node(...)` construction: `__post_init__` initialises the ports from
`_PORT_SPECS` (one `any` input named `in`, one typed output). -/
def mkNode (i : String) (t : NodeType) (ps : Params := []) : Node :=
  { id := i, type := t, label := i, params := ps, position := ⟨0, 0⟩
    inputPorts := [{ id := i ++ "_input_in", name := "in", portType := .any,
                     direction := .input, description := "Input from upstream node" }]
    outputPorts := [{ id := i ++ "_output_" ++ (outPortSpec t).1, name := (outPortSpec t).1,
                      portType := (outPortSpec t).2.1, direction := .output,
                      description := (outPortSpec t).2.2 }] }

/-- A text node `a` feeding an image node `b`. -/
def gAB : Graph :=
  { id := "g", name := "g"
    nodes := [("a", mkNode "a" .generateText), ("b", mkNode "b" .generateImage)]
    edges := [Edge.fromPorts "a" "a_output_text" "b" "b_input_in"] }

/-- Same two nodes, no edge yet. -/
def gABnoEdge : Graph :=
  { id := "g", name := "g"
    nodes := [("a", mkNode "a" .generateText), ("b", mkNode "b" .generateImage)] }

/-- Chain `a → b → c` of text nodes. -/
def gChain3 : Graph :=
  { id := "g3", name := "g3"
    nodes := [("a", mkNode "a" .generateText), ("b", mkNode "b" .generateText),
              ("c", mkNode "c" .generateText)]
    edges := [Edge.fromPorts "a" "a_output_text" "b" "b_input_in",
              Edge.fromPorts "b" "b_output_text" "c" "c_input_in"] }

/-- A graph whose node map is empty while an edge mentioning `a` and `b`
dangles (reachable through deserialisation, not through `add_edge`). -/
def gDangling : Graph :=
  { id := "gd", name := "gd"
    edges := [Edge.fromPorts "a" "a_output_text" "b" "b_input_in"] }

/-- A node whose params read `enrich = false` but `human_edited = true`. -/
def nodeEnrichCE : Node :=
  mkNode "n" .generateText
    [("enrich", PValue.bool false), ("human_edited", PValue.bool true)]

/-- A canned successful result. -/
def demoResult (i : String) : MediaResult :=
  { id := i ++ "_r", timestamp := 0, mediaType := .text,
    urls := { original := i, thumbnail := i }, prompt := i, metadata := {} }

/-- Handler oracle: everything succeeds. -/
def demoOracle : String → Except String MediaResult :=
  fun nid => .ok (demoResult nid)

/-- Handler oracle: node `b` raises, the rest succeed. -/
def failBOracle : String → Except String MediaResult :=
  fun nid => if nid = "b" then .error "boom" else .ok (demoResult nid)

/-- A node already completed with a stored result and not stale (the
cached state the skip predicate accepts). -/
def completedNode (i : String) : Node :=
  { mkNode i .generateText with status := .completed, result := some (demoResult i) }

/-- Batch pool for the C2 scenario: graph `G1` holds one node `a1` whose
handler raises; graph `G2` holds one node `b2` that is already completed
and is skipped by the pre-pass. -/
def snodeA1 : SNode :=
  { nodeId := "a1", graphId := "G1", nodeType := .generateText,
    dependencies := ∅, node := mkNode "a1" .generateText }

def snodeB2 : SNode :=
  { nodeId := "b2", graphId := "G2", nodeType := .generateText,
    dependencies := ∅, node := completedNode "b2" }

def batchP2 : BParams :=
  { nodes := [snodeA1, snodeB2], graphIds := ["G1", "G2"], force := false,
    oracle := fun nid => if nid = "a1" then .error "boom" else .ok (demoResult nid) }

/-- Batch pool for the C1 witness: `a1 → b1` inside one graph. -/
def snodeC1a : SNode :=
  { nodeId := "a1", graphId := "G1", nodeType := .generateText,
    dependencies := ∅, node := mkNode "a1" .generateText }

def snodeC1b : SNode :=
  { nodeId := "b1", graphId := "G1", nodeType := .generateText,
    dependencies := {"a1"}, node := mkNode "b1" .generateText }

def batchP1 : BParams :=
  { nodes := [snodeC1a, snodeC1b], graphIds := ["G1"], force := false,
    oracle := fun nid => .ok (demoResult nid) }

/-- Edges into `a` whose source has not been processed yet (the value
Kahn's in-degree table holds for `a` once `done` is the set of emitted
nodes). -/
def pendInto (edges : List Edge) (done : Finset String) (a : String) : Nat :=
  (edges.filter (fun e =>
    e.connection.toNodeId = a ∧ e.connection.fromNodeId ∉ done)).length

/-- One step of the `levelPartition` fold, named for the proofs below. -/
def lpStep (force : Bool) (g : Graph)
    (acc : List EEvent × List (String × MediaResult) × List String) (nid : String) :
    List EEvent × List (String × MediaResult) × List String :=
  match g.getNode nid with
  | none => acc
  | some node =>
    if isSkippable force node then
      (acc.1 ++ [⟨.nodeSkipped, some nid⟩],
       aset acc.2.1 nid (node.result.getD default), acc.2.2)
    else (acc.1, acc.2.1, acc.2.2 ++ [nid])

/-- One step of the `runResults` fold, named for the proofs below. -/
def rrStep (oracle : String → Except String MediaResult)
    (acc : Graph × List (String × MediaResult) × List EEvent × Bool) (nid : String) :
    Graph × List (String × MediaResult) × List EEvent × Bool :=
  match oracle nid with
  | .error msg =>
    (acc.1.updateNode nid
       (fun n => { n with status := .failed, errorMessage := some msg }),
     acc.2.1, acc.2.2.1 ++ [⟨.nodeFailed, some nid⟩], true)
  | .ok r =>
    (acc.1.updateNode nid (fun n => n.addGeneration r),
     aset acc.2.1 nid r, acc.2.2.1 ++ [⟨.nodeCompleted, some nid⟩], acc.2.2.2)

/-- A one-node graph whose single node is already completed (witness input
for the re-run claim). -/
def gDone : Graph :=
  { id := "gd1", name := "gd1", nodes := [("a", completedNode "a")], edges := [] }

/-- The inductive invariant of the batch run that yields the dispatch
discipline: the trace respects dependencies so far; the pending counter of
each pool node equals its valid-dependency count minus the pre-skipped or
promoted ones; pre-skipped and promoted nodes are terminal in the trace;
ready workers have all their valid dependencies terminal; workers past a
successful execution have their completion event in the trace; plus the
phase/launch bookkeeping making each step's accounting exact. -/
def BInv (P : BParams) (s : BState) : Prop :=
  bDepsRespected P s.trace ∧
  (∀ c sn, sfind P.nodes c = some sn →
    s.pending c = ((validDeps P.nodes sn).card : Int) -
      (((validDeps P.nodes sn) ∩ (skipSet P ∪ s.promoted)).card : Int)) ∧
  (∀ d ∈ skipSet P, bTerminal s.trace d) ∧
  (∀ d ∈ s.promoted, bTerminal s.trace d) ∧
  (∀ n, s.wphase n = some WPhase.ready →
    ∃ sn, sfind P.nodes n = some sn ∧ ∀ d ∈ validDeps P.nodes sn, bTerminal s.trace d) ∧
  (∀ n, s.wphase n = some WPhase.checkGraph ∨ s.wphase n = some WPhase.promoting →
    ∃ gid, BEvent.nodeCompleted gid n ∈ s.trace) ∧
  (∀ n ∈ s.promoted, s.wphase n = some WPhase.finishing ∨ s.wphase n = none) ∧
  s.promoted ⊆ s.launched ∧
  (∀ n, s.wphase n ≠ none → n ∈ s.launched) ∧
  skipSet P ⊆ s.launched ∧
  (∀ n ∈ skipSet P, s.wphase n = none)

/-- Facts preserved along every batch step on `batchP2`: node `b2` never
acquires a worker phase, worker `a1` never reaches the graph-completion
phases (its handler raises), graph `G2`'s outcome stays `pending`, no
`graph_completed` for `G2` is ever emitted, and every emitted
`batch_completed` map carries `G2 := pending`. -/
def C2Inv (s : BState) : Prop :=
  s.wphase "b2" = none ∧
  s.wphase "a1" ≠ some WPhase.checkGraph ∧
  s.wphase "a1" ≠ some WPhase.promoting ∧
  s.outcomes "G2" = some GraphOutcome.pending ∧
  BEvent.graphCompleted "G2" ∉ s.trace ∧
  (∀ oc, BEvent.batchCompleted oc ∈ s.trace → ("G2", GraphOutcome.completed) ∉ oc)

/-! # Theorems -/

/-! ## Association-list lemmas -/

theorem aerase_eq_self {α : Type} (l : List (String × α)) (k : String)
    (h : alookup l k = none) : aerase l k = l := by
  induction l with
  | nil => simp [aerase]
  | cons p t ih =>
    by_cases hp : p.1 = k
    · simp [alookup, hp] at h
    · simp only [alookup, if_neg hp] at h
      simp [aerase, hp, ih h]

theorem alookup_isSome_of_mem {α : Type} {l : List (String × α)} {p : String × α}
    (h : p ∈ l) : (alookup l p.1).isSome := by
  induction l with
  | nil => simp at h
  | cons q t ih =>
    rcases List.mem_cons.mp h with rfl | h
    · simp [alookup]
    · by_cases hq : q.1 = p.1 <;> simp [alookup, hq, ih h]

/-! ## Worklist search: `walk` computes reachability -/

theorem walk_spec (succs : String → List String) (univ : Finset String)
    (hclosed : ∀ a ∈ univ, ∀ b ∈ succs a, b ∈ univ) :
    ∀ (frontier : List String) (visited : Finset String),
    (∀ x ∈ frontier, x ∈ univ) →
    (∀ v ∈ visited, ∀ b ∈ succs v, b ∈ visited ∨ b ∈ frontier) →
    visited ⊆ walk succs univ frontier visited ∧
    (∀ x ∈ frontier, x ∈ walk succs univ frontier visited) ∧
    (∀ v ∈ walk succs univ frontier visited, ∀ b ∈ succs v,
        b ∈ walk succs univ frontier visited) ∧
    (∀ m ∈ walk succs univ frontier visited,
        m ∈ visited ∨ ∃ s ∈ frontier, Relation.ReflTransGen (succRel succs) s m) := by
  intro frontier visited
  induction frontier, visited using walk.induct succs univ with
  | case1 visited =>
    intro _ hinv
    rw [walk]
    refine ⟨Finset.Subset.refl _, by simp, ?_, fun m hm => Or.inl hm⟩
    intro v hv b hb
    rcases hinv v hv b hb with h | h
    · exact h
    · simp at h
  | case2 n rest visited hn ih =>
    intro hfront hinv
    rw [walk, if_pos hn]
    have hfront' : ∀ x ∈ rest, x ∈ univ := fun x hx => hfront x (List.mem_cons_of_mem _ hx)
    have hinv' : ∀ v ∈ visited, ∀ b ∈ succs v, b ∈ visited ∨ b ∈ rest := by
      intro v hv b hb
      rcases hinv v hv b hb with h | h
      · exact Or.inl h
      · rcases List.mem_cons.mp h with rfl | h
        · exact Or.inl hn
        · exact Or.inr h
    obtain ⟨ha, hb, hc, hd⟩ := ih hfront' hinv'
    refine ⟨ha, ?_, hc, ?_⟩
    · intro x hx
      rcases List.mem_cons.mp hx with rfl | hx
      · exact ha hn
      · exact hb x hx
    · intro m hm
      rcases hd m hm with h | ⟨s, hs, hrtg⟩
      · exact Or.inl h
      · exact Or.inr ⟨s, List.mem_cons_of_mem _ hs, hrtg⟩
  | case3 n rest visited hn hu ih =>
    intro hfront hinv
    rw [walk, if_neg hn, if_pos hu]
    have hfront' : ∀ x ∈ rest ++ succs n, x ∈ univ := by
      intro x hx
      rcases List.mem_append.mp hx with hx | hx
      · exact hfront x (List.mem_cons_of_mem _ hx)
      · exact hclosed n hu x hx
    have hinv' : ∀ v ∈ insert n visited, ∀ b ∈ succs v, b ∈ insert n visited ∨ b ∈ rest ++ succs n := by
      intro v hv b hb
      rcases Finset.mem_insert.mp hv with rfl | hv
      · exact Or.inr (List.mem_append.mpr (Or.inr hb))
      · rcases hinv v hv b hb with h | h
        · exact Or.inl (Finset.mem_insert_of_mem h)
        · rcases List.mem_cons.mp h with rfl | h
          · exact Or.inl (Finset.mem_insert_self _ _)
          · exact Or.inr (List.mem_append.mpr (Or.inl h))
    obtain ⟨ha, hb, hc, hd⟩ := ih hfront' hinv'
    refine ⟨Finset.Subset.trans (Finset.subset_insert _ _) ha, ?_, hc, ?_⟩
    · intro x hx
      rcases List.mem_cons.mp hx with rfl | hx
      · exact ha (Finset.mem_insert_self _ _)
      · exact hb x (List.mem_append.mpr (Or.inl hx))
    · intro m hm
      rcases hd m hm with h | ⟨s, hs, hrtg⟩
      · rcases Finset.mem_insert.mp h with rfl | h
        · exact Or.inr ⟨m, List.mem_cons_self _ _, Relation.ReflTransGen.refl⟩
        · exact Or.inl h
      · rcases List.mem_append.mp hs with hs | hs
        · exact Or.inr ⟨s, List.mem_cons_of_mem _ hs, hrtg⟩
        · exact Or.inr ⟨n, List.mem_cons_self _ _, Relation.ReflTransGen.head hs hrtg⟩
  | case4 n rest visited hn hu ih =>
    intro hfront _
    exact absurd (hfront n (List.mem_cons_self _ _)) hu

theorem walk_mem_iff (succs : String → List String) (univ : Finset String)
    (hclosed : ∀ a ∈ univ, ∀ b ∈ succs a, b ∈ univ)
    (frontier : List String) (hfront : ∀ x ∈ frontier, x ∈ univ) (m : String) :
    m ∈ walk succs univ frontier ∅ ↔
      ∃ s ∈ frontier, Relation.ReflTransGen (succRel succs) s m := by
  obtain ⟨_, hb, hc, hd⟩ := walk_spec succs univ hclosed frontier ∅ hfront (by simp)
  constructor
  · intro hm
    rcases hd m hm with h | h
    · simp at h
    · exact h
  · rintro ⟨s, hs, hrtg⟩
    induction hrtg with
    | refl => exact hb s hs
    | tail _ hstep ih => exact hc _ ih _ hstep

/-- Membership in the forward-successor list is exactly one edge step. -/
theorem forwardTargets_mem (g : Graph) (a b : String) :
    b ∈ g.forwardTargets a ↔ edgeStep g.edges a b := by
  simp only [Graph.forwardTargets, List.mem_map, List.mem_filter, edgeStep]
  constructor
  · rintro ⟨e, ⟨he, hsrc⟩, rfl⟩
    exact ⟨e, he, by simpa using hsrc, rfl⟩
  · rintro ⟨e, he, hsrc, rfl⟩
    exact ⟨e, ⟨he, by simpa using hsrc⟩, rfl⟩

/-- Membership in the dependency list is exactly one reversed edge step. -/
theorem getDependencies_mem (g : Graph) (a b : String) :
    b ∈ g.getDependencies a ↔ edgeStep g.edges b a := by
  simp only [Graph.getDependencies, Graph.getIncomingEdges, List.mem_map,
    List.mem_filter, edgeStep]
  constructor
  · rintro ⟨e, ⟨he, hdst⟩, rfl⟩
    exact ⟨e, he, rfl, by simpa using hdst⟩
  · rintro ⟨e, he, rfl, hdst⟩
    exact ⟨e, ⟨he, by simpa using hdst⟩, rfl⟩

theorem reflTransGen_congr {r s : String → String → Prop}
    (h : ∀ a b, r a b ↔ s a b) {a b : String} :
    Relation.ReflTransGen r a b ↔ Relation.ReflTransGen s a b :=
  ⟨Relation.ReflTransGen.mono (fun x y hxy => (h x y).mp hxy),
   Relation.ReflTransGen.mono (fun x y hxy => (h x y).mpr hxy)⟩

/-- `get_downstream_nodes` is transitive forward reachability minus the
start node. -/
theorem mem_getDownstreamNodes (g : Graph) (nid m : String) :
    m ∈ g.getDownstreamNodes nid ↔
      m ≠ nid ∧ Relation.ReflTransGen (edgeStep g.edges) nid m := by
  have hclosed : ∀ a ∈ g.searchUniv [nid], ∀ b ∈ g.forwardTargets a, b ∈ g.searchUniv [nid] := by
    intro a _ b hb
    simp only [Graph.forwardTargets, List.mem_map, List.mem_filter] at hb
    obtain ⟨e, ⟨he, _⟩, rfl⟩ := hb
    simp only [Graph.searchUniv, Finset.mem_union, List.mem_toFinset, List.mem_map]
    exact Or.inr ⟨e, he, rfl⟩
  have hfront : ∀ x ∈ [nid], x ∈ g.searchUniv [nid] := by
    intro x hx
    simp only [List.mem_singleton] at hx
    subst hx
    simp [Graph.searchUniv]
  rw [Graph.getDownstreamNodes, Finset.mem_erase,
    walk_mem_iff g.forwardTargets _ hclosed [nid] hfront m]
  simp only [List.mem_singleton, exists_eq_left]
  exact and_congr Iff.rfl (reflTransGen_congr (forwardTargets_mem g))

/-- `get_required_nodes` is backwards reachability from the outputs. -/
theorem mem_getRequiredNodes (g : Graph) (outputs : List String) (m : String) :
    m ∈ g.getRequiredNodes outputs ↔
      ∃ s ∈ outputs, Relation.ReflTransGen (fun a b => edgeStep g.edges b a) s m := by
  have hclosed : ∀ a ∈ g.searchUniv outputs, ∀ b ∈ g.getDependencies a, b ∈ g.searchUniv outputs := by
    intro a _ b hb
    simp only [Graph.getDependencies, Graph.getIncomingEdges, List.mem_map,
      List.mem_filter] at hb
    obtain ⟨e, ⟨he, _⟩, rfl⟩ := hb
    simp only [Graph.searchUniv, Finset.mem_union, List.mem_toFinset, List.mem_map]
    exact Or.inl (Or.inr ⟨e, he, rfl⟩)
  have hfront : ∀ x ∈ outputs, x ∈ g.searchUniv outputs := by
    intro x hx
    simp only [Graph.searchUniv, Finset.mem_union, List.mem_toFinset]
    exact Or.inl (Or.inl hx)
  rw [Graph.getRequiredNodes, walk_mem_iff g.getDependencies _ hclosed outputs hfront m]
  constructor
  · rintro ⟨s, hs, hrtg⟩
    exact ⟨s, hs, (reflTransGen_congr (fun a b => getDependencies_mem g a b)).mp hrtg⟩
  · rintro ⟨s, hs, hrtg⟩
    exact ⟨s, hs, (reflTransGen_congr (fun a b => getDependencies_mem g a b)).mpr hrtg⟩

/-! ## Claims C4, C8, C10 -/

/-- C4 (code bug): the claim says node removal marks every formerly
downstream node stale, with the downstream set computed before deletion.
The code (`Graph.remove_node`, called by `NodeOperations.delete_node`)
removes the node and its incident edges but never touches the stale flags:
deleting `a` from `a → b` leaves `b.stale = false` although `b` is
downstream of `a` before the deletion. -/
theorem claim_C4 :
    (deleteNode gAB "a").nodes = [("b", mkNode "b" .generateImage)] ∧
    (deleteNode gAB "a").edges = [] ∧
    "b" ∈ gAB.getDownstreamNodes "a" ∧
    ((deleteNode gAB "a").getNode "b").map Node.stale = some false := by
  refine ⟨by decide, by decide, ?_, by decide⟩
  simp +decide [gAB, mkNode, outPortSpec, Graph.getDownstreamNodes, walk,
    Graph.forwardTargets, Graph.searchUniv, Edge.fromPorts, Connection.getId]

/-- C8 counterexample: with `params = {enrich: false, human_edited: true}`
the enrichment pass *is* applied (the claim asserts it is applied only if
`params.enrich` is true): the composed prompt `"p"` comes back enriched as
`"p!"` rather than unchanged. -/
theorem claim_C8_counterexample :
    Params.getFlag nodeEnrichCE.params "enrich" true = false ∧
    maybeEnrich (fun s => s ++ "!") "p" nodeEnrichCE ≠ ("p", none) ∧
    maybeEnrich (fun s => s ++ "!") "p" nodeEnrichCE = ("p!", some "p") := by
  refine ⟨by decide, ?_, by decide⟩
  intro h
  simp [maybeEnrich, nodeEnrichCE, mkNode, Params.getFlag, alookup, PValue.truthy] at h

/-- C8 (amended): the enrichment pass is applied iff `params.enrich`
(default true) **or** `params.human_edited` (default false) is truthy;
when it is applied and the enriched text differs from the composed prompt,
the enriched text becomes the prompt and the composed pre-enrichment
prompt is recorded in `original_prompt`; when the enricher returns the
prompt unchanged, `original_prompt` stays `None`. -/
theorem claim_C8 (enricher : String → String) (prompt : String) (node : Node) :
    maybeEnrich enricher prompt node =
      if node.params.getFlag "enrich" true || node.params.getFlag "human_edited" false then
        (if enricher prompt = prompt then (prompt, none) else (enricher prompt, some prompt))
      else (prompt, none) := by
  unfold maybeEnrich
  cases hE : node.params.getFlag "enrich" true <;>
    cases hH : node.params.getFlag "human_edited" false <;>
      simp [hE, hH]

/-- C10 counterexample: `remove_node` with an id absent from the node map
is *not* always a no-op: on a graph holding a dangling edge that mentions
the absent id, the edge list shrinks. -/
theorem claim_C10_counterexample :
    alookup gDangling.nodes "a" = none ∧
    gDangling.removeNode "a" ≠ gDangling ∧
    (gDangling.removeNode "a").edges = [] ∧ gDangling.edges ≠ [] := by
  refine ⟨by decide, ?_, by decide, by decide⟩
  intro h
  have := congrArg Graph.edges h
  simp [Graph.removeNode, gDangling, Edge.fromPorts, Connection.getId] at this

/-- C10 (amended): `remove_edge` with an absent edge id is always an exact
no-op, and `remove_node` with an absent node id never raises, leaves the
node map unchanged, and is a full no-op whenever every edge references
existing nodes (graph invariant (a)); only a dangling edge naming the
absent id can disappear. -/
theorem claim_C10 :
    (∀ (g : Graph) (eid : String), eid ∉ g.edges.map Edge.id → g.removeEdge eid = g) ∧
    (∀ (g : Graph) (nid : String), alookup g.nodes nid = none →
      (g.removeNode nid).nodes = g.nodes ∧ (g.EdgesWF → g.removeNode nid = g)) := by
  constructor
  · intro g eid h
    have hfe : g.edges.filter (fun e => e.id ≠ eid) = g.edges := by
      apply List.filter_eq_self.mpr
      intro e he
      have hne : e.id ≠ eid := fun heq => h (List.mem_map.mpr ⟨e, he, heq⟩)
      simp [hne]
    unfold Graph.removeEdge
    rw [hfe]
  · intro g nid h
    refine ⟨by simp [Graph.removeNode, aerase_eq_self _ _ h], ?_⟩
    intro hwf
    have hfe : g.edges.filter (fun e =>
        e.connection.fromNodeId ≠ nid ∧ e.connection.toNodeId ≠ nid) = g.edges := by
      apply List.filter_eq_self.mpr
      intro e he
      obtain ⟨h1, h2⟩ := hwf e he
      have hne1 : e.connection.fromNodeId ≠ nid := by
        intro heq
        rw [heq, h] at h1
        simp at h1
      have hne2 : e.connection.toNodeId ≠ nid := by
        intro heq
        rw [heq, h] at h2
        simp at h2
      simp [hne1, hne2]
    unfold Graph.removeNode
    rw [hfe, aerase_eq_self _ _ h]

/-- Witness for C10 at a concrete graph and absent ids. -/
theorem claim_C10_witness :
    gAB.removeEdge "zzz" = gAB ∧
    (gAB.removeNode "zzz").nodes = gAB.nodes ∧ gAB.removeNode "zzz" = gAB :=
  ⟨claim_C10.1 gAB "zzz" (by decide),
   (claim_C10.2 gAB "zzz" (by decide)).1,
   (claim_C10.2 gAB "zzz" (by decide)).2 (by unfold Graph.EdgesWF; decide)⟩

/-! ## More association-list lemmas -/

theorem alookup_isSome_iff_mem_akeys {α : Type} (l : List (String × α)) (k : String) :
    (alookup l k).isSome ↔ k ∈ akeys l := by
  induction l with
  | nil => simp [alookup, akeys]
  | cons p t ih =>
    by_cases hp : p.1 = k
    · simp [alookup, akeys, hp]
    · simp only [alookup, if_neg hp, akeys, List.map_cons, List.mem_cons]
      rw [ih]
      simp [akeys]
      intro h
      exact absurd h.symm hp

theorem mem_of_alookup_eq_some {α : Type} {l : List (String × α)} {k : String} {v : α}
    (h : alookup l k = some v) : (k, v) ∈ l := by
  induction l with
  | nil => simp [alookup] at h
  | cons p t ih =>
    by_cases hp : p.1 = k
    · simp only [alookup, if_pos hp, Option.some.injEq] at h
      subst h
      rcases p with ⟨k', v'⟩
      simp at hp
      subst hp
      exact List.mem_cons_self _ _
    · simp only [alookup, if_neg hp] at h
      exact List.mem_cons_of_mem _ (ih h)

/-! ## DFS cycle detection: correctness

`dfsScan` over an adjacency function returns `true` exactly when the
successor relation has a directed cycle, provided every listed neighbour
lies inside the termination universe and every node with a successor is
scanned. -/

theorem transGen_congr {r s : String → String → Prop}
    (h : ∀ a b, r a b ↔ s a b) {a b : String} :
    Relation.TransGen r a b ↔ Relation.TransGen s a b :=
  ⟨Relation.TransGen.mono (fun x y hxy => (h x y).mp hxy),
   Relation.TransGen.mono (fun x y hxy => (h x y).mpr hxy)⟩

/-- Walking down a recursion stack: every member reaches the head. -/
theorem chain_stack_path (succs : String → List String) :
    ∀ (tl : List String) (hd x : String),
      List.Chain' (fun a b => a ∈ succs b) (hd :: tl) → x ∈ hd :: tl →
      Relation.ReflTransGen (succRel succs) x hd := by
  intro tl
  induction tl with
  | nil =>
    intro hd x _ hx
    simp only [List.mem_singleton] at hx
    subst hx
    exact Relation.ReflTransGen.refl
  | cons h2 t ih =>
    intro hd x hch hx
    have hlink : hd ∈ succs h2 := (List.chain'_cons.mp hch).1
    rcases List.mem_cons.mp hx with rfl | hx
    · exact Relation.ReflTransGen.refl
    · have := ih h2 x (List.chain'_cons.mp hch).2 hx
      exact this.tail hlink

/-- Soundness: a `true` answer from the neighbour scan exhibits a cycle. -/
theorem dfsGo_sound (succs : String → List String) (univ : Finset String) :
    ∀ (neighbors : List String) (visited : Finset String) (stack : List String)
      (hd : String) (tl : List String), stack = hd :: tl →
      List.Chain' (fun a b => a ∈ succs b) stack →
      (∀ x ∈ neighbors, x ∈ succs hd) →
      (dfsGo succs univ neighbors visited stack).1 = true →
      ∃ n, Relation.TransGen (succRel succs) n n := by
  intro neighbors visited stack
  induction neighbors, visited, stack using dfsGo.induct succs univ with
  | case1 stack visited =>
    intro hd tl _ _ _ hres
    rw [dfsGo] at hres
    simp at hres
  | case2 nb rest visited stack hv hs =>
    intro hd tl hstack hch hnb _
    subst hstack
    refine ⟨nb, ?_⟩
    have hpath : Relation.ReflTransGen (succRel succs) nb hd :=
      chain_stack_path succs tl hd nb hch hs
    exact Relation.TransGen.tail' hpath (hnb nb (List.mem_cons_self _ _))
  | case3 nb rest visited stack hv hs ih =>
    intro hd tl hstack hch hnb hres
    rw [dfsGo, if_pos hv, if_neg hs] at hres
    exact ih hd tl hstack hch (fun x hx => hnb x (List.mem_cons_of_mem _ hx)) hres
  | case4 nb rest visited stack hv hu v heq ih =>
    intro hd tl hstack hch hnb _
    subst hstack
    refine ih nb (hd :: tl) rfl ?_ (fun x hx => hx) ?_
    · exact List.chain'_cons.mpr ⟨hnb nb (List.mem_cons_self _ _), hch⟩
    · rw [heq]
  | case5 nb rest visited stack hv hu v heq c v' heq2 ihInner ihRest =>
    intro hd tl hstack hch hnb hres
    rw [dfsGo, if_neg hv, if_pos hu, heq] at hres
    simp only [heq2] at hres
    exact ihRest hd tl hstack hch (fun x hx => hnb x (List.mem_cons_of_mem _ hx))
      (by rw [heq2]; exact hres)
  | case6 nb rest visited stack hv hu c v heq ih =>
    intro hd tl hstack hch hnb hres
    rw [dfsGo, if_neg hv, if_neg hu] at hres
    simp only [heq] at hres
    exact ih hd tl hstack hch (fun x hx => hnb x (List.mem_cons_of_mem _ hx))
      (by rw [heq]; exact hres)

/-- Soundness of the outer scan. -/
theorem dfsScan_sound (succs : String → List String) (univ : Finset String) :
    ∀ (keys : List String) (visited : Finset String),
      dfsScan succs univ keys visited = true →
      ∃ n, Relation.TransGen (succRel succs) n n := by
  intro keys
  induction keys with
  | nil =>
    intro visited h
    rw [dfsScan] at h
    simp at h
  | cons k rest ih =>
    intro visited h
    rw [dfsScan] at h
    by_cases hk : k ∈ visited
    · rw [if_pos hk] at h
      exact ih _ h
    · rw [if_neg hk] at h
      rcases hg : dfsGo succs univ (succs k) (insert k visited) [k] with ⟨c, v⟩
      rw [hasCycleFromNode, hg] at h
      cases c
      · simp only at h
        exact ih _ h
      · exact dfsGo_sound succs univ (succs k) (insert k visited) [k] k [] rfl
          (List.chain'_singleton _) (fun x hx => hx) (by rw [hg])

/-- A node all of whose successors are clean is clean. -/
theorem clean_of_successors (succs : String → List String) (n : String)
    (h : ∀ b ∈ succs n, CleanFrom succs b) : CleanFrom succs n := by
  rintro ⟨m, hrtg, hcyc⟩
  rcases Relation.ReflTransGen.cases_head hrtg with rfl | ⟨b, hstep, hrest⟩
  · obtain ⟨b, hstep, hrest⟩ := Relation.TransGen.head'_iff.mp hcyc
    exact h b hstep ⟨n, hrest, hcyc⟩
  · exact h b hstep ⟨m, hrest, hcyc⟩

/-- Completeness invariant: a `false` answer leaves every visited
off-stack node clean, and in particular every scanned neighbour clean. -/
theorem dfsGo_complete (succs : String → List String) (univ : Finset String)
    (huniv : ∀ a : String, ∀ b ∈ succs a, b ∈ univ) :
    ∀ (neighbors : List String) (visited : Finset String) (stack : List String),
      (∀ x ∈ neighbors, x ∈ univ) →
      (∀ x ∈ stack, x ∈ visited) →
      (∀ d ∈ visited, d ∉ stack → CleanFrom succs d) →
      (dfsGo succs univ neighbors visited stack).1 = false →
      (∀ d ∈ (dfsGo succs univ neighbors visited stack).2.1, d ∉ stack → CleanFrom succs d) ∧
      (∀ x ∈ neighbors, x ∈ (dfsGo succs univ neighbors visited stack).2.1 ∧ CleanFrom succs x) := by
  intro neighbors visited stack
  induction neighbors, visited, stack using dfsGo.induct succs univ with
  | case1 stack visited =>
    intro _ hsv hcl _
    rw [dfsGo]
    exact ⟨hcl, by simp⟩
  | case2 nb rest visited stack hv hs =>
    intro _ hsv hcl hres
    rw [dfsGo, if_pos hv, if_pos hs] at hres
    simp at hres
  | case3 nb rest visited stack hv hs ih =>
    intro hnbu hsv hcl hres
    rw [dfsGo, if_pos hv, if_neg hs] at hres ⊢
    have hnbu' : ∀ x ∈ rest, x ∈ univ := fun x hx => hnbu x (List.mem_cons_of_mem _ hx)
    obtain ⟨ha, hb⟩ := ih hnbu' hsv hcl hres
    refine ⟨ha, ?_⟩
    intro x hx
    rcases List.mem_cons.mp hx with rfl | hx
    · have hsub := (dfsGo succs univ rest visited stack).2.2
      exact ⟨hsub hv, hcl x hv hs⟩
    · exact hb x hx
  | case4 nb rest visited stack hv hu v heq ih =>
    intro _ hsv hcl hres
    rw [dfsGo, if_neg hv, if_pos hu, heq] at hres
    simp at hres
  | case5 nb rest visited stack hv hu v heq c v' heq2 ihInner ihRest =>
    intro hnbu hsv hcl hres
    rw [dfsGo, if_neg hv, if_pos hu, heq] at hres ⊢
    simp only [heq2] at hres ⊢
    have hsv' : ∀ x ∈ nb :: stack, x ∈ insert nb visited := by
      intro x hx
      rcases List.mem_cons.mp hx with rfl | hx
      · exact Finset.mem_insert_self _ _
      · exact Finset.mem_insert_of_mem (hsv x hx)
    have hcl' : ∀ d ∈ insert nb visited, d ∉ nb :: stack → CleanFrom succs d := by
      intro d hd hds
      rcases Finset.mem_insert.mp hd with rfl | hd
      · exact absurd (List.mem_cons_self _ _) hds
      · exact hcl d hd (fun hmem => hds (List.mem_cons_of_mem _ hmem))
    obtain ⟨ha', hb'⟩ := ihInner (fun x hx => huniv nb x hx) hsv' hcl' (by rw [heq])
    rw [heq] at ha' hb'
    simp only at ha' hb'
    have hnbclean : CleanFrom succs nb :=
      clean_of_successors succs nb (fun b hb => (hb' b hb).2)
    have hsv2 : ∀ x ∈ stack, x ∈ v.1 := by
      intro x hx
      exact v.2 (Finset.mem_insert_of_mem (hsv x hx))
    have hcl2 : ∀ d ∈ v.1, d ∉ stack → CleanFrom succs d := by
      intro d hd hds
      by_cases hdnb : d = nb
      · subst hdnb; exact hnbclean
      · exact ha' d hd (by simp [hds, hdnb])
    have hnbu2 : ∀ x ∈ rest, x ∈ univ := fun x hx => hnbu x (List.mem_cons_of_mem _ hx)
    obtain ⟨ha'', hb''⟩ := ihRest hnbu2 hsv2 hcl2 (by rw [heq2]; exact hres)
    rw [heq2] at ha'' hb''
    simp only at ha'' hb''
    refine ⟨ha'', ?_⟩
    intro x hx
    rcases List.mem_cons.mp hx with rfl | hx
    · exact ⟨v'.2 (v.2 (Finset.mem_insert_self _ _)), hnbclean⟩
    · exact hb'' x hx
  | case6 nb rest visited stack hv hu c v heq ih =>
    intro hnbu _ _ _
    exact absurd (hnbu nb (List.mem_cons_self _ _)) hu

/-- Completeness of the outer scan: a `false` answer makes every scanned
key clean. -/
theorem dfsScan_complete (succs : String → List String) (univ : Finset String)
    (huniv : ∀ a : String, ∀ b ∈ succs a, b ∈ univ) :
    ∀ (keys : List String) (visited : Finset String),
      (∀ k ∈ keys, k ∈ univ) →
      (∀ d ∈ visited, CleanFrom succs d) →
      dfsScan succs univ keys visited = false →
      ∀ k ∈ keys, CleanFrom succs k := by
  intro keys
  induction keys with
  | nil => simp
  | cons k rest ih =>
    intro visited hku hcl hres x hx
    rw [dfsScan] at hres
    by_cases hk : k ∈ visited
    · rw [if_pos hk] at hres
      rcases List.mem_cons.mp hx with rfl | hx
      · exact hcl x hk
      · exact ih visited (fun y hy => hku y (List.mem_cons_of_mem _ hy)) hcl hres x hx
    · rw [if_neg hk] at hres
      rcases hg : dfsGo succs univ (succs k) (insert k visited) [k] with ⟨c, v⟩
      rw [hasCycleFromNode, hg] at hres
      cases c
      · simp only at hres
        have hsv : ∀ y ∈ [k], y ∈ insert k visited := by
          intro y hy
          simp only [List.mem_singleton] at hy
          subst hy
          exact Finset.mem_insert_self _ _
        have hcl' : ∀ d ∈ insert k visited, d ∉ [k] → CleanFrom succs d := by
          intro d hd hds
          rcases Finset.mem_insert.mp hd with rfl | hd
          · exact absurd (List.mem_singleton.mpr rfl) hds
          · exact hcl d hd
        obtain ⟨ha, hb⟩ := dfsGo_complete succs univ huniv (succs k) (insert k visited) [k]
          (fun y hy => huniv k y hy) hsv hcl' (by rw [hg])
        rw [hg] at ha hb
        simp only at ha hb
        have hkclean : CleanFrom succs k :=
          clean_of_successors succs k (fun b hbm => (hb b hbm).2)
        rcases List.mem_cons.mp hx with rfl | hx
        · exact hkclean
        · have hcl2 : ∀ d ∈ v.1, CleanFrom succs d := by
            intro d hd
            by_cases hdk : d = k
            · subst hdk; exact hkclean
            · exact ha d hd (by simp [hdk])
          exact ih v.1 (fun y hy => hku y (List.mem_cons_of_mem _ hy)) hcl2 hres x hx
      · simp at hres

/-- DFS decides cycle existence: the scan over all keys answers `true`
exactly when the successor relation has a directed cycle, provided listed
neighbours stay inside the universe and every edge source is scanned. -/
theorem dfsScan_cycle_iff (succs : String → List String) (univ : Finset String)
    (keys : List String)
    (huniv : ∀ a : String, ∀ b ∈ succs a, b ∈ univ)
    (hkeys : ∀ k ∈ keys, k ∈ univ)
    (hdom : ∀ a b : String, b ∈ succs a → a ∈ keys) :
    dfsScan succs univ keys ∅ = true ↔
      ∃ n, Relation.TransGen (succRel succs) n n := by
  constructor
  · exact dfsScan_sound succs univ keys ∅
  · rintro ⟨n, hcyc⟩
    by_cases hres : dfsScan succs univ keys ∅ = true
    · exact hres
    · exfalso
      have hfalse : dfsScan succs univ keys ∅ = false := by
        cases h : dfsScan succs univ keys ∅
        · rfl
        · exact absurd h hres
      have hall := dfsScan_complete succs univ huniv keys ∅ hkeys (by simp) hfalse
      obtain ⟨b, hstep, _⟩ := Relation.TransGen.head'_iff.mp hcyc
      exact hall n (hdom n b hstep) ⟨n, Relation.ReflTransGen.refl, hcyc⟩

/-! ## The virtual adjacency of `_would_create_cycle` -/

theorem alookup_aappendVal (l : List (String × List String)) (k v a : String) :
    alookup (aappendVal l k v) a =
      if a = k then (alookup l a).map (· ++ [v]) else alookup l a := by
  induction l with
  | nil => by_cases h : a = k <;> simp [aappendVal, alookup, h]
  | cons p t ih =>
    by_cases hp : p.1 = k
    · by_cases ha : p.1 = a
      · have hak : a = k := ha ▸ hp
        simp [aappendVal, alookup, hp, ha, hak]
      · by_cases hak : a = k
        · exact absurd (hp.trans hak.symm) ha
        · simp only [aappendVal, if_pos hp, alookup, if_neg ha, if_neg hak]
    · by_cases ha : p.1 = a
      · have hak : ¬ a = k := fun h => hp (by rw [ha, h])
        simp [aappendVal, alookup, hp, ha, hak]
      · simp [aappendVal, alookup, hp, ha, ih]

theorem alookup_map_const_nil {α : Type} (l : List (String × α)) (a : String) :
    alookup (l.map (fun p => (p.1, ([] : List String)))) a =
      (alookup l a).map (fun _ => ([] : List String)) := by
  induction l with
  | nil => simp [alookup]
  | cons p t ih =>
    by_cases hp : p.1 = a <;> simp [alookup, hp, ih]

theorem alookup_append {α : Type} (l1 l2 : List (String × α)) (k : String) :
    alookup (l1 ++ l2) k =
      match alookup l1 k with
      | some v => some v
      | none => alookup l2 k := by
  induction l1 with
  | nil => simp [alookup]
  | cons p t ih =>
    by_cases hp : p.1 = k <;> simp [alookup, hp, ih]

theorem foldAdj_lookup (edges : List Edge) :
    ∀ (acc : List (String × List String)) (a : String),
      alookup (edges.foldl (fun acc e =>
          if (alookup acc e.connection.fromNodeId).isSome then
            aappendVal acc e.connection.fromNodeId e.connection.toNodeId
          else acc) acc) a =
        (alookup acc a).map (fun l =>
          l ++ (edges.filter (fun e => e.connection.fromNodeId = a)).map
            (fun e => e.connection.toNodeId)) := by
  induction edges with
  | nil =>
    intro acc a
    simp only [List.foldl_nil, List.filter_nil, List.map_nil, List.append_nil]
    cases alookup acc a <;> simp
  | cons e rest ih =>
    intro acc a
    simp only [List.foldl_cons]
    by_cases hsome : (alookup acc e.connection.fromNodeId).isSome
    · rw [if_pos hsome, ih, alookup_aappendVal]
      by_cases ha : a = e.connection.fromNodeId
      · subst ha
        simp only [if_pos rfl, List.filter_cons, decide_eq_true_eq, if_pos rfl]
        cases alookup acc e.connection.fromNodeId <;>
          simp [Function.comp, List.append_assoc]
      · have hne : ¬ e.connection.fromNodeId = a := fun h => ha h.symm
        simp only [if_neg ha, List.filter_cons]
        rw [if_neg (by simp [hne])]
    · rw [if_neg hsome, ih]
      by_cases ha : a = e.connection.fromNodeId
      · subst ha
        cases h : alookup acc e.connection.fromNodeId
        · simp [h]
        · rw [h] at hsome
          simp at hsome
      · have hne : ¬ e.connection.fromNodeId = a := fun h => ha h.symm
        simp only [List.filter_cons]
        rw [if_neg (by simp [hne])]

theorem alookup_buildAdjBase (g : Graph) (a : String) :
    alookup g.buildAdjBase a =
      if (alookup g.nodes a).isSome then some (g.forwardTargets a) else none := by
  unfold Graph.buildAdjBase
  rw [foldAdj_lookup, alookup_map_const_nil]
  cases h : alookup g.nodes a <;> simp [Graph.forwardTargets]

theorem adjGet_buildAdjWith (g : Graph) (conn : Connection) (a : String) :
    adjGet (g.buildAdjWith conn) a =
      (if (alookup g.nodes a).isSome then g.forwardTargets a else []) ++
        (if a = conn.fromNodeId then [conn.toNodeId] else []) := by
  unfold Graph.buildAdjWith adjGet
  have hbase := alookup_buildAdjBase g conn.fromNodeId
  by_cases hn : (alookup g.nodes conn.fromNodeId).isSome
  · rw [if_pos hn] at hbase
    have hsome : (alookup g.buildAdjBase conn.fromNodeId).isSome := by rw [hbase]; rfl
    rw [if_pos hsome, alookup_aappendVal]
    by_cases ha : a = conn.fromNodeId
    · subst ha
      rw [if_pos rfl, if_pos rfl, hbase, if_pos hn]
      simp
    · rw [if_neg ha, if_neg ha, alookup_buildAdjBase]
      by_cases h2 : (alookup g.nodes a).isSome
      · simp [h2]
      · simp [h2]
  · rw [if_neg hn] at hbase
    have hnone2 : ¬ (alookup g.buildAdjBase conn.fromNodeId).isSome = true := by
      rw [hbase]
      simp
    rw [if_neg hnone2, alookup_append]
    by_cases ha : a = conn.fromNodeId
    · subst ha
      rw [hbase, if_neg hn]
      simp [alookup]
    · have hsingle : alookup [(conn.fromNodeId, [conn.toNodeId])] a = none := by
        simp [alookup]
        intro h
        exact absurd h.symm ha
      rw [alookup_buildAdjBase, if_neg ha]
      by_cases h2 : (alookup g.nodes a).isSome
      · simp [h2, hsingle]
      · simp [h2, hsingle]

theorem mem_adjGet_buildAdjWith (g : Graph) (conn : Connection)
    (hwf : ∀ e ∈ g.edges, (alookup g.nodes e.connection.fromNodeId).isSome) (a b : String) :
    b ∈ adjGet (g.buildAdjWith conn) a ↔
      edgeStep g.edges a b ∨ (a = conn.fromNodeId ∧ b = conn.toNodeId) := by
  rw [adjGet_buildAdjWith, List.mem_append]
  constructor
  · rintro (h | h)
    · by_cases hp : (alookup g.nodes a).isSome
      · rw [if_pos hp] at h
        exact Or.inl ((forwardTargets_mem g a b).mp h)
      · rw [if_neg hp] at h
        simp at h
    · by_cases ha : a = conn.fromNodeId
      · rw [if_pos ha] at h
        simp only [List.mem_singleton] at h
        exact Or.inr ⟨ha, h⟩
      · rw [if_neg ha] at h
        simp at h
  · rintro (h | ⟨rfl, rfl⟩)
    · left
      have hp : (alookup g.nodes a).isSome := by
        obtain ⟨e, he, hsrc, _⟩ := h
        rw [← hsrc]
        exact hwf e he
      rw [if_pos hp]
      exact (forwardTargets_mem g a b).mpr h
    · right
      simp

theorem adjGet_mem_akeys {adj : List (String × List String)} {a b : String}
    (h : b ∈ adjGet adj a) : a ∈ akeys adj := by
  rw [← alookup_isSome_iff_mem_akeys]
  unfold adjGet at h
  cases hm : alookup adj a
  · rw [hm] at h
    simp at h
  · simp [hm]

theorem adjGet_mem_adjUniv {adj : List (String × List String)} {a b : String}
    (h : b ∈ adjGet adj a) : b ∈ adjUniv adj := by
  unfold adjGet at h
  cases hm : alookup adj a
  · rw [hm] at h
    simp at h
  · rw [hm] at h
    simp only [Option.getD_some] at h
    have hmem := mem_of_alookup_eq_some hm
    simp only [adjUniv, Finset.mem_union, List.mem_toFinset]
    right
    rw [List.mem_flatten]
    refine ⟨_, List.mem_map.mpr ⟨_, hmem, rfl⟩, h⟩

/-- `_would_create_cycle` decides whether the edge set extended by the
prospective connection has a directed cycle (for graphs whose edge
sources exist, the domain `add_edge` operates on). -/
theorem wouldCreateCycle_iff (g : Graph) (conn : Connection)
    (hwf : ∀ e ∈ g.edges, (alookup g.nodes e.connection.fromNodeId).isSome) :
    g.wouldCreateCycle conn = true ↔
      ∃ n, Relation.TransGen
        (fun a b => edgeStep g.edges a b ∨ (a = conn.fromNodeId ∧ b = conn.toNodeId)) n n := by
  unfold Graph.wouldCreateCycle
  rw [dfsScan_cycle_iff _ _ _ (fun a b hb => adjGet_mem_adjUniv hb)
    (fun k hk => by simp [adjUniv, Finset.mem_union, hk])
    (fun a b hb => adjGet_mem_akeys hb)]
  constructor
  · rintro ⟨n, hcyc⟩
    exact ⟨n, (transGen_congr (mem_adjGet_buildAdjWith g conn hwf)).mp hcyc⟩
  · rintro ⟨n, hcyc⟩
    exact ⟨n, (transGen_congr (mem_adjGet_buildAdjWith g conn hwf)).mpr hcyc⟩


/-! ## Edge insertion: compatibility, staleness marking, claims C5 and C9 -/

/-- The Boolean compatibility check agrees with the specification's
predicate: directions differ, and either side is `any` or the types
are equal. -/
theorem isCompatibleWith_iff (p q : Port) :
    p.isCompatibleWith q = true ↔
      (p.direction ≠ q.direction ∧
        (p.portType = PortType.any ∨ q.portType = PortType.any ∨
          p.portType = q.portType)) := by
  unfold Port.isCompatibleWith
  split_ifs with h1 h2
  · simp [h1]
  · rcases h2 with h2 | h2 <;> simp [h1, h2]
  · constructor
    · intro hb
      refine ⟨h1, Or.inr (Or.inr (by simpa using hb))⟩
    · rintro ⟨_, h | h | h⟩
      · exact absurd h (by tauto)
      · exact absurd h (by tauto)
      · simpa using h
  
theorem alookup_condMap {α : Type} (l : List (String × α)) (cond : String → Prop)
    [DecidablePred cond] (f : α → α) (k : String) :
    alookup (l.map (fun p => if cond p.1 then (p.1, f p.2) else p)) k =
      (alookup l k).map (fun v => if cond k then f v else v) := by
  induction l with
  | nil => simp [alookup]
  | cons p t ih =>
    by_cases hc : cond p.1
    · by_cases hk : p.1 = k
      · subst hk
        simp [alookup, hc]
      · simp [alookup, hk, ih, hc]
    · by_cases hk : p.1 = k
      · subst hk
        simp [alookup, hc]
      · simp [alookup, hk, ih, hc]

/-- Downstream membership as a transitive step. -/
theorem mem_getDownstreamNodes_transGen (g : Graph) (nid m : String) :
    m ∈ g.getDownstreamNodes nid ↔
      m ≠ nid ∧ Relation.TransGen (edgeStep g.edges) nid m := by
  rw [mem_getDownstreamNodes]
  constructor
  · rintro ⟨hne, hrtg⟩
    rcases Relation.reflTransGen_iff_eq_or_transGen.mp hrtg with rfl | h
    · exact absurd rfl hne
    · exact ⟨hne, h⟩
  · rintro ⟨hne, htg⟩
    exact ⟨hne, htg.to_reflTransGen⟩

theorem edgeStep_append (edges : List Edge) (e : Edge) (a b : String) :
    edgeStep (edges ++ [e]) a b ↔
      edgeStep edges a b ∨ (a = e.connection.fromNodeId ∧ b = e.connection.toNodeId) := by
  simp only [edgeStep, List.mem_append, List.mem_singleton]
  constructor
  · rintro ⟨e', (he | rfl), hsrc, hdst⟩
    · exact Or.inl ⟨e', he, hsrc, hdst⟩
    · exact Or.inr ⟨hsrc.symm, hdst.symm⟩
  · rintro (⟨e', he, hsrc, hdst⟩ | ⟨rfl, rfl⟩)
    · exact ⟨e', Or.inl he, hsrc, hdst⟩
    · exact ⟨e, Or.inr rfl, rfl, rfl⟩

/-- A rank function strictly increasing along edges rules out cycles. -/
theorem acyclic_of_rank (edges : List Edge) (f : String → Nat)
    (h : ∀ a b, edgeStep edges a b → f a < f b) : ¬ hasDirectedCycle edges := by
  rintro ⟨n, hcyc⟩
  have mono : ∀ x y : String, Relation.TransGen (edgeStep edges) x y → f x < f y := by
    intro x y hxy
    induction hxy with
    | single hs => exact h _ _ hs
    | tail _ hs ih => exact lt_trans ih (h _ _ hs)
  exact lt_irrefl _ (mono n n hcyc)

/-- The stale flags written by `mark_stale`. -/
theorem alookup_markStale (g : Graph) (nodeId nid : String) :
    alookup (g.markStale nodeId).nodes nid =
      (alookup g.nodes nid).map (fun n =>
        if nid = nodeId ∨ nid ∈ g.getDownstreamNodes nodeId then
          { n with stale := true } else n) := by
  unfold Graph.markStale
  exact alookup_condMap g.nodes
    (fun x => x = nodeId ∨ x ∈ g.getDownstreamNodes nodeId)
    (fun n => { n with stale := true }) nid

/-- C5 (helper shape): `createEdge` rejects a graph-level cycle check iff
the extended edge list has a directed cycle. -/
theorem wouldCreateCycle_append_iff (g : Graph) (e : Edge)
    (hwf : ∀ e' ∈ g.edges, (alookup g.nodes e'.connection.fromNodeId).isSome) :
    g.wouldCreateCycle e.connection = true ↔ hasDirectedCycle (g.edges ++ [e]) := by
  rw [wouldCreateCycle_iff g e.connection hwf]
  unfold hasDirectedCycle
  constructor
  · rintro ⟨n, hcyc⟩
    exact ⟨n, (transGen_congr (fun a b => (edgeStep_append g.edges e a b).symm)).mp hcyc⟩
  · rintro ⟨n, hcyc⟩
    exact ⟨n, (transGen_congr (fun a b => (edgeStep_append g.edges e a b).symm)).mpr hcyc⟩


/-- C5: edge creation fails with a not-found error when an endpoint node
or port is absent, with an incompatibility error when the ports fail the
compatibility predicate (directions differ and either side is `any` or
the types are equal), with a cycle error when the edge set plus the
prospective edge has a directed cycle, and otherwise appends the edge and
marks the target node and its transitive downstream stale, leaving every
other node field unchanged; all checks precede the mutation, so failing
calls leave the graph unchanged. -/
theorem claim_C5 (g : Graph) (fromNodeId fromPortId toNodeId toPortId : String)
    (hwf : g.EdgesWF) :
    ((g.getNode fromNodeId = none ∨ g.getNode toNodeId = none) →
      createEdge g fromNodeId fromPortId toNodeId toPortId = .error .nodeNotFound) ∧
    (∀ fn tn, g.getNode fromNodeId = some fn → g.getNode toNodeId = some tn →
      (fn.getOutputPort fromPortId = none ∨ tn.getInputPort toPortId = none) →
      createEdge g fromNodeId fromPortId toNodeId toPortId = .error .portNotFound) ∧
    (∀ fn tn fp tp, g.getNode fromNodeId = some fn → g.getNode toNodeId = some tn →
      fn.getOutputPort fromPortId = some fp → tn.getInputPort toPortId = some tp →
      ¬(fp.direction ≠ tp.direction ∧
          (fp.portType = PortType.any ∨ tp.portType = PortType.any ∨
            fp.portType = tp.portType)) →
      createEdge g fromNodeId fromPortId toNodeId toPortId = .error .incompatible) ∧
    (∀ fn tn fp tp, g.getNode fromNodeId = some fn → g.getNode toNodeId = some tn →
      fn.getOutputPort fromPortId = some fp → tn.getInputPort toPortId = some tp →
      (fp.direction ≠ tp.direction ∧
        (fp.portType = PortType.any ∨ tp.portType = PortType.any ∨
          fp.portType = tp.portType)) →
      hasDirectedCycle (g.edges ++ [Edge.fromPorts fromNodeId fromPortId toNodeId toPortId]) →
      createEdge g fromNodeId fromPortId toNodeId toPortId = .error .cycle) ∧
    (∀ fn tn fp tp, g.getNode fromNodeId = some fn → g.getNode toNodeId = some tn →
      fn.getOutputPort fromPortId = some fp → tn.getInputPort toPortId = some tp →
      (fp.direction ≠ tp.direction ∧
        (fp.portType = PortType.any ∨ tp.portType = PortType.any ∨
          fp.portType = tp.portType)) →
      ¬hasDirectedCycle (g.edges ++ [Edge.fromPorts fromNodeId fromPortId toNodeId toPortId]) →
      ∃ g', createEdge g fromNodeId fromPortId toNodeId toPortId =
          .ok (g', Edge.fromPorts fromNodeId fromPortId toNodeId toPortId) ∧
        g'.edges = g.edges ++ [Edge.fromPorts fromNodeId fromPortId toNodeId toPortId] ∧
        (∀ nid, (alookup g'.nodes nid).isSome = (alookup g.nodes nid).isSome) ∧
        (∀ nid n₀ n', alookup g.nodes nid = some n₀ → alookup g'.nodes nid = some n' →
          { n' with stale := n₀.stale } = n₀ ∧
          (n'.stale = true ↔ (n₀.stale = true ∨ nid = toNodeId ∨
            Relation.TransGen
              (edgeStep (g.edges ++
                [Edge.fromPorts fromNodeId fromPortId toNodeId toPortId]))
              toNodeId nid)))) := by
  have hconn : (Edge.fromPorts fromNodeId fromPortId toNodeId toPortId).connection =
      ⟨fromNodeId, fromPortId, toNodeId, toPortId⟩ := rfl
  refine ⟨?_, ?_, ?_, ?_, ?_⟩
  · rintro (hf | ht)
    · rcases hto : g.getNode toNodeId with _ | tn <;>
        simp [createEdge, Graph.addEdge, hconn, hf, hto, Graph.getNode] at hf hto ⊢ <;>
        simp [hf, hto]
    · rcases hfrom : g.getNode fromNodeId with _ | fn <;>
        simp [createEdge, Graph.addEdge, hconn, ht, hfrom, Graph.getNode] at ht hfrom ⊢ <;>
        simp [ht, hfrom]
  · intro fn tn hf ht hp
    rcases hp with hp | hp
    · rcases hq : tn.getInputPort toPortId with _ | tq <;>
        simp [createEdge, Graph.addEdge, hconn, Graph.getNode] at hf ht ⊢ <;>
        simp [hf, ht, hp, hq]
    · rcases hq : fn.getOutputPort fromPortId with _ | fq <;>
        simp [createEdge, Graph.addEdge, hconn, Graph.getNode] at hf ht ⊢ <;>
        simp [hf, ht, hp, hq]
  · intro fn tn fp tp hf ht hfp htp hcompat
    have hb : fn.getOutputPort fromPortId = some fp → fp.isCompatibleWith tp = false := by
      intro _
      cases hc : fp.isCompatibleWith tp
      · rfl
      · exact absurd ((isCompatibleWith_iff fp tp).mp hc) hcompat
    simp [createEdge, Graph.addEdge, hconn, Graph.getNode] at hf ht ⊢
    simp [hf, ht, hfp, htp, hb hfp]
  · intro fn tn fp tp hf ht hfp htp hcompat hcyc
    have hb : fp.isCompatibleWith tp = true := (isCompatibleWith_iff fp tp).mpr hcompat
    have hcb : g.wouldCreateCycle
        (Edge.fromPorts fromNodeId fromPortId toNodeId toPortId).connection = true := by
      rw [wouldCreateCycle_append_iff g _ (fun e' he' => (hwf e' he').1)]
      exact hcyc
    simp [createEdge, Graph.addEdge, hconn, Graph.getNode] at hf ht hcb ⊢
    simp [hf, ht, hfp, htp, hb, hcb]
  · intro fn tn fp tp hf ht hfp htp hcompat hcyc
    have hb : fp.isCompatibleWith tp = true := (isCompatibleWith_iff fp tp).mpr hcompat
    have hcb : g.wouldCreateCycle
        (Edge.fromPorts fromNodeId fromPortId toNodeId toPortId).connection = false := by
      cases hc : g.wouldCreateCycle (Edge.fromPorts fromNodeId fromPortId toNodeId toPortId).connection
      · rfl
      · exfalso
        exact hcyc ((wouldCreateCycle_append_iff g _ (fun e' he' => (hwf e' he').1)).mp hc)
    set e := Edge.fromPorts fromNodeId fromPortId toNodeId toPortId with he
    set g2 : Graph := { g with edges := g.edges ++ [e] } with hg2
    have hadd : g.addEdge e = .ok g2 := by
      simp [Graph.addEdge, hconn, Graph.getNode] at hf ht hcb ⊢
      simp [hf, ht, hfp, htp, hb, hcb, hg2]
    refine ⟨g2.markStale toNodeId, ?_, ?_, ?_, ?_⟩
    · simp [createEdge, hadd]
    · simp [Graph.markStale, hg2]
    · intro nid
      rw [alookup_markStale]
      show ((alookup g.nodes nid).map _).isSome = (alookup g.nodes nid).isSome
      cases alookup g.nodes nid <;> rfl
    · intro nid n₀ n' h₀ h'
      rw [alookup_markStale] at h'
      have hg2nodes : alookup g2.nodes nid = some n₀ := h₀
      rw [hg2nodes] at h'
      simp only [Option.map_some'] at h'
      have hdsiff := mem_getDownstreamNodes_transGen g2 toNodeId nid
      have hedges : g2.edges = g.edges ++ [e] := rfl
      by_cases hcond : nid = toNodeId ∨ nid ∈ g2.getDownstreamNodes toNodeId
      · rw [if_pos hcond] at h'
        cases h'
        constructor
        · cases n₀
          rfl
        · simp only
          constructor
          · intro _
            rcases hcond with h | h
            · exact Or.inr (Or.inl h)
            · rw [hdsiff, hedges] at h
              exact Or.inr (Or.inr h.2)
          · intro _
            trivial
      · rw [if_neg hcond] at h'
        cases h'
        push_neg at hcond
        constructor
        · cases n₀
          rfl
        · constructor
          · intro h
            exact Or.inl h
          · rintro (h | h | h)
            · exact h
            · exact absurd h hcond.1
            · exfalso
              rw [← hedges] at h
              exact hcond.2 (hdsiff.mpr ⟨hcond.1, h⟩)

/-- Witness for C5: creating `a → b` on the two-node graph without edges
succeeds, appends the edge, and marks exactly the target stale. -/
theorem claim_C5_witness :
    ∃ g', createEdge gABnoEdge "a" "a_output_text" "b" "b_input_in" =
        .ok (g', Edge.fromPorts "a" "a_output_text" "b" "b_input_in") ∧
      g'.edges = gABnoEdge.edges ++ [Edge.fromPorts "a" "a_output_text" "b" "b_input_in"] ∧
      (∀ nid, (alookup g'.nodes nid).isSome = (alookup gABnoEdge.nodes nid).isSome) ∧
      (∀ nid n₀ n', alookup gABnoEdge.nodes nid = some n₀ → alookup g'.nodes nid = some n' →
        { n' with stale := n₀.stale } = n₀ ∧
        (n'.stale = true ↔ (n₀.stale = true ∨ nid = "b" ∨
          Relation.TransGen
            (edgeStep (gABnoEdge.edges ++
              [Edge.fromPorts "a" "a_output_text" "b" "b_input_in"])) "b" nid))) := by
  refine (claim_C5 gABnoEdge "a" "a_output_text" "b" "b_input_in"
      (by unfold Graph.EdgesWF; decide)).2.2.2.2
    (mkNode "a" .generateText) (mkNode "b" .generateImage)
    { id := "a_output_text", name := "text", portType := .text, direction := .output,
      description := "Generated text" }
    { id := "b_input_in", name := "in", portType := .any, direction := .input,
      description := "Input from upstream node" }
    (by decide) (by decide) (by decide) (by decide) (by decide) ?_
  refine acyclic_of_rank _ (fun s => if s = "b" then 1 else 0) ?_
  rintro a b ⟨e', he', h1, h2⟩
  have he'' : e' = Edge.fromPorts "a" "a_output_text" "b" "b_input_in" := by
    simpa [gABnoEdge] using he'
  subst he''
  simp only [Edge.fromPorts] at h1 h2
  subst h1
  subst h2
  decide

/-- C9: re-inserting an edge built from the same
`(from_node, from_port, to_node, to_port)` tuple as an existing edge of an
acyclic well-formed graph raises no error: `add_edge` appends a second
entry whose deterministic id string equals the existing edge's id, so the
graph afterwards holds (at least) two edge entries with identical ids —
duplicate insertion is neither rejected nor a no-op. -/
theorem claim_C9 (g : Graph) (e : Edge)
    (hwf : g.EdgesWF) (hmem : e ∈ g.edges) (hid : e.id = e.connection.getId)
    (hports : ∃ fn tn fp tp, g.getNode e.connection.fromNodeId = some fn ∧
      g.getNode e.connection.toNodeId = some tn ∧
      fn.getOutputPort e.connection.fromPortId = some fp ∧
      tn.getInputPort e.connection.toPortId = some tp ∧
      fp.isCompatibleWith tp = true)
    (hacyc : g.Acyclic) :
    g.addEdge (Edge.fromPorts e.connection.fromNodeId e.connection.fromPortId
        e.connection.toNodeId e.connection.toPortId) =
      .ok { g with edges := g.edges ++ [Edge.fromPorts e.connection.fromNodeId
        e.connection.fromPortId e.connection.toNodeId e.connection.toPortId] } ∧
    (Edge.fromPorts e.connection.fromNodeId e.connection.fromPortId
        e.connection.toNodeId e.connection.toPortId).id = e.id ∧
    2 ≤ ((g.edges ++ [Edge.fromPorts e.connection.fromNodeId e.connection.fromPortId
        e.connection.toNodeId e.connection.toPortId]).filter
          (fun e' => e'.id = e.id)).length := by
  obtain ⟨fn, tn, fp, tp, hf, ht, hfp, htp, hb⟩ := hports
  have hconn : (Edge.fromPorts e.connection.fromNodeId e.connection.fromPortId
      e.connection.toNodeId e.connection.toPortId).connection = e.connection := rfl
  have hrel : ∀ a b : String,
      (edgeStep g.edges a b ∨
        (a = e.connection.fromNodeId ∧ b = e.connection.toNodeId)) ↔
      edgeStep g.edges a b := by
    intro a b
    constructor
    · rintro (h | ⟨rfl, rfl⟩)
      · exact h
      · exact ⟨e, hmem, rfl, rfl⟩
    · exact Or.inl
  have hcb : g.wouldCreateCycle e.connection = false := by
    cases hc : g.wouldCreateCycle e.connection
    · rfl
    · exfalso
      obtain ⟨n, hcyc⟩ :=
        (wouldCreateCycle_iff g e.connection (fun e' he' => (hwf e' he').1)).mp hc
      exact hacyc ⟨n, (transGen_congr hrel).mp hcyc⟩
  have hid2 : (Edge.fromPorts e.connection.fromNodeId e.connection.fromPortId
      e.connection.toNodeId e.connection.toPortId).id = e.id := by
    rw [hid]
    rfl
  refine ⟨?_, hid2, ?_⟩
  · simp [Graph.addEdge, hconn, Graph.getNode] at hf ht ⊢
    simp [hf, ht, hfp, htp, hb, hcb]
  · rw [List.filter_append]
    have h1 : e ∈ g.edges.filter (fun e' => e'.id = e.id) :=
      List.mem_filter.mpr ⟨hmem, by simp⟩
    have h2 : (([Edge.fromPorts e.connection.fromNodeId e.connection.fromPortId
        e.connection.toNodeId e.connection.toPortId] : List Edge).filter
          (fun e' => e'.id = e.id)).length = 1 := by
      simp [hid2]
    rw [List.length_append, h2]
    have : 0 < (g.edges.filter (fun e' => e'.id = e.id)).length :=
      List.length_pos_of_mem h1
    omega

/-- Witness for C9: duplicating the `a → b` edge of the two-node graph. -/
theorem claim_C9_witness :
    gAB.addEdge (Edge.fromPorts "a" "a_output_text" "b" "b_input_in") =
      .ok { gAB with edges := gAB.edges ++
        [Edge.fromPorts "a" "a_output_text" "b" "b_input_in"] } ∧
    (Edge.fromPorts "a" "a_output_text" "b" "b_input_in").id =
      (Edge.fromPorts "a" "a_output_text" "b" "b_input_in").id ∧
    2 ≤ ((gAB.edges ++ [Edge.fromPorts "a" "a_output_text" "b" "b_input_in"]).filter
      (fun e' => e'.id = (Edge.fromPorts "a" "a_output_text" "b" "b_input_in").id)).length :=
  claim_C9 gAB (Edge.fromPorts "a" "a_output_text" "b" "b_input_in")
    (by unfold Graph.EdgesWF; decide) (by decide) (by decide)
    ⟨mkNode "a" .generateText, mkNode "b" .generateImage,
      { id := "a_output_text", name := "text", portType := .text, direction := .output,
        description := "Generated text" },
      { id := "b_input_in", name := "in", portType := .any, direction := .input,
        description := "Input from upstream node" },
      by decide, by decide, by decide, by decide, by decide⟩
    (by
      refine acyclic_of_rank _ (fun s => if s = "b" then 1 else 0) ?_
      rintro a b ⟨e', he', h1, h2⟩
      have he'' : e' = Edge.fromPorts "a" "a_output_text" "b" "b_input_in" := by
        simpa [gAB] using he'
      subst he''
      simp only [Edge.fromPorts] at h1 h2
      subst h1
      subst h2
      decide)

/-! ## Kahn in-degree accounting -/

theorem alookup_mapEntry (l : List (String × Int)) (k : String) (f : Int → Int) (a : String) :
    alookup (mapEntry l k f) a =
      if a = k then (alookup l a).map f else alookup l a := by
  induction l with
  | nil => by_cases h : a = k <;> simp [mapEntry, alookup, h]
  | cons p t ih =>
    by_cases hp : p.1 = k
    · by_cases ha : p.1 = a
      · have hak : a = k := ha ▸ hp
        simp [mapEntry, alookup, hp, ha, hak]
      · by_cases hak : a = k
        · exact absurd (hp.trans hak.symm) ha
        · simp only [mapEntry, if_pos hp, alookup, if_neg ha, if_neg hak]
    · by_cases ha : p.1 = a
      · have hak : ¬ a = k := fun h => hp (by rw [ha, h])
        simp [mapEntry, alookup, hp, ha, hak]
      · simp [mapEntry, alookup, hp, ha, ih]

theorem akeys_mapEntry (l : List (String × Int)) (k : String) (f : Int → Int) :
    akeys (mapEntry l k f) = akeys l := by
  induction l with
  | nil => simp [mapEntry]
  | cons p t ih =>
    by_cases hp : p.1 = k
    · simp [mapEntry, hp, akeys]
    · simp only [mapEntry, if_neg hp, akeys, List.map_cons] at ih ⊢
      rw [ih]

theorem alookup_map_const_zero (l : List (String × Node)) (a : String) :
    alookup (l.map (fun p => (p.1, (0 : Int)))) a =
      (alookup l a).map (fun _ => (0 : Int)) := by
  induction l with
  | nil => simp [alookup]
  | cons p t ih =>
    by_cases hp : p.1 = a <;> simp [alookup, hp, ih]

theorem foldInDeg_lookup (edges : List Edge) :
    ∀ (acc : List (String × Int)) (a : String),
      alookup (edges.foldl (fun acc e =>
          if (alookup acc e.connection.toNodeId).isSome then
            mapEntry acc e.connection.toNodeId (· + 1)
          else acc) acc) a =
        (alookup acc a).map (fun v =>
          v + ((edges.filter (fun e => e.connection.toNodeId = a)).length : Int)) := by
  induction edges with
  | nil =>
    intro acc a
    simp only [List.foldl_nil, List.filter_nil, List.length_nil]
    cases alookup acc a <;> simp
  | cons e rest ih =>
    intro acc a
    simp only [List.foldl_cons]
    by_cases hsome : (alookup acc e.connection.toNodeId).isSome
    · rw [if_pos hsome, ih, alookup_mapEntry]
      by_cases ha : a = e.connection.toNodeId
      · subst ha
        simp only [List.filter_cons, decide_eq_true_eq, eq_self_iff_true, if_true]
        rw [Option.map_map]
        congr 1
        funext w
        simp only [Function.comp_apply, List.length_cons]
        push_cast
        ring
      · have hne : ¬ e.connection.toNodeId = a := fun h => ha h.symm
        simp only [if_neg ha, List.filter_cons]
        rw [if_neg (by simp [hne])]
    · rw [if_neg hsome, ih]
      by_cases ha : a = e.connection.toNodeId
      · subst ha
        have hnone : alookup acc e.connection.toNodeId = none := by
          cases halk : alookup acc e.connection.toNodeId
          · rfl
          · rw [halk] at hsome
            simp at hsome
        simp [hnone]
      · have hne : ¬ e.connection.toNodeId = a := fun h => ha h.symm
        simp only [List.filter_cons]
        rw [if_neg (by simp [hne])]

theorem akeys_foldInDeg (edges : List Edge) :
    ∀ acc : List (String × Int),
      akeys (edges.foldl (fun acc e =>
        if (alookup acc e.connection.toNodeId).isSome then
          mapEntry acc e.connection.toNodeId (· + 1)
        else acc) acc) = akeys acc := by
  induction edges with
  | nil => intro acc; simp
  | cons e rest ih =>
    intro acc
    simp only [List.foldl_cons]
    by_cases hsome : (alookup acc e.connection.toNodeId).isSome
    · rw [if_pos hsome, ih, akeys_mapEntry]
    · rw [if_neg hsome, ih]

theorem alookup_buildInDeg (g : Graph) (a : String) :
    alookup g.buildInDeg a =
      if (alookup g.nodes a).isSome then
        some ((g.edges.filter (fun e => e.connection.toNodeId = a)).length : Int)
      else none := by
  unfold Graph.buildInDeg
  rw [foldInDeg_lookup, alookup_map_const_zero]
  cases h : alookup g.nodes a <;> simp

theorem akeys_buildInDeg (g : Graph) : akeys g.buildInDeg = akeys g.nodes := by
  unfold Graph.buildInDeg
  rw [akeys_foldInDeg]
  simp [akeys, List.map_map]

theorem pendInto_empty (edges : List Edge) (a : String) :
    pendInto edges ∅ a =
      (edges.filter (fun e => e.connection.toNodeId = a)).length := by
  unfold pendInto
  congr 1
  apply List.filter_congr
  intro e _
  simp

theorem pendInto_insert (edges : List Edge) (done : Finset String) (nid : String)
    (hnid : nid ∉ done) (a : String) :
    pendInto edges done a =
      pendInto edges (insert nid done) a +
        (edges.filter (fun e =>
          e.connection.fromNodeId = nid ∧ e.connection.toNodeId = a)).length := by
  induction edges with
  | nil => simp [pendInto]
  | cons e rest ih =>
    simp only [pendInto, List.filter_cons] at ih ⊢
    by_cases h1 : e.connection.toNodeId = a
    · by_cases h2 : e.connection.fromNodeId = nid
      · have hd : e.connection.fromNodeId ∉ done := by rw [h2]; exact hnid
        have hi : e.connection.fromNodeId ∈ insert nid done := by
          rw [h2]; exact Finset.mem_insert_self _ _
        rw [if_pos (by simp [h1, hd]), if_neg (by simp [hi]),
          if_pos (by simp [h1, h2])]
        simp only [List.length_cons]
        omega
      · by_cases h3 : e.connection.fromNodeId ∈ done
        · have hi : e.connection.fromNodeId ∈ insert nid done :=
            Finset.mem_insert_of_mem h3
          rw [if_neg (by simp [h3]), if_neg (by simp [hi]), if_neg (by simp [h2])]
          exact ih
        · have hi : e.connection.fromNodeId ∉ insert nid done := by
            simp [Finset.mem_insert, h2, h3]
          rw [if_pos (by simp [h1, h3]), if_pos (by simp [h1, hi]),
            if_neg (by simp [h2])]
          simp only [List.length_cons]
          omega
    · rw [if_neg (by simp [h1]), if_neg (by simp [h1]), if_neg (by simp [h1])]
      exact ih

theorem pendInto_eq_zero_iff (edges : List Edge) (done : Finset String) (a : String) :
    pendInto edges done a = 0 ↔
      ∀ e ∈ edges, e.connection.toNodeId = a → e.connection.fromNodeId ∈ done := by
  unfold pendInto
  rw [List.length_eq_zero, List.filter_eq_nil_iff]
  constructor
  · intro h e he hdst
    have := h e he
    simp only [decide_eq_true_eq, not_and, not_not] at this
    exact this hdst
  · intro h e he
    simp only [decide_eq_true_eq, not_and, not_not]
    exact h e he

theorem count_forwardTargets (g : Graph) (nid a : String) :
    (g.forwardTargets nid).count a =
      (g.edges.filter (fun e =>
        e.connection.fromNodeId = nid ∧ e.connection.toNodeId = a)).length := by
  unfold Graph.forwardTargets
  induction g.edges with
  | nil => simp
  | cons e rest ih =>
    simp only [List.filter_cons]
    by_cases h1 : e.connection.fromNodeId = nid
    · by_cases h2 : e.connection.toNodeId = a
      · rw [if_pos (by simp [h1]), if_pos (by simp [h1, h2])]
        simp only [List.map_cons, List.count_cons, List.length_cons, h2]
        rw [ih]
        simp
      · rw [if_pos (by simp [h1]), if_neg (by simp [h2])]
        simp only [List.map_cons, List.count_cons]
        rw [ih]
        simp [h2]
    · rw [if_neg (by simp [h1]), if_neg (by simp [h1])]
      exact ih

theorem alookup_eq_some_of_mem_nodup {α : Type} {l : List (String × α)} {k : String} {v : α}
    (hnd : (akeys l).Nodup) (hmem : (k, v) ∈ l) : alookup l k = some v := by
  induction l with
  | nil => simp at hmem
  | cons p t ih =>
    rcases List.mem_cons.mp hmem with heq | hmem2
    · rw [← heq]
      simp [alookup]
    · by_cases hp : p.1 = k
      · exfalso
        have hk : k ∈ akeys t := by
          have := List.mem_map_of_mem Prod.fst hmem2
          exact this
        have hnm : p.1 ∉ akeys t := by
          simp only [akeys, List.map_cons, List.nodup_cons] at hnd
          exact hnd.1
        rw [hp] at hnm
        exact hnm hk
      · simp only [alookup, if_neg hp]
        apply ih
        · simp only [akeys, List.map_cons, List.nodup_cons] at hnd
          exact hnd.2
        · exact hmem2

theorem append_singleton_split {α : Type} :
    ∀ (order l1 : List α) (nid v : α) (l2 : List α),
      order ++ [nid] = l1 ++ v :: l2 →
      (∃ l2c, order = l1 ++ v :: l2c ∧ l2 = l2c ++ [nid]) ∨
        (l1 = order ∧ v = nid ∧ l2 = []) := by
  intro order
  induction order with
  | nil =>
    intro l1 nid v l2 h
    cases l1 with
    | nil =>
      simp only [List.nil_append] at h
      right
      refine ⟨rfl, ?_, ?_⟩
      · exact (List.cons.injEq _ _ _ _ ▸ h : _) |>.1.symm
      · have := (List.cons.injEq _ _ _ _ ▸ h : _)
        exact this.2.symm
    | cons x xs =>
      simp only [List.nil_append, List.cons_append] at h
      have h2 := (List.cons.injEq _ _ _ _ ▸ h : _).2
      exact absurd h2.symm (by simp)
  | cons o os ih =>
    intro l1 nid v l2 h
    cases l1 with
    | nil =>
      simp only [List.cons_append, List.nil_append] at h
      have h1 := (List.cons.injEq _ _ _ _ ▸ h : _)
      left
      exact ⟨os, by rw [h1.1]; rfl, h1.2.symm⟩
    | cons x xs =>
      simp only [List.cons_append] at h
      have h1 := (List.cons.injEq _ _ _ _ ▸ h : _)
      rcases ih xs nid v l2 h1.2 with ⟨l2c, ha, hb⟩ | ⟨ha, hb, hc⟩
      · left
        exact ⟨l2c, by rw [h1.1, ha]; rfl, hb⟩
      · right
        exact ⟨by rw [h1.1, ha], hb, hc⟩

theorem kahnStep_nil (inDeg : List (String × Int)) :
    (kahnStep inDeg []).1 = (inDeg, []) := rfl

theorem kahnStep_cons_pos (inDeg : List (String × Int)) (dst : String) (rest : List String)
    (h : alookup (mapEntry inDeg dst (· - 1)) dst = some 0) :
    (kahnStep inDeg (dst :: rest)).1 =
      ((kahnStep (mapEntry inDeg dst (· - 1)) rest).1.1,
        dst :: (kahnStep (mapEntry inDeg dst (· - 1)) rest).1.2) := by
  simp only [kahnStep]
  rw [dif_pos h]

theorem kahnStep_cons_neg (inDeg : List (String × Int)) (dst : String) (rest : List String)
    (h : ¬ alookup (mapEntry inDeg dst (· - 1)) dst = some 0) :
    (kahnStep inDeg (dst :: rest)).1 =
      (kahnStep (mapEntry inDeg dst (· - 1)) rest).1 := by
  simp only [kahnStep]
  rw [dif_neg h]

theorem kahnStep_spec (ts : List String) :
    ∀ inDeg : List (String × Int),
      (∀ a v, alookup inDeg a = some v → ((ts.count a : Int) ≤ v)) →
      ((∀ a, alookup (kahnStep inDeg ts).1.1 a =
          (alookup inDeg a).map (fun v => v - (ts.count a : Int))) ∧
        (∀ a, a ∈ (kahnStep inDeg ts).1.2 ↔
          ∃ v, alookup inDeg a = some v ∧ 0 < ts.count a ∧ v = (ts.count a : Int)) ∧
        (kahnStep inDeg ts).1.2.Nodup) := by
  induction ts with
  | nil =>
    intro inDeg _
    refine ⟨?_, ?_, ?_⟩
    · intro a
      rw [kahnStep_nil]
      simp
    · intro a
      rw [kahnStep_nil]
      simp
    · rw [kahnStep_nil]
      simp
  | cons dst rest ih =>
    intro inDeg hpre
    have hcnt : ∀ a, (dst :: rest).count a = rest.count a + if a = dst then 1 else 0 := by
      intro a
      by_cases hadst : a = dst <;> simp [List.count_cons, hadst]
    have hpre2 : ∀ a v, alookup (mapEntry inDeg dst (· - 1)) a = some v →
        ((rest.count a : Int) ≤ v) := by
      intro a v hv
      rw [alookup_mapEntry] at hv
      by_cases hadst : a = dst
      · rw [if_pos hadst] at hv
        cases horig : alookup inDeg a with
        | none => rw [horig] at hv; simp at hv
        | some w =>
          rw [horig] at hv
          simp only [Option.map_some', Option.some.injEq] at hv
          have hp := hpre a w horig
          rw [hcnt a, if_pos hadst] at hp
          push_cast at hp
          omega
      · rw [if_neg hadst] at hv
        have hp := hpre a v hv
        rw [hcnt a, if_neg hadst] at hp
        push_cast at hp
        omega
    by_cases h : alookup (mapEntry inDeg dst (· - 1)) dst = some 0
    · obtain ⟨ih1, ih2, ih3⟩ := ih (mapEntry inDeg dst (· - 1)) hpre2
      have hv0 : alookup inDeg dst = some 1 := by
        have h' := h
        rw [alookup_mapEntry, if_pos rfl] at h'
        cases horig : alookup inDeg dst with
        | none => rw [horig] at h'; simp at h'
        | some w =>
          rw [horig] at h'
          simp only [Option.map_some', Option.some.injEq] at h'
          congr 1
          omega
      have hcd : rest.count dst = 0 := by
        have hp := hpre dst 1 hv0
        rw [hcnt dst, if_pos rfl] at hp
        push_cast at hp
        omega
      have hdstnot : dst ∉ (kahnStep (mapEntry inDeg dst (· - 1)) rest).1.2 := by
        intro hmem
        rcases (ih2 dst).mp hmem with ⟨v', _, hpos, _⟩
        omega
      refine ⟨?_, ?_, ?_⟩
      · intro a
        rw [kahnStep_cons_pos inDeg dst rest h, ih1 a, alookup_mapEntry]
        by_cases hadst : a = dst
        · subst hadst
          rw [if_pos rfl, hv0, hcnt a, if_pos rfl, hcd]
          simp only [Option.map_some', Option.some.injEq]
          push_cast
        · rw [if_neg hadst, hcnt a, if_neg hadst]
          cases alookup inDeg a with
          | none => simp
          | some w =>
            simp only [Option.map_some', Option.some.injEq]
            push_cast
            ring
      · intro a
        rw [kahnStep_cons_pos inDeg dst rest h]
        simp only [List.mem_cons]
        constructor
        · rintro (rfl | hmem)
          · refine ⟨1, hv0, ?_, ?_⟩
            · rw [hcnt a, if_pos rfl]
              omega
            · rw [hcnt a, if_pos rfl, hcd]
              push_cast
          · rcases (ih2 a).mp hmem with ⟨v', hl', hpos, heq⟩
            have hadst : a ≠ dst := by
              rintro rfl
              omega
            rw [alookup_mapEntry, if_neg hadst] at hl'
            refine ⟨v', hl', ?_, ?_⟩
            · rw [hcnt a, if_neg hadst]
              omega
            · rw [hcnt a, if_neg hadst]
              push_cast
              push_cast at heq
              omega
        · rintro ⟨v, hl, hpos, heq⟩
          by_cases hadst : a = dst
          · exact Or.inl hadst
          · right
            apply (ih2 a).mpr
            refine ⟨v, ?_, ?_, ?_⟩
            · rw [alookup_mapEntry, if_neg hadst]
              exact hl
            · rw [hcnt a, if_neg hadst] at hpos
              omega
            · rw [hcnt a, if_neg hadst] at heq
              push_cast at heq
              push_cast
              omega
      · rw [kahnStep_cons_pos inDeg dst rest h]
        exact List.nodup_cons.mpr ⟨hdstnot, ih3⟩
    · obtain ⟨ih1, ih2, ih3⟩ := ih (mapEntry inDeg dst (· - 1)) hpre2
      refine ⟨?_, ?_, ?_⟩
      · intro a
        rw [kahnStep_cons_neg inDeg dst rest h, ih1 a, alookup_mapEntry]
        by_cases hadst : a = dst
        · subst hadst
          rw [if_pos rfl, hcnt a, if_pos rfl]
          cases alookup inDeg a with
          | none => simp
          | some w =>
            simp only [Option.map_some', Option.some.injEq]
            push_cast
            ring
        · rw [if_neg hadst, hcnt a, if_neg hadst]
          cases alookup inDeg a with
          | none => simp
          | some w =>
            simp only [Option.map_some', Option.some.injEq]
            push_cast
            ring
      · intro a
        rw [kahnStep_cons_neg inDeg dst rest h, ih2 a]
        by_cases hadst : a = dst
        · subst hadst
          constructor
          · rintro ⟨v', hl', hpos, heq⟩
            rw [alookup_mapEntry, if_pos rfl] at hl'
            cases horig : alookup inDeg a with
            | none => rw [horig] at hl'; simp at hl'
            | some w =>
              rw [horig] at hl'
              simp only [Option.map_some', Option.some.injEq] at hl'
              refine ⟨w, rfl, ?_, ?_⟩
              · rw [hcnt a, if_pos rfl]
                omega
              · rw [hcnt a, if_pos rfl]
                push_cast
                push_cast at heq
                omega
          · rintro ⟨v, hl, hpos, heq⟩
            refine ⟨v - 1, ?_, ?_, ?_⟩
            · rw [alookup_mapEntry, if_pos rfl, hl]
              rfl
            · by_contra hz
              have hz0 : rest.count a = 0 := by omega
              rw [hcnt a, if_pos rfl, hz0] at heq
              push_cast at heq
              apply h
              rw [alookup_mapEntry, if_pos rfl, hl]
              simp only [Option.map_some', Option.some.injEq]
              omega
            · rw [hcnt a, if_pos rfl] at heq
              push_cast at heq
              push_cast
              omega
        · rw [alookup_mapEntry, if_neg hadst, hcnt a, if_neg hadst]
          constructor
          · rintro ⟨v', hl', hpos, heq⟩
            refine ⟨v', hl', by omega, ?_⟩
            push_cast at heq
            push_cast
            omega
          · rintro ⟨v, hl, hpos, heq⟩
            refine ⟨v, hl, by omega, ?_⟩
            push_cast at heq
            push_cast
            omega
      · rw [kahnStep_cons_neg inDeg dst rest h]
        exact ih3

theorem kahnLoop_nil (adjF : String → List String) (inDeg : List (String × Int))
    (order : List String) : kahnLoop adjF [] inDeg order = order := by
  simp only [kahnLoop]

theorem kahnLoop_cons (adjF : String → List String) (nid : String) (rest : List String)
    (inDeg : List (String × Int)) (order : List String) :
    kahnLoop adjF (nid :: rest) inDeg order =
      kahnLoop adjF (rest ++ (kahnStep inDeg (adjF nid)).1.2)
        (kahnStep inDeg (adjF nid)).1.1 (order ++ [nid]) := by
  simp only [kahnLoop]

theorem toFinset_append_singleton (order : List String) (nid : String) :
    (order ++ [nid]).toFinset = insert nid order.toFinset := by
  ext x
  simp [or_comm]

theorem kahnLoop_spec (g : Graph) (n : ℕ) :
    ∀ (queue : List String) (inDeg : List (String × Int)) (order : List String),
      sumPos inDeg + queue.length < n →
      ((order ++ queue).Nodup) →
      (∀ a, alookup inDeg a =
        if (alookup g.nodes a).isSome then
          some ((pendInto g.edges order.toFinset a : Int)) else none) →
      (∀ a, (alookup g.nodes a).isSome →
        ((a ∈ order ∨ a ∈ queue) ↔ pendInto g.edges order.toFinset a = 0)) →
      (∀ a ∈ queue, (alookup g.nodes a).isSome) →
      (∀ a ∈ order, (alookup g.nodes a).isSome) →
      (∀ u v, edgeStep g.edges u v → ∀ l1 l2, order = l1 ++ v :: l2 → u ∈ l1) →
      (∀ u v, edgeStep g.edges u v → v ∈ queue → u ∈ order) →
      ((kahnLoop (adjGet g.buildAdjBase) queue inDeg order).Nodup ∧
        (∀ a ∈ kahnLoop (adjGet g.buildAdjBase) queue inDeg order,
          (alookup g.nodes a).isSome) ∧
        (∀ u v, edgeStep g.edges u v → ∀ l1 l2,
          kahnLoop (adjGet g.buildAdjBase) queue inDeg order = l1 ++ v :: l2 →
            u ∈ l1) ∧
        (∀ a, a ∈ order ∨ a ∈ queue →
          a ∈ kahnLoop (adjGet g.buildAdjBase) queue inDeg order) ∧
        (∀ a, (alookup g.nodes a).isSome →
          a ∉ kahnLoop (adjGet g.buildAdjBase) queue inDeg order →
          pendInto g.edges
            (kahnLoop (adjGet g.buildAdjBase) queue inDeg order).toFinset a ≠ 0)) := by
  induction n with
  | zero =>
    intro queue inDeg order hlt
    exact absurd hlt (Nat.not_lt_zero _)
  | succ n ihn =>
    intro queue inDeg order hlt hnd hB hC hQP hOP hF hG
    cases queue with
    | nil =>
      rw [kahnLoop_nil]
      refine ⟨by simpa using hnd, hOP, hF, ?_, ?_⟩
      · intro a ha
        rcases ha with ha | ha
        · exact ha
        · simp at ha
      · intro a hp hnotin h0
        rcases (hC a hp).mpr h0 with hx | hx
        · exact hnotin hx
        · simp at hx
    | cons nid rest =>
      rw [kahnLoop_cons]
      have hnidP : (alookup g.nodes nid).isSome := hQP nid (List.mem_cons_self _ _)
      have hadj : adjGet g.buildAdjBase nid = g.forwardTargets nid := by
        unfold adjGet
        rw [alookup_buildAdjBase, if_pos hnidP]
        rfl
      obtain ⟨hndO, hndQ, hdisj⟩ := List.nodup_append.mp hnd
      have hnidO : nid ∉ order := fun hx => hdisj hx (List.mem_cons_self _ _)
      have hnidD : nid ∉ order.toFinset := by simpa using hnidO
      have hm : ∀ a, ((adjGet g.buildAdjBase nid).count a) =
          (g.edges.filter (fun e =>
            e.connection.fromNodeId = nid ∧ e.connection.toNodeId = a)).length := by
        intro a
        rw [hadj, count_forwardTargets]
      have hsplit : ∀ a, pendInto g.edges order.toFinset a =
          pendInto g.edges (insert nid order.toFinset) a +
            (g.edges.filter (fun e =>
              e.connection.fromNodeId = nid ∧ e.connection.toNodeId = a)).length :=
        fun a => pendInto_insert g.edges order.toFinset nid hnidD a
      have hpre : ∀ a v, alookup inDeg a = some v →
          (((adjGet g.buildAdjBase nid).count a : Int) ≤ v) := by
        intro a v hv
        rw [hB a] at hv
        by_cases hp : (alookup g.nodes a).isSome
        · rw [if_pos hp] at hv
          simp only [Option.some.injEq] at hv
          rw [hm a]
          have := hsplit a
          omega
        · rw [if_neg hp] at hv
          simp at hv
      obtain ⟨hs1, hs2, hs3⟩ := kahnStep_spec (adjGet g.buildAdjBase nid) inDeg hpre
      have hnewQ : ∀ a, a ∈ (kahnStep inDeg (adjGet g.buildAdjBase nid)).1.2 ↔
          ((alookup g.nodes a).isSome ∧
            0 < (g.edges.filter (fun e =>
              e.connection.fromNodeId = nid ∧ e.connection.toNodeId = a)).length ∧
            pendInto g.edges order.toFinset a =
              (g.edges.filter (fun e =>
                e.connection.fromNodeId = nid ∧ e.connection.toNodeId = a)).length) := by
        intro a
        rw [hs2 a]
        constructor
        · rintro ⟨v, hv, hpos, heq⟩
          rw [hB a] at hv
          by_cases hp : (alookup g.nodes a).isSome
          · rw [if_pos hp] at hv
            simp only [Option.some.injEq] at hv
            rw [hm a] at hpos heq
            refine ⟨hp, hpos, ?_⟩
            omega
          · rw [if_neg hp] at hv
            simp at hv
        · rintro ⟨hp, hpos, heq⟩
          refine ⟨(pendInto g.edges order.toFinset a : Int), ?_, ?_, ?_⟩
          · rw [hB a, if_pos hp]
          · rw [hm a]
            exact hpos
          · rw [hm a]
            omega
      have hN2 : ∀ a ∈ (kahnStep inDeg (adjGet g.buildAdjBase nid)).1.2,
          pendInto g.edges (insert nid order.toFinset) a = 0 := by
        intro a ha
        rcases (hnewQ a).mp ha with ⟨hp, hpos, heq⟩
        have := hsplit a
        omega
      have hN3 : ∀ a ∈ (kahnStep inDeg (adjGet g.buildAdjBase nid)).1.2,
          a ∉ order ∧ a ∉ nid :: rest := by
        intro a ha
        rcases (hnewQ a).mp ha with ⟨hp, hpos, heq⟩
        have hpend : pendInto g.edges order.toFinset a ≠ 0 := by omega
        have hiff := hC a hp
        exact ⟨fun hx => hpend (hiff.mp (Or.inl hx)),
          fun hx => hpend (hiff.mp (Or.inr hx))⟩
      have horderF : (order ++ [nid]).toFinset = insert nid order.toFinset :=
        toFinset_append_singleton order nid
      have hnd' : ((order ++ [nid]) ++
          (rest ++ (kahnStep inDeg (adjGet g.buildAdjBase nid)).1.2)).Nodup := by
        have hEq : (order ++ [nid]) ++
            (rest ++ (kahnStep inDeg (adjGet g.buildAdjBase nid)).1.2) =
            (order ++ nid :: rest) ++
              (kahnStep inDeg (adjGet g.buildAdjBase nid)).1.2 := by
          simp
        rw [hEq]
        refine List.nodup_append.mpr ⟨hnd, hs3, ?_⟩
        intro a ha haQ
        rcases hN3 a haQ with ⟨h1, h2⟩
        rcases List.mem_append.mp ha with hx | hx
        · exact h1 hx
        · exact h2 hx
      have hB' : ∀ a, alookup (kahnStep inDeg (adjGet g.buildAdjBase nid)).1.1 a =
          if (alookup g.nodes a).isSome then
            some ((pendInto g.edges (order ++ [nid]).toFinset a : Int)) else none := by
        intro a
        rw [hs1 a, hB a, horderF]
        by_cases hp : (alookup g.nodes a).isSome
        · rw [if_pos hp, if_pos hp]
          simp only [Option.map_some', Option.some.injEq]
          rw [hm a]
          have := hsplit a
          omega
        · rw [if_neg hp, if_neg hp]
          rfl
      have hC' : ∀ a, (alookup g.nodes a).isSome →
          ((a ∈ order ++ [nid] ∨
              a ∈ rest ++ (kahnStep inDeg (adjGet g.buildAdjBase nid)).1.2) ↔
            pendInto g.edges (order ++ [nid]).toFinset a = 0) := by
        intro a hp
        rw [horderF]
        constructor
        · intro hx
          have hz : pendInto g.edges order.toFinset a = 0 ∨
              a ∈ (kahnStep inDeg (adjGet g.buildAdjBase nid)).1.2 := by
            rcases hx with hx | hx
            · rcases List.mem_append.mp hx with hy | hy
              · exact Or.inl ((hC a hp).mp (Or.inl hy))
              · have hynid : a = nid := by simpa using hy
                subst hynid
                exact Or.inl ((hC a hp).mp (Or.inr (List.mem_cons_self _ _)))
            · rcases List.mem_append.mp hx with hy | hy
              · exact Or.inl ((hC a hp).mp (Or.inr (List.mem_cons_of_mem _ hy)))
              · exact Or.inr hy
          rcases hz with hz | hz
          · have := hsplit a
            omega
          · exact hN2 a hz
        · intro h0
          by_cases hz : pendInto g.edges order.toFinset a = 0
          · rcases (hC a hp).mpr hz with hy | hy
            · exact Or.inl (List.mem_append.mpr (Or.inl hy))
            · rcases List.mem_cons.mp hy with hy | hy
              · exact Or.inl (List.mem_append.mpr (Or.inr (by simp [hy])))
              · exact Or.inr (List.mem_append.mpr (Or.inl hy))
          · refine Or.inr (List.mem_append.mpr (Or.inr ?_))
            apply (hnewQ a).mpr
            have := hsplit a
            exact ⟨hp, by omega, by omega⟩
      have hQP' : ∀ a ∈ rest ++ (kahnStep inDeg (adjGet g.buildAdjBase nid)).1.2,
          (alookup g.nodes a).isSome := by
        intro a ha
        rcases List.mem_append.mp ha with hx | hx
        · exact hQP a (List.mem_cons_of_mem _ hx)
        · exact ((hnewQ a).mp hx).1
      have hOP' : ∀ a ∈ order ++ [nid], (alookup g.nodes a).isSome := by
        intro a ha
        rcases List.mem_append.mp ha with hx | hx
        · exact hOP a hx
        · have hynid : a = nid := by simpa using hx
          subst hynid
          exact hnidP
      have hF' : ∀ u v, edgeStep g.edges u v → ∀ l1 l2,
          order ++ [nid] = l1 ++ v :: l2 → u ∈ l1 := by
        intro u v he l1 l2 hsp
        rcases append_singleton_split order l1 nid v l2 hsp with
          ⟨l2c, h1, _⟩ | ⟨h1, h2, _⟩
        · exact hF u v he l1 l2c h1
        · subst h2
          rw [h1]
          exact hG u v he (List.mem_cons_self _ _)
      have hG' : ∀ u v, edgeStep g.edges u v →
          v ∈ rest ++ (kahnStep inDeg (adjGet g.buildAdjBase nid)).1.2 →
          u ∈ order ++ [nid] := by
        intro u v he hv
        rcases List.mem_append.mp hv with hx | hx
        · exact List.mem_append.mpr (Or.inl (hG u v he (List.mem_cons_of_mem _ hx)))
        · have h0 := hN2 v hx
          rw [pendInto_eq_zero_iff] at h0
          rcases he with ⟨e, hein, hesrc, hedst⟩
          have hu := h0 e hein hedst
          rw [hesrc] at hu
          rcases Finset.mem_insert.mp hu with hy | hy
          · exact List.mem_append.mpr (Or.inr (by simp [hy]))
          · exact List.mem_append.mpr (Or.inl (by simpa using hy))
      have hb := (kahnStep inDeg (adjGet g.buildAdjBase nid)).2
      have hlen : (rest ++ (kahnStep inDeg (adjGet g.buildAdjBase nid)).1.2).length =
          rest.length + (kahnStep inDeg (adjGet g.buildAdjBase nid)).1.2.length :=
        List.length_append _ _
      have hltq : (nid :: rest).length = rest.length + 1 := List.length_cons _ _
      obtain ⟨hr1, hr2, hr3, hr4, hr5⟩ :=
        ihn (rest ++ (kahnStep inDeg (adjGet g.buildAdjBase nid)).1.2)
          (kahnStep inDeg (adjGet g.buildAdjBase nid)).1.1 (order ++ [nid])
          (by omega) hnd' hB' hC' hQP' hOP' hF' hG'
      refine ⟨hr1, hr2, hr3, ?_, hr5⟩
      intro a ha
      apply hr4
      rcases ha with hx | hx
      · exact Or.inl (List.mem_append.mpr (Or.inl hx))
      · rcases List.mem_cons.mp hx with hy | hy
        · exact Or.inl (List.mem_append.mpr (Or.inr (by simp [hy])))
        · exact Or.inr (List.mem_append.mpr (Or.inl hy))

theorem topologicalSort_spec (g : Graph) (hnodup : g.NodesNodup) :
    (g.topologicalSort).Nodup ∧
    (∀ a ∈ g.topologicalSort, (alookup g.nodes a).isSome) ∧
    (∀ u v, edgeStep g.edges u v → ∀ l1 l2,
      g.topologicalSort = l1 ++ v :: l2 → u ∈ l1) ∧
    (∀ a, (alookup g.nodes a).isSome → a ∉ g.topologicalSort →
      pendInto g.edges (g.topologicalSort).toFinset a ≠ 0) := by
  have hkeysnd : (akeys g.buildInDeg).Nodup := by
    rw [akeys_buildInDeg]
    exact hnodup
  have hmemQ : ∀ a, a ∈ (g.buildInDeg.filter (fun p => p.2 = 0)).map Prod.fst ↔
      alookup g.buildInDeg a = some 0 := by
    intro a
    constructor
    · intro ha
      rcases List.mem_map.mp ha with ⟨p, hpf, hpa⟩
      rcases List.mem_filter.mp hpf with ⟨hpmem, hp0⟩
      have hp0' : p.2 = 0 := by simpa using hp0
      have hl : alookup g.buildInDeg p.1 = some p.2 :=
        alookup_eq_some_of_mem_nodup hkeysnd hpmem
      rw [hpa, hp0'] at hl
      exact hl
    · intro ha
      have hpmem := mem_of_alookup_eq_some ha
      exact List.mem_map.mpr ⟨(a, 0), List.mem_filter.mpr ⟨hpmem, by simp⟩, rfl⟩
  have hndq : ((g.buildInDeg.filter (fun p => p.2 = 0)).map Prod.fst).Nodup := by
    have hsub : List.Sublist ((g.buildInDeg.filter (fun p => p.2 = 0)).map Prod.fst)
        (g.buildInDeg.map Prod.fst) :=
      (List.filter_sublist _).map _
    exact hsub.nodup hkeysnd
  have hB0 : ∀ a, alookup g.buildInDeg a =
      if (alookup g.nodes a).isSome then
        some ((pendInto g.edges ([] : List String).toFinset a : Int)) else none := by
    intro a
    rw [alookup_buildInDeg]
    by_cases hp : (alookup g.nodes a).isSome
    · rw [if_pos hp, if_pos hp]
      congr 1
      have : ([] : List String).toFinset = (∅ : Finset String) := rfl
      rw [this, pendInto_empty]
    · rw [if_neg hp, if_neg hp]
  have hC0 : ∀ a, (alookup g.nodes a).isSome →
      ((a ∈ ([] : List String) ∨
          a ∈ (g.buildInDeg.filter (fun p => p.2 = 0)).map Prod.fst) ↔
        pendInto g.edges ([] : List String).toFinset a = 0) := by
    intro a hp
    constructor
    · rintro (hx | hx)
      · simp at hx
      · have hl := (hmemQ a).mp hx
        rw [hB0 a, if_pos hp] at hl
        simp only [Option.some.injEq] at hl
        omega
    · intro h0
      refine Or.inr ((hmemQ a).mpr ?_)
      rw [hB0 a, if_pos hp, h0]
      simp
  have hQP0 : ∀ a ∈ (g.buildInDeg.filter (fun p => p.2 = 0)).map Prod.fst,
      (alookup g.nodes a).isSome := by
    intro a ha
    have hl := (hmemQ a).mp ha
    rw [alookup_buildInDeg] at hl
    by_cases hp : (alookup g.nodes a).isSome
    · exact hp
    · rw [if_neg hp] at hl
      simp at hl
  have hG0 : ∀ u v, edgeStep g.edges u v →
      v ∈ (g.buildInDeg.filter (fun p => p.2 = 0)).map Prod.fst →
      u ∈ ([] : List String) := by
    intro u v he hv
    exfalso
    have hl := (hmemQ v).mp hv
    rcases he with ⟨e, hein, hesrc, hedst⟩
    have hvp : (alookup g.nodes v).isSome := hQP0 v hv
    rw [alookup_buildInDeg, if_pos hvp] at hl
    simp only [Option.some.injEq] at hl
    have hmem : e ∈ g.edges.filter (fun e => e.connection.toNodeId = v) :=
      List.mem_filter.mpr ⟨hein, by simp [hedst]⟩
    have hpos := List.length_pos_of_mem hmem
    omega
  have hmain := kahnLoop_spec g
      (sumPos g.buildInDeg +
        ((g.buildInDeg.filter (fun p => p.2 = 0)).map Prod.fst).length + 1)
      ((g.buildInDeg.filter (fun p => p.2 = 0)).map Prod.fst) g.buildInDeg []
      (by omega) (by simpa using hndq) hB0 hC0 hQP0
      (by intro a ha; simp at ha)
      (by
        intro u v he l1 l2 hsp
        exact absurd hsp.symm (by simp))
      hG0
  have hts : g.topologicalSort = kahnLoop (adjGet g.buildAdjBase)
      ((g.buildInDeg.filter (fun p => p.2 = 0)).map Prod.fst) g.buildInDeg [] := rfl
  rw [hts]
  exact ⟨hmain.1, hmain.2.1, hmain.2.2.1, hmain.2.2.2.2⟩

theorem topologicalSort_complete (g : Graph) (hnodup : g.NodesNodup)
    (hwf : g.EdgesWF) (hacyc : g.Acyclic) :
    ∀ a, (alookup g.nodes a).isSome → a ∈ g.topologicalSort := by
  by_contra hcon
  push_neg at hcon
  obtain ⟨a0, ha0p, ha0n⟩ := hcon
  obtain ⟨_, _, _, h5⟩ := topologicalSort_spec g hnodup
  set S : Finset String :=
    (akeys g.nodes).toFinset.filter (fun x => x ∉ g.topologicalSort) with hSdef
  have ha0S : a0 ∈ S := by
    rw [hSdef, Finset.mem_filter, List.mem_toFinset, ← alookup_isSome_iff_mem_akeys]
    exact ⟨ha0p, ha0n⟩
  have hstep : ∀ x ∈ S, ∃ y, y ∈ S ∧ edgeStep g.edges y x := by
    intro x hx
    rw [hSdef, Finset.mem_filter, List.mem_toFinset,
      ← alookup_isSome_iff_mem_akeys] at hx
    obtain ⟨hxp, hxn⟩ := hx
    have hpend := h5 x hxp hxn
    rw [Ne, pendInto_eq_zero_iff] at hpend
    push_neg at hpend
    obtain ⟨e, hein, hedst, hesrc⟩ := hpend
    refine ⟨e.connection.fromNodeId, ?_, ⟨e, hein, rfl, hedst⟩⟩
    rw [hSdef, Finset.mem_filter, List.mem_toFinset, ← alookup_isSome_iff_mem_akeys]
    refine ⟨(hwf e hein).1, ?_⟩
    intro hmem
    exact hesrc (List.mem_toFinset.mpr hmem)
  choose f hfS hfE using hstep
  let F : String → String := fun x => if hx : x ∈ S then f x hx else x
  have hSn : ∀ n, F^[n] a0 ∈ S := by
    intro n
    induction n with
    | zero => simpa using ha0S
    | succ k ihk =>
      rw [Function.iterate_succ_apply']
      show (if hx : F^[k] a0 ∈ S then f (F^[k] a0) hx else F^[k] a0) ∈ S
      rw [dif_pos ihk]
      exact hfS _ _
  have hedge : ∀ m, edgeStep g.edges (F^[m + 1] a0) (F^[m] a0) := by
    intro m
    have hx := hSn m
    rw [Function.iterate_succ_apply']
    show edgeStep g.edges
      (if hx2 : F^[m] a0 ∈ S then f (F^[m] a0) hx2 else F^[m] a0) (F^[m] a0)
    rw [dif_pos hx]
    exact hfE _ _
  have hchain : ∀ i d, Relation.TransGen (edgeStep g.edges)
      (F^[i + (d + 1)] a0) (F^[i] a0) := by
    intro i d
    induction d with
    | zero => exact Relation.TransGen.single (hedge i)
    | succ k ihk =>
      have hstep1 := hedge (i + (k + 1))
      have hidx : i + (k + 1 + 1) = (i + (k + 1)) + 1 := by omega
      rw [hidx]
      exact Relation.TransGen.head hstep1 ihk
  have hcard : S.card < (Finset.range (S.card + 1)).card := by simp
  obtain ⟨x, _, y, _, hne, heqv⟩ :=
    Finset.exists_ne_map_eq_of_card_lt_of_maps_to hcard
      (fun i _ => hSn i : ∀ i ∈ Finset.range (S.card + 1), F^[i] a0 ∈ S)
  rcases hne.lt_or_lt with hlt | hlt
  · have hy2 : y = x + ((y - x - 1) + 1) := by omega
    have hc := hchain x (y - x - 1)
    rw [← hy2] at hc
    rw [heqv] at hc
    exact hacyc ⟨F^[y] a0, hc⟩
  · have hy2 : x = y + ((x - y - 1) + 1) := by omega
    have hc := hchain y (x - y - 1)
    rw [← hy2] at hc
    rw [← heqv] at hc
    exact hacyc ⟨F^[x] a0, hc⟩

/-! ## Level fold: the recurrence on topologically ordered inputs -/

theorem alookup_aset {α : Type} (l : List (String × α)) (k : String) (v : α) (a : String) :
    alookup (aset l k v) a = if a = k then some v else alookup l a := by
  induction l with
  | nil =>
    by_cases h : a = k
    · simp [aset, alookup, h]
    · have h2 : ¬ k = a := fun hh => h hh.symm
      simp [aset, alookup, h, h2]
  | cons p t ih =>
    by_cases hp : p.1 = k
    · by_cases ha : a = k
      · simp [aset, alookup, hp, ha]
      · have h2 : ¬ k = a := fun hh => ha hh.symm
        have h3 : ¬ p.1 = a := by rw [hp]; exact h2
        simp [aset, alookup, hp, ha, h2, h3]
    · by_cases ha : a = k
      · have h3 : ¬ p.1 = a := fun hh => hp (hh.trans ha)
        subst ha
        simp [aset, alookup, hp, h3, ih]
      · by_cases hpa : p.1 = a <;> simp [aset, alookup, hp, ha, hpa, ih]

theorem aset_append {α : Type} (l : List (String × α)) (k : String) (v : α)
    (hk : k ∉ akeys l) : aset l k v = l ++ [(k, v)] := by
  induction l with
  | nil => simp [aset]
  | cons p t ih =>
    simp only [akeys, List.map_cons, List.mem_cons] at hk
    push_neg at hk
    simp only [aset]
    rw [if_neg (fun h => hk.1 h.symm), ih hk.2]
    rfl

theorem foldAset_preserve (V : List (String × Nat) → String → Nat) :
    ∀ (l2 : List String) (acc : List (String × Nat)) (a : String), a ∉ l2 →
      alookup (l2.foldl (fun levels nid => aset levels nid (V levels nid)) acc) a =
        alookup acc a := by
  intro l2
  induction l2 with
  | nil =>
    intro acc a _
    rfl
  | cons nid rest ih =>
    intro acc a ha
    simp only [List.foldl_cons]
    rw [ih _ a (fun h => ha (List.mem_cons_of_mem _ h)), alookup_aset,
      if_neg (fun h => ha (by rw [h]; exact List.mem_cons_self _ _))]

theorem foldAset_akeys (V : List (String × Nat) → String → Nat) :
    ∀ (l2 : List String) (acc : List (String × Nat)),
      (∀ nid ∈ l2, nid ∉ akeys acc) → l2.Nodup →
      akeys (l2.foldl (fun levels nid => aset levels nid (V levels nid)) acc) =
        akeys acc ++ l2 := by
  intro l2
  induction l2 with
  | nil =>
    intro acc _ _
    simp
  | cons nid rest ih =>
    intro acc hfresh hnd
    simp only [List.foldl_cons]
    have h1 : nid ∉ akeys acc := hfresh nid (List.mem_cons_self _ _)
    rw [aset_append _ _ _ h1, ih (acc ++ [(nid, V acc nid)]) ?fresh (List.Nodup.of_cons hnd)]
    · simp [akeys]
    case fresh =>
      intro x hx
      have hxnid : x ≠ nid := by
        intro hxe
        subst hxe
        exact (List.nodup_cons.mp hnd).1 hx
      have hxacc : x ∉ akeys acc := hfresh x (List.mem_cons_of_mem _ hx)
      simp only [akeys, List.map_append, List.mem_append]
      rintro (hy | hy)
      · exact hxacc hy
      · simp at hy
        exact hxnid hy

theorem levelFold_eq (g : Graph) (ids : List String) :
    g.levelFold ids = ids.foldl (fun levels nid =>
      aset levels nid (if g.predsIn ids nid = ∅ then 0
        else ((g.predsIn ids nid).sup (fun p => (alookup levels p).getD 0)) + 1)) [] := rfl

theorem levelOf_recurrence (g : Graph) (ids : List String)
    (hord : TopoOrdered g ids) (hnd : ids.Nodup) :
    LevelsRecurrence g ids (g.levelOf ids) := by
  intro v hv
  obtain ⟨l1, l2, rfl⟩ := List.append_of_mem hv
  obtain ⟨hnd1, hnd2, hdisj⟩ := List.nodup_append.mp hnd
  have hvl2 : v ∉ l2 := (List.nodup_cons.mp hnd2).1
  unfold Graph.levelOf
  rw [levelFold_eq]
  simp only [List.foldl_append, List.foldl_cons]
  rw [foldAset_preserve _ l2 _ v hvl2, alookup_aset, if_pos rfl, Option.getD_some]
  by_cases hp : g.predsIn (l1 ++ v :: l2) v = ∅
  · rw [if_pos hp, if_pos hp]
  · rw [if_neg hp, if_neg hp]
    congr 1
    apply Finset.sup_congr rfl
    intro p hpmem
    have hpl1 : p ∈ l1 := hord v l1 l2 rfl p hpmem
    have hpvl2 : p ∉ v :: l2 := fun h => hdisj hpl1 h
    have hpv : ¬ p = v := fun h => hpvl2 (by rw [h]; exact List.mem_cons_self _ _)
    have hpl2 : p ∉ l2 := fun h => hpvl2 (List.mem_cons_of_mem _ h)
    rw [foldAset_preserve _ l2 _ p hpl2, alookup_aset, if_neg hpv]

theorem topoOrdered_of_take (g : Graph) (ids : List String)
    (h : ∀ i : Fin ids.length, ∀ u ∈ g.predsIn ids (ids.get i), u ∈ ids.take i) :
    TopoOrdered g ids := by
  intro v l1 l2 heq u hu
  have hlen : l1.length < ids.length := by rw [heq]; simp
  have hget : ids.get ⟨l1.length, hlen⟩ = v := by
    subst heq
    rw [List.get_eq_getElem, List.getElem_append_right (le_refl _)]
    simp
  have htake : ids.take l1.length = l1 := by
    subst heq
    exact List.take_left _ _
  have := h ⟨l1.length, hlen⟩ u (by rw [hget]; exact hu)
  rw [htake] at this
  exact this

/-- Claim C7, counterexample: on the id list `["c", "b", "a"]` of the chain
`a → b → c` — the nodes listed against topological order — no level
assignment satisfying the specified recurrence reproduces
`topological_levels`: the recurrence forces levels 0/1/2 and three groups,
while the fold (reading `levels.get(p, 0)` for not-yet-assigned
predecessors) yields the two groups `[["a"], ["c", "b"]]`. -/
theorem claim_C7_counterexample : ¬ LevelsClaim gChain3 ["c", "b", "a"] := by
  rintro ⟨lv, hrec, heq⟩
  have hpa : gChain3.predsIn ["c", "b", "a"] "a" = ∅ := by decide
  have hpb : gChain3.predsIn ["c", "b", "a"] "b" = {"a"} := by decide
  have hpc : gChain3.predsIn ["c", "b", "a"] "c" = {"b"} := by decide
  have ha : lv "a" = 0 := by
    have h := hrec "a" (by simp)
    rw [hpa] at h
    simpa using h
  have hb : lv "b" = 1 := by
    have h := hrec "b" (by simp)
    rw [hpb, if_neg (by simp), Finset.sup_singleton, ha] at h
    exact h
  have hc : lv "c" = 2 := by
    have h := hrec "c" (by simp)
    rw [hpc, if_neg (by simp), Finset.sup_singleton, hb] at h
    omega
  rw [show ((["c", "b", "a"] : List String).map lv) = [2, 1, 0] by
        simp [hc, hb, ha]] at heq
  rw [show (([2, 1, 0] : List ℕ).dedup.insertionSort (· ≤ ·)) = [0, 1, 2] by
        decide] at heq
  rw [show (([0, 1, 2] : List ℕ).map
        (fun L => (["c", "b", "a"] : List String).filter (fun v => lv v = L))) =
      [["a"], ["b"], ["c"]] by simp [ha, hb, hc]] at heq
  rw [show gChain3.topologicalLevels ["c", "b", "a"] = [["a"], ["c", "b"]] by
        decide] at heq
  exact absurd heq (by decide)

/-- Claim C7 (amended): for a duplicate-free id list that is topologically
ordered — each listed predecessor of a node occurs earlier in the list,
which holds for the `topological_sort` output the executor feeds in —
`topological_levels` does partition the ids by a level assignment
satisfying `level(n) = 1 + max(level(p) for p in preds(n) ∩ ids)` with
rootless nodes at level 0, groups listed by increasing level.  Without the
ordering hypothesis the claim fails (`claim_C7_counterexample`). -/
theorem claim_C7 (g : Graph) (ids : List String)
    (hord : TopoOrdered g ids) (hnd : ids.Nodup) :
    LevelsClaim g ids :=
  ⟨g.levelOf ids, levelOf_recurrence g ids hord hnd, rfl⟩

/-- Witness for `claim_C7`: the chain graph with its ids listed in
topological order. -/
theorem claim_C7_witness :
    TopoOrdered gChain3 ["a", "b", "c"] ∧ (["a", "b", "c"] : List String).Nodup ∧
      LevelsClaim gChain3 ["a", "b", "c"] := by
  have hord : TopoOrdered gChain3 ["a", "b", "c"] :=
    topoOrdered_of_take gChain3 ["a", "b", "c"] (by decide)
  exact ⟨hord, by decide, claim_C7 gChain3 ["a", "b", "c"] hord (by decide)⟩

/-! ## Executor infrastructure lemmas -/

theorem levelPartition_eq (force : Bool) (g : Graph) (lvl : List String)
    (outs0 : List (String × MediaResult)) :
    levelPartition force g lvl outs0 = lvl.foldl (lpStep force g) ([], outs0, []) := rfl

theorem runResults_eq (oracle : String → Except String MediaResult) (g : Graph)
    (outs : List (String × MediaResult)) (toRun : List String) :
    runResults oracle g outs toRun = toRun.foldl (rrStep oracle) (g, outs, [], false) := rfl

theorem lpStep_none (force : Bool) (g : Graph)
    (acc : List EEvent × List (String × MediaResult) × List String) (nid : String)
    (h : g.getNode nid = none) : lpStep force g acc nid = acc := by
  unfold lpStep
  rw [h]

theorem lpStep_skip (force : Bool) (g : Graph)
    (acc : List EEvent × List (String × MediaResult) × List String) (nid : String)
    (node : Node) (h : g.getNode nid = some node) (hs : isSkippable force node = true) :
    lpStep force g acc nid =
      (acc.1 ++ [EEvent.mk .nodeSkipped (some nid)],
       aset acc.2.1 nid (node.result.getD default), acc.2.2) := by
  unfold lpStep
  rw [h]
  simp [hs]

theorem lpStep_run (force : Bool) (g : Graph)
    (acc : List EEvent × List (String × MediaResult) × List String) (nid : String)
    (node : Node) (h : g.getNode nid = some node) (hs : isSkippable force node = false) :
    lpStep force g acc nid = (acc.1, acc.2.1, acc.2.2 ++ [nid]) := by
  unfold lpStep
  rw [h]
  simp [hs]

theorem alookup_aupdate {α : Type} (l : List (String × α)) (k : String) (f : α → α)
    (a : String) :
    alookup (aupdate l k f) a =
      if a = k then (alookup l a).map f else alookup l a := by
  induction l with
  | nil => by_cases h : a = k <;> simp [aupdate, alookup, h]
  | cons p t ih =>
    by_cases hp : p.1 = k
    · by_cases ha : p.1 = a
      · have hak : a = k := ha ▸ hp
        simp [aupdate, alookup, hp, ha, hak]
      · by_cases hak : a = k
        · exact absurd (hp.trans hak.symm) ha
        · simp only [aupdate, if_pos hp, alookup, if_neg ha, if_neg hak]
    · by_cases ha : p.1 = a
      · have hak : ¬ a = k := fun h => hp (by rw [ha, h])
        simp [aupdate, alookup, hp, ha, hak]
      · simp [aupdate, alookup, hp, ha, ih]

theorem updateNode_edges (g : Graph) (nid : String) (f : Node → Node) :
    (g.updateNode nid f).edges = g.edges := rfl

theorem alookup_updateNode (g : Graph) (nid : String) (f : Node → Node) (a : String) :
    alookup (g.updateNode nid f).nodes a =
      if a = nid then (alookup g.nodes a).map f else alookup g.nodes a :=
  alookup_aupdate g.nodes nid f a

theorem markRunning_edges (g : Graph) (toRun : List String) :
    (markRunning g toRun).edges = g.edges := by
  unfold markRunning
  induction toRun generalizing g with
  | nil => rfl
  | cons nid rest ih =>
    simp only [List.foldl_cons]
    exact ih _

theorem alookup_markRunning_notMem (g : Graph) (toRun : List String) (a : String)
    (h : a ∉ toRun) :
    alookup (markRunning g toRun).nodes a = alookup g.nodes a := by
  unfold markRunning
  induction toRun generalizing g with
  | nil => rfl
  | cons nid rest ih =>
    simp only [List.foldl_cons]
    rw [ih _ (fun hx => h (List.mem_cons_of_mem _ hx)), alookup_updateNode,
      if_neg (fun hx => h (by rw [hx]; exact List.mem_cons_self _ _))]

theorem isSome_markRunning (g : Graph) (toRun : List String) (a : String) :
    (alookup (markRunning g toRun).nodes a).isSome = (alookup g.nodes a).isSome := by
  unfold markRunning
  induction toRun generalizing g with
  | nil => rfl
  | cons nid rest ih =>
    simp only [List.foldl_cons]
    rw [ih]
    rw [alookup_updateNode]
    by_cases ha : a = nid
    · rw [if_pos ha]
      cases alookup g.nodes a <;> rfl
    · rw [if_neg ha]

theorem lpGo_events_mono (force : Bool) (g : Graph) :
    ∀ (lvl : List String) (acc : List EEvent × List (String × MediaResult) × List String),
      ∀ ev ∈ acc.1, ev ∈ (lvl.foldl (lpStep force g) acc).1 := by
  intro lvl
  induction lvl with
  | nil => intro acc ev h; exact h
  | cons nid rest ih =>
    intro acc ev h
    simp only [List.foldl_cons]
    apply ih
    unfold lpStep
    cases g.getNode nid with
    | none => exact h
    | some node =>
      by_cases hs : isSkippable force node
      · simp only [hs, if_true]
        exact List.mem_append_left _ h
      · simp only [hs, if_false]
        exact h

theorem lpGo_toRun_mono (force : Bool) (g : Graph) :
    ∀ (lvl : List String) (acc : List EEvent × List (String × MediaResult) × List String),
      ∀ nid ∈ acc.2.2, nid ∈ (lvl.foldl (lpStep force g) acc).2.2 := by
  intro lvl
  induction lvl with
  | nil => intro acc nid h; exact h
  | cons x rest ih =>
    intro acc nid h
    simp only [List.foldl_cons]
    apply ih
    unfold lpStep
    cases g.getNode x with
    | none => exact h
    | some node =>
      by_cases hs : isSkippable force node
      · simp only [hs, if_true]
        exact h
      · simp only [hs, if_false]
        exact List.mem_append_left _ h

theorem lpGo_events_char (force : Bool) (g : Graph) :
    ∀ (lvl : List String) (acc : List EEvent × List (String × MediaResult) × List String),
      ∀ ev ∈ (lvl.foldl (lpStep force g) acc).1,
        ev ∈ acc.1 ∨ ∃ nid ∈ lvl, ev = EEvent.mk .nodeSkipped (some nid) := by
  intro lvl
  induction lvl with
  | nil => intro acc ev h; exact Or.inl h
  | cons x rest ih =>
    intro acc ev h
    simp only [List.foldl_cons] at h
    rcases ih _ ev h with hin | ⟨nid, hnid, rfl⟩
    · cases hgn : g.getNode x with
      | none =>
        rw [lpStep_none force g acc x hgn] at hin
        exact Or.inl hin
      | some node =>
        by_cases hs : isSkippable force node
        · rw [lpStep_skip force g acc x node hgn hs] at hin
          rcases List.mem_append.mp hin with hy | hy
          · exact Or.inl hy
          · simp only [List.mem_singleton] at hy
            exact Or.inr ⟨x, List.mem_cons_self _ _, hy⟩
        · rw [lpStep_run force g acc x node hgn (by simpa using hs)] at hin
          exact Or.inl hin
    · exact Or.inr ⟨nid, List.mem_cons_of_mem _ hnid, rfl⟩

theorem lpGo_toRun_char (force : Bool) (g : Graph) :
    ∀ (lvl : List String) (acc : List EEvent × List (String × MediaResult) × List String),
      ∀ nid ∈ (lvl.foldl (lpStep force g) acc).2.2, nid ∈ acc.2.2 ∨ nid ∈ lvl := by
  intro lvl
  induction lvl with
  | nil => intro acc nid h; exact Or.inl h
  | cons x rest ih =>
    intro acc nid h
    simp only [List.foldl_cons] at h
    rcases ih _ nid h with hin | hin
    · cases hgn : g.getNode x with
      | none =>
        rw [lpStep_none force g acc x hgn] at hin
        exact Or.inl hin
      | some node =>
        by_cases hs : isSkippable force node
        · rw [lpStep_skip force g acc x node hgn hs] at hin
          exact Or.inl hin
        · rw [lpStep_run force g acc x node hgn (by simpa using hs)] at hin
          rcases List.mem_append.mp hin with hy | hy
          · exact Or.inl hy
          · simp only [List.mem_singleton] at hy
            exact Or.inr (by rw [hy]; exact List.mem_cons_self _ _)
    · exact Or.inr (List.mem_cons_of_mem _ hin)

theorem lpGo_covers (force : Bool) (g : Graph) :
    ∀ (lvl : List String) (acc : List EEvent × List (String × MediaResult) × List String),
      ∀ nid ∈ lvl, (g.getNode nid).isSome →
        EEvent.mk .nodeSkipped (some nid) ∈ (lvl.foldl (lpStep force g) acc).1 ∨
          nid ∈ (lvl.foldl (lpStep force g) acc).2.2 := by
  intro lvl
  induction lvl with
  | nil => intro acc nid h; simp at h
  | cons x rest ih =>
    intro acc nid h hsome
    simp only [List.foldl_cons]
    rcases List.mem_cons.mp h with rfl | hmem
    · cases hgn : g.getNode nid with
      | none => rw [hgn] at hsome; simp at hsome
      | some node =>
        by_cases hs : isSkippable force node
        · left
          apply lpGo_events_mono
          rw [lpStep_skip force g acc nid node hgn hs]
          exact List.mem_append_right _ (List.mem_singleton.mpr rfl)
        · right
          apply lpGo_toRun_mono
          rw [lpStep_run force g acc nid node hgn (by simpa using hs)]
          exact List.mem_append_right _ (List.mem_singleton.mpr rfl)
    · exact ih _ nid hmem hsome

theorem rrStep_error (oracle : String → Except String MediaResult)
    (acc : Graph × List (String × MediaResult) × List EEvent × Bool) (nid : String)
    (msg : String) (h : oracle nid = .error msg) :
    rrStep oracle acc nid =
      (acc.1.updateNode nid
         (fun n => { n with status := .failed, errorMessage := some msg }),
       acc.2.1, acc.2.2.1 ++ [EEvent.mk .nodeFailed (some nid)], true) := by
  unfold rrStep
  rw [h]

theorem rrStep_ok (oracle : String → Except String MediaResult)
    (acc : Graph × List (String × MediaResult) × List EEvent × Bool) (nid : String)
    (r : MediaResult) (h : oracle nid = .ok r) :
    rrStep oracle acc nid =
      (acc.1.updateNode nid (fun n => n.addGeneration r),
       aset acc.2.1 nid r, acc.2.2.1 ++ [EEvent.mk .nodeCompleted (some nid)],
       acc.2.2.2) := by
  unfold rrStep
  rw [h]

theorem rrGo_events_mono (oracle : String → Except String MediaResult) :
    ∀ (toRun : List String) (acc : Graph × List (String × MediaResult) × List EEvent × Bool),
      ∀ ev ∈ acc.2.2.1, ev ∈ (toRun.foldl (rrStep oracle) acc).2.2.1 := by
  intro toRun
  induction toRun with
  | nil => intro acc ev h; exact h
  | cons nid rest ih =>
    intro acc ev h
    simp only [List.foldl_cons]
    apply ih
    cases horc : oracle nid with
    | error msg =>
      rw [rrStep_error oracle acc nid msg horc]
      exact List.mem_append_left _ h
    | ok r =>
      rw [rrStep_ok oracle acc nid r horc]
      exact List.mem_append_left _ h

theorem rrGo_flag_mono (oracle : String → Except String MediaResult) :
    ∀ (toRun : List String) (acc : Graph × List (String × MediaResult) × List EEvent × Bool),
      (toRun.foldl (rrStep oracle) acc).2.2.2 = false → acc.2.2.2 = false := by
  intro toRun
  induction toRun with
  | nil => intro acc h; exact h
  | cons nid rest ih =>
    intro acc h
    simp only [List.foldl_cons] at h
    have h2 := ih _ h
    cases horc : oracle nid with
    | error msg =>
      rw [rrStep_error oracle acc nid msg horc] at h2
      simp at h2
    | ok r =>
      rw [rrStep_ok oracle acc nid r horc] at h2
      exact h2

theorem rrGo_events_char (oracle : String → Except String MediaResult) :
    ∀ (toRun : List String) (acc : Graph × List (String × MediaResult) × List EEvent × Bool),
      ∀ ev ∈ (toRun.foldl (rrStep oracle) acc).2.2.1,
        ev ∈ acc.2.2.1 ∨ (∃ nid ∈ toRun, ev = EEvent.mk .nodeCompleted (some nid)) ∨
          (∃ nid ∈ toRun, ev = EEvent.mk .nodeFailed (some nid)) := by
  intro toRun
  induction toRun with
  | nil => intro acc ev h; exact Or.inl h
  | cons nid rest ih =>
    intro acc ev h
    simp only [List.foldl_cons] at h
    rcases ih _ ev h with hin | ⟨m, hm, rfl⟩ | ⟨m, hm, rfl⟩
    · cases horc : oracle nid with
      | error msg =>
        rw [rrStep_error oracle acc nid msg horc] at hin
        rcases List.mem_append.mp hin with hy | hy
        · exact Or.inl hy
        · simp only [List.mem_singleton] at hy
          exact Or.inr (Or.inr ⟨nid, List.mem_cons_self _ _, hy⟩)
      | ok r =>
        rw [rrStep_ok oracle acc nid r horc] at hin
        rcases List.mem_append.mp hin with hy | hy
        · exact Or.inl hy
        · simp only [List.mem_singleton] at hy
          exact Or.inr (Or.inl ⟨nid, List.mem_cons_self _ _, hy⟩)
    · exact Or.inr (Or.inl ⟨m, List.mem_cons_of_mem _ hm, rfl⟩)
    · exact Or.inr (Or.inr ⟨m, List.mem_cons_of_mem _ hm, rfl⟩)

theorem rrGo_reports (oracle : String → Except String MediaResult) :
    ∀ (toRun : List String) (acc : Graph × List (String × MediaResult) × List EEvent × Bool),
      ∀ nid ∈ toRun,
        EEvent.mk .nodeCompleted (some nid) ∈ (toRun.foldl (rrStep oracle) acc).2.2.1 ∨
          EEvent.mk .nodeFailed (some nid) ∈ (toRun.foldl (rrStep oracle) acc).2.2.1 := by
  intro toRun
  induction toRun with
  | nil => intro acc nid h; simp at h
  | cons x rest ih =>
    intro acc nid h
    simp only [List.foldl_cons]
    rcases List.mem_cons.mp h with rfl | hmem
    · cases horc : oracle nid with
      | error msg =>
        right
        apply rrGo_events_mono
        rw [rrStep_error oracle acc nid msg horc]
        exact List.mem_append_right _ (List.mem_singleton.mpr rfl)
      | ok r =>
        left
        apply rrGo_events_mono
        rw [rrStep_ok oracle acc nid r horc]
        exact List.mem_append_right _ (List.mem_singleton.mpr rfl)
    · exact ih _ nid hmem

theorem rrGo_ok_events (oracle : String → Except String MediaResult) :
    ∀ (toRun : List String) (acc : Graph × List (String × MediaResult) × List EEvent × Bool),
      (toRun.foldl (rrStep oracle) acc).2.2.2 = false →
      (∀ nid ∈ toRun,
        EEvent.mk .nodeCompleted (some nid) ∈ (toRun.foldl (rrStep oracle) acc).2.2.1) ∧
      (∀ ev ∈ (toRun.foldl (rrStep oracle) acc).2.2.1,
        ev ∈ acc.2.2.1 ∨ ∃ nid ∈ toRun, ev = EEvent.mk .nodeCompleted (some nid)) := by
  intro toRun
  induction toRun with
  | nil =>
    intro acc _
    exact ⟨by intro nid h; simp at h, by intro ev h; exact Or.inl h⟩
  | cons x rest ih =>
    intro acc hflag
    simp only [List.foldl_cons] at hflag ⊢
    cases horc : oracle x with
    | error msg =>
      exfalso
      have h2 := rrGo_flag_mono oracle rest _ hflag
      rw [rrStep_error oracle acc x msg horc] at h2
      simp at h2
    | ok r =>
      obtain ⟨ihc, ihe⟩ := ih _ hflag
      constructor
      · intro nid h
        rcases List.mem_cons.mp h with rfl | hmem
        · apply rrGo_events_mono
          rw [rrStep_ok oracle acc nid r horc]
          exact List.mem_append_right _ (List.mem_singleton.mpr rfl)
        · exact ihc nid hmem
      · intro ev h
        rcases ihe ev h with hin | ⟨m, hm, rfl⟩
        · rw [rrStep_ok oracle acc x r horc] at hin
          rcases List.mem_append.mp hin with hy | hy
          · exact Or.inl hy
          · simp only [List.mem_singleton] at hy
            exact Or.inr ⟨x, List.mem_cons_self _ _, hy⟩
        · exact Or.inr ⟨m, List.mem_cons_of_mem _ hm, rfl⟩

theorem rrGo_fail_exists (oracle : String → Except String MediaResult) :
    ∀ (toRun : List String) (acc : Graph × List (String × MediaResult) × List EEvent × Bool),
      (toRun.foldl (rrStep oracle) acc).2.2.2 = true →
      acc.2.2.2 = true ∨
        ∃ nid ∈ toRun,
          EEvent.mk .nodeFailed (some nid) ∈ (toRun.foldl (rrStep oracle) acc).2.2.1 := by
  intro toRun
  induction toRun with
  | nil => intro acc h; exact Or.inl h
  | cons x rest ih =>
    intro acc h
    simp only [List.foldl_cons] at h ⊢
    rcases ih _ h with hin | ⟨m, hm, hev⟩
    · cases horc : oracle x with
      | error msg =>
        right
        refine ⟨x, List.mem_cons_self _ _, ?_⟩
        apply rrGo_events_mono
        rw [rrStep_error oracle acc x msg horc]
        exact List.mem_append_right _ (List.mem_singleton.mpr rfl)
      | ok r =>
        rw [rrStep_ok oracle acc x r horc] at hin
        exact Or.inl hin
    · exact Or.inr ⟨m, List.mem_cons_of_mem _ hm, hev⟩

theorem rrGo_edges (oracle : String → Except String MediaResult) :
    ∀ (toRun : List String) (acc : Graph × List (String × MediaResult) × List EEvent × Bool),
      (toRun.foldl (rrStep oracle) acc).1.edges = acc.1.edges := by
  intro toRun
  induction toRun with
  | nil => intro acc; rfl
  | cons x rest ih =>
    intro acc
    simp only [List.foldl_cons]
    rw [ih]
    cases horc : oracle x with
    | error msg =>
      rw [rrStep_error oracle acc x msg horc]
      rfl
    | ok r =>
      rw [rrStep_ok oracle acc x r horc]
      rfl

theorem rrGo_isSome (oracle : String → Except String MediaResult) :
    ∀ (toRun : List String) (acc : Graph × List (String × MediaResult) × List EEvent × Bool)
      (a : String),
      (alookup (toRun.foldl (rrStep oracle) acc).1.nodes a).isSome =
        (alookup acc.1.nodes a).isSome := by
  intro toRun
  induction toRun with
  | nil => intro acc a; rfl
  | cons x rest ih =>
    intro acc a
    simp only [List.foldl_cons]
    rw [ih]
    have key : ∀ (f : Node → Node),
        (alookup (acc.1.updateNode x f).nodes a).isSome = (alookup acc.1.nodes a).isSome := by
      intro f
      rw [alookup_updateNode]
      by_cases ha : a = x
      · rw [if_pos ha]
        cases alookup acc.1.nodes a <;> rfl
      · rw [if_neg ha]
    cases horc : oracle x with
    | error msg => rw [rrStep_error oracle acc x msg horc]; exact key _
    | ok r => rw [rrStep_ok oracle acc x r horc]; exact key _

theorem rrGo_notMem (oracle : String → Except String MediaResult) :
    ∀ (toRun : List String) (acc : Graph × List (String × MediaResult) × List EEvent × Bool)
      (a : String), a ∉ toRun →
      alookup (toRun.foldl (rrStep oracle) acc).1.nodes a = alookup acc.1.nodes a := by
  intro toRun
  induction toRun with
  | nil => intro acc a _; rfl
  | cons x rest ih =>
    intro acc a ha
    simp only [List.foldl_cons]
    rw [ih _ a (fun hx => ha (List.mem_cons_of_mem _ hx))]
    have hax : ¬ a = x := fun hx => ha (by rw [hx]; exact List.mem_cons_self _ _)
    cases horc : oracle x with
    | error msg =>
      rw [rrStep_error oracle acc x msg horc]
      exact (alookup_updateNode _ _ _ _).trans (if_neg hax)
    | ok r =>
      rw [rrStep_ok oracle acc x r horc]
      exact (alookup_updateNode _ _ _ _).trans (if_neg hax)

theorem split_append {α : Type} (E0 T pre post : List α) (x : α)
    (h : E0 ++ T = pre ++ x :: post) :
    (∃ mid, E0 = pre ++ x :: mid ∧ post = mid ++ T) ∨
      (∃ t1, T = t1 ++ x :: post ∧ pre = E0 ++ t1) := by
  rcases List.append_eq_append_iff.mp h with ⟨a', ha1, ha2⟩ | ⟨c', hc1, hc2⟩
  · exact Or.inr ⟨a', ha2, ha1⟩
  · cases c' with
    | nil =>
      refine Or.inr ⟨[], by simpa using hc2.symm, ?_⟩
      simpa using hc1.symm
    | cons y ct =>
      simp only [List.cons_append] at hc2
      have h1 := (List.cons.injEq _ _ _ _ ▸ hc2 : _)
      refine Or.inl ⟨ct, ?_, h1.2⟩
      rw [hc1, h1.1]

theorem sgTerminal_mono (E E' : List EEvent) (d : String) (h : sgTerminal E d) :
    sgTerminal (E ++ E') d := by
  rcases h with h | h
  · exact Or.inl (List.mem_append_left _ h)
  · exact Or.inr (List.mem_append_left _ h)

theorem depsOK_extend (g0 : Graph) (required : Finset String) (E0 T : List EEvent)
    (HE : sgDepsRespected g0 required E0)
    (hT : ∀ t1 n post, T = t1 ++ EEvent.mk .nodeStarted (some n) :: post →
      ∀ d ∈ g0.getDependencies n, d ∈ required → sgTerminal E0 d) :
    sgDepsRespected g0 required (E0 ++ T) := by
  intro pre n post hsplit d hd hdr
  rcases split_append E0 T pre post (EEvent.mk .nodeStarted (some n)) hsplit with
    ⟨mid, hE0, _⟩ | ⟨t1, hT1, hpre⟩
  · exact HE pre n mid hE0 d hd hdr
  · rw [hpre]
    exact sgTerminal_mono _ _ _ (hT t1 n post hT1 d hd hdr)

theorem mem_of_middle {α : Type} (T t1 post : List α) (x : α)
    (hT : T = t1 ++ x :: post) : x ∈ T := by
  rw [hT]
  exact List.mem_append_right _ (List.mem_cons_self _ _)

theorem mem_startEvents (tr : List String) (n : String)
    (h : EEvent.mk .nodeStarted (some n) ∈ startEvents tr) : n ∈ tr := by
  unfold startEvents at h
  rcases List.mem_map.mp h with ⟨m, hm, heq⟩
  have h2 := congrArg EEvent.node heq
  simp only [Option.some.injEq] at h2
  rw [← h2]
  exact hm

theorem startEvents_etype (tr : List String) :
    ∀ ev ∈ startEvents tr, ev.etype = EvType.nodeStarted := by
  intro ev h
  rcases List.mem_map.mp h with ⟨m, _, heq⟩
  rw [← heq]

theorem execLoop_nil (oracle : String → Except String MediaResult) (cancelAt : Nat → Bool)
    (force : Bool) (i : Nat) (g : Graph) (outs : List (String × MediaResult))
    (evs : List EEvent) :
    execLoop oracle cancelAt force [] i g outs evs =
      (evs ++ [EEvent.mk .runCompleted none], g, .completed) := rfl

theorem execLoop_cancel (oracle : String → Except String MediaResult) (cancelAt : Nat → Bool)
    (force : Bool) (lvl : List String) (rest : List (List String)) (i : Nat) (g : Graph)
    (outs : List (String × MediaResult)) (evs : List EEvent) (hc : cancelAt i = true) :
    execLoop oracle cancelAt force (lvl :: rest) i g outs evs =
      (evs ++ [EEvent.mk .runCancelled none], g, .cancelled) := by
  simp [execLoop, hc]

theorem execLoop_skipLevel (oracle : String → Except String MediaResult)
    (cancelAt : Nat → Bool) (force : Bool) (lvl : List String) (rest : List (List String))
    (i : Nat) (g : Graph) (outs : List (String × MediaResult)) (evs : List EEvent)
    (se : List EEvent) (o1 : List (String × MediaResult)) (hc : cancelAt i = false)
    (hlp : levelPartition force g lvl outs = (se, o1, [])) :
    execLoop oracle cancelAt force (lvl :: rest) i g outs evs =
      execLoop oracle cancelAt force rest (i + 1) g o1 (evs ++ se) := by
  simp [execLoop, hc, hlp]

theorem execLoop_fail (oracle : String → Except String MediaResult)
    (cancelAt : Nat → Bool) (force : Bool) (lvl : List String) (rest : List (List String))
    (i : Nat) (g : Graph) (outs : List (String × MediaResult)) (evs : List EEvent)
    (se : List EEvent) (o1 : List (String × MediaResult)) (tr : List String)
    (g2 : Graph) (o2 : List (String × MediaResult)) (re : List EEvent)
    (hc : cancelAt i = false) (hlp : levelPartition force g lvl outs = (se, o1, tr))
    (htr : tr ≠ [])
    (hrr : runResults oracle (markRunning g tr) o1 tr = (g2, o2, re, true)) :
    execLoop oracle cancelAt force (lvl :: rest) i g outs evs =
      (evs ++ se ++ startEvents tr ++ re ++ [EEvent.mk .runFailed none], g2, .failed) := by
  simp [execLoop, hc, hlp, htr, hrr]

theorem execLoop_okLevel (oracle : String → Except String MediaResult)
    (cancelAt : Nat → Bool) (force : Bool) (lvl : List String) (rest : List (List String))
    (i : Nat) (g : Graph) (outs : List (String × MediaResult)) (evs : List EEvent)
    (se : List EEvent) (o1 : List (String × MediaResult)) (tr : List String)
    (g2 : Graph) (o2 : List (String × MediaResult)) (re : List EEvent)
    (hc : cancelAt i = false) (hlp : levelPartition force g lvl outs = (se, o1, tr))
    (htr : tr ≠ [])
    (hrr : runResults oracle (markRunning g tr) o1 tr = (g2, o2, re, false)) :
    execLoop oracle cancelAt force (lvl :: rest) i g outs evs =
      execLoop oracle cancelAt force rest (i + 1) g2 o2
        (evs ++ se ++ startEvents tr ++ re) := by
  simp [execLoop, hc, hlp, htr, hrr]

theorem execLoop_disc (oracle : String → Except String MediaResult)
    (cancelAt : Nat → Bool) (force : Bool) (g0 : Graph) (required : Finset String)
    (order : List String) (lv : String → Nat)
    (HA : ∀ n ∈ order, ∀ d, d ∈ g0.getDependencies n → d ∈ required →
      d ∈ order ∧ lv d < lv n) :
    ∀ (vals : List Nat) (i : Nat) (g : Graph) (outputs : List (String × MediaResult))
      (events0 : List EEvent),
      List.Sorted (· ≤ ·) vals →
      (∀ n ∈ order, (g.getNode n).isSome) →
      (∀ d ∈ order, lv d ∉ vals → sgTerminal events0 d) →
      sgDepsRespected g0 required events0 →
      sgDepsRespected g0 required
        (execLoop oracle cancelAt force
          (vals.map (fun L => order.filter (fun nid => lv nid = L)))
          i g outputs events0).1 := by
  intro vals
  induction vals with
  | nil =>
    intro i g outputs events0 _ _ _ HE
    rw [List.map_nil, execLoop_nil]
    apply depsOK_extend g0 required events0 _ HE
    intro t1 n post hTeq d _ _
    exfalso
    have hm := mem_of_middle _ _ _ _ hTeq
    simp at hm
  | cons L tail ih =>
    intro i g outputs events0 hsorted hnodes hterm HE
    simp only [List.map_cons]
    by_cases hcb : cancelAt i = true
    · rw [execLoop_cancel _ _ _ _ _ _ _ _ _ hcb]
      apply depsOK_extend g0 required events0 _ HE
      intro t1 n post hTeq d _ _
      exfalso
      have hm := mem_of_middle _ _ _ _ hTeq
      simp at hm
    · have hc2 : cancelAt i = false := by simpa using hcb
      rcases hlp : levelPartition force g (order.filter (fun nid => lv nid = L)) outputs
        with ⟨se, o1, tr⟩
      have hfold : (order.filter (fun nid => lv nid = L)).foldl (lpStep force g)
          ([], outputs, []) = (se, o1, tr) := by
        rw [← levelPartition_eq]
        exact hlp
      have hse : ∀ ev ∈ se, ev.etype = EvType.nodeSkipped := by
        intro ev hev
        have hmem : ev ∈ ((order.filter (fun nid => lv nid = L)).foldl (lpStep force g)
            ([], outputs, [])).1 := by
          rw [hfold]
          exact hev
        rcases lpGo_events_char force g _ _ ev hmem with hin | ⟨nid, _, rfl⟩
        · simp at hin
        · rfl
      have htr_char : ∀ nid ∈ tr, nid ∈ order.filter (fun nid => lv nid = L) := by
        intro nid hnid
        have hmem : nid ∈ ((order.filter (fun nid => lv nid = L)).foldl (lpStep force g)
            ([], outputs, [])).2.2 := by
          rw [hfold]
          exact hnid
        rcases lpGo_toRun_char force g _ _ nid hmem with hin | hin
        · simp at hin
        · exact hin
      have hcovers : ∀ nid ∈ order.filter (fun nid => lv nid = L), (g.getNode nid).isSome →
          EEvent.mk .nodeSkipped (some nid) ∈ se ∨ nid ∈ tr := by
        intro nid hnid hs
        have := lpGo_covers force g _ ([], outputs, []) nid hnid hs
        rw [hfold] at this
        exact this
      have HE1 : sgDepsRespected g0 required (events0 ++ se) := by
        apply depsOK_extend g0 required events0 _ HE
        intro t1 n post hTeq d _ _
        exfalso
        have hm := mem_of_middle _ _ _ _ hTeq
        have := hse _ hm
        simp at this
      by_cases htr0 : tr = []
      · subst htr0
        rw [execLoop_skipLevel _ _ _ _ _ _ _ _ _ _ _ hc2 hlp]
        apply ih (i + 1) g o1 (events0 ++ se) (List.Sorted.of_cons hsorted) hnodes _ HE1
        intro d hdo hdnot
        by_cases hdL : lv d = L
        · have hdg : d ∈ order.filter (fun nid => lv nid = L) :=
            List.mem_filter.mpr ⟨hdo, by simp [hdL]⟩
          rcases hcovers d hdg (hnodes d hdo) with hsk | htr'
          · exact Or.inr (List.mem_append_right _ hsk)
          · simp at htr'
        · have hdv : lv d ∉ L :: tail := by
            intro hmem
            rcases List.mem_cons.mp hmem with he | he
            · exact hdL he
            · exact hdnot he
          exact sgTerminal_mono _ _ _ (hterm d hdo hdv)
      · rcases hrr : runResults oracle (markRunning g tr) o1 tr with ⟨g2, o2, re, hf⟩
        have hfold2 : tr.foldl (rrStep oracle) (markRunning g tr, o1, [], false) =
            (g2, o2, re, hf) := by
          rw [← runResults_eq]
          exact hrr
        have hre_char : ∀ ev ∈ re, ev.etype = EvType.nodeCompleted ∨
            ev.etype = EvType.nodeFailed := by
          intro ev hev
          have hmem : ev ∈ (tr.foldl (rrStep oracle) (markRunning g tr, o1, [], false)).2.2.1 := by
            rw [hfold2]
            exact hev
          rcases rrGo_events_char oracle tr _ ev hmem with hin | ⟨m, _, rfl⟩ | ⟨m, _, rfl⟩
          · simp at hin
          · exact Or.inl rfl
          · exact Or.inr rfl
        have hstartT : ∀ t1 n post,
            startEvents tr = t1 ++ EEvent.mk .nodeStarted (some n) :: post →
            ∀ d ∈ g0.getDependencies n, d ∈ required →
              sgTerminal (events0 ++ se) d := by
          intro t1 n post hTeq d hd hdr
          have hnmem : n ∈ tr := mem_startEvents tr n (mem_of_middle _ _ _ _ hTeq)
          have hng := htr_char n hnmem
          obtain ⟨hno, hnL⟩ := List.mem_filter.mp hng
          have hnL2 : lv n = L := by simpa using hnL
          obtain ⟨hdo, hdlt⟩ := HA n hno d hd hdr
          rw [hnL2] at hdlt
          have hdnot : lv d ∉ L :: tail := by
            intro hmem
            rcases List.mem_cons.mp hmem with he | he
            · omega
            · have hle : L ≤ lv d := (List.sorted_cons.mp hsorted).1 _ he
              omega
          exact sgTerminal_mono _ _ _ (hterm d hdo hdnot)
        have HE2 : sgDepsRespected g0 required ((events0 ++ se) ++ startEvents tr) :=
          depsOK_extend g0 required _ _ HE1 hstartT
        have HE3 : sgDepsRespected g0 required
            (((events0 ++ se) ++ startEvents tr) ++ re) := by
          apply depsOK_extend g0 required _ _ HE2
          intro t1 n post hTeq d _ _
          exfalso
          have hm := mem_of_middle _ _ _ _ hTeq
          rcases hre_char _ hm with hx | hx <;> simp at hx
        cases hf with
        | true =>
          rw [execLoop_fail _ _ _ _ _ _ _ _ _ _ _ _ _ _ _ hc2 hlp htr0 hrr]
          apply depsOK_extend g0 required _ _ HE3
          intro t1 n post hTeq d _ _
          exfalso
          have hm := mem_of_middle _ _ _ _ hTeq
          simp at hm
        | false =>
          rw [execLoop_okLevel _ _ _ _ _ _ _ _ _ _ _ _ _ _ _ hc2 hlp htr0 hrr]
          apply ih (i + 1) g2 o2 _ (List.Sorted.of_cons hsorted) _ _ HE3
          · intro n hn
            have hiso := rrGo_isSome oracle tr (markRunning g tr, o1, [], false) n
            rw [hfold2] at hiso
            have hmr := isSome_markRunning g tr n
            unfold Graph.getNode at hnodes ⊢
            rw [hiso, hmr]
            exact hnodes n hn
          · intro d hdo hdnot
            by_cases hdL : lv d = L
            · have hdg : d ∈ order.filter (fun nid => lv nid = L) :=
                List.mem_filter.mpr ⟨hdo, by simp [hdL]⟩
              rcases hcovers d hdg (hnodes d hdo) with hsk | htr'
              · exact Or.inr (List.mem_append_left _
                  (List.mem_append_left _ (List.mem_append_right _ hsk)))
              · have hok := (rrGo_ok_events oracle tr
                    (markRunning g tr, o1, [], false) (by rw [hfold2])).1 d htr'
                rw [hfold2] at hok
                exact Or.inl (List.mem_append_right _ hok)
            · have hdv : lv d ∉ L :: tail := by
                intro hmem
                rcases List.mem_cons.mp hmem with he | he
                · exact hdL he
                · exact hdnot he
              exact sgTerminal_mono _ _ _ (sgTerminal_mono _ _ _
                (sgTerminal_mono _ _ _ (hterm d hdo hdv)))

theorem filter_split {α : Type} (p : α → Bool) :
    ∀ (l f1 f2 : List α) (v : α), l.filter p = f1 ++ v :: f2 →
      ∃ L1 L2, l = L1 ++ v :: L2 ∧ f1 = L1.filter p ∧ f2 = L2.filter p := by
  intro l
  induction l with
  | nil =>
    intro f1 f2 v h
    rw [List.filter_nil] at h
    exact absurd h.symm (by simp)
  | cons x t ih =>
    intro f1 f2 v h
    by_cases hx : p x
    · rw [List.filter_cons_of_pos hx] at h
      cases f1 with
      | nil =>
        simp only [List.nil_append] at h
        have h1 := (List.cons.injEq _ _ _ _ ▸ h : _)
        exact ⟨[], t, by rw [h1.1]; rfl, by simp, h1.2.symm⟩
      | cons y f1t =>
        simp only [List.cons_append] at h
        have h1 := (List.cons.injEq _ _ _ _ ▸ h : _)
        obtain ⟨L1, L2, hl, hf1, hf2⟩ := ih f1t f2 v h1.2
        refine ⟨x :: L1, L2, by rw [hl]; rfl, ?_, hf2⟩
        rw [List.filter_cons_of_pos hx, ← hf1, h1.1]
    · rw [List.filter_cons_of_neg hx] at h
      obtain ⟨L1, L2, hl, hf1, hf2⟩ := ih f1 f2 v h
      exact ⟨x :: L1, L2, by rw [hl]; rfl,
        by rw [List.filter_cons_of_neg hx]; exact hf1, hf2⟩

theorem topoOrdered_filter (g : Graph) (hnodup : g.NodesNodup) (p : String → Bool) :
    TopoOrdered g (g.topologicalSort.filter p) := by
  intro v l1 l2 hsplit u hu
  unfold Graph.predsIn at hu
  rw [List.mem_toFinset] at hu
  rcases List.mem_map.mp hu with ⟨e, hef, hesrc⟩
  rcases List.mem_filter.mp hef with ⟨hein, hcond⟩
  have hcond2 : e.connection.toNodeId = v ∧
      e.connection.fromNodeId ∈ g.topologicalSort.filter p := by simpa using hcond
  obtain ⟨ts1, ts2, hts, hf1, _⟩ := filter_split p _ l1 l2 v hsplit
  have hstep : edgeStep g.edges u v := ⟨e, hein, hesrc, hcond2.1⟩
  have humem : u ∈ ts1 := (topologicalSort_spec g hnodup).2.2.1 u v hstep ts1 ts2 hts
  have hup : p u = true := by
    have hu2 := hcond2.2
    rw [hesrc] at hu2
    exact (List.mem_filter.mp hu2).2
  rw [hf1]
  exact List.mem_filter.mpr ⟨humem, hup⟩

theorem execute_depsRespected (g : Graph) (outputs : List String) (force : Bool)
    (oracle : String → Except String MediaResult) (cancelAt : Nat → Bool)
    (hnodup : g.NodesNodup) (hwf : g.EdgesWF) (hacyc : g.Acyclic) :
    sgDepsRespected g (g.getRequiredNodes outputs)
      (g.execute outputs force oracle cancelAt).1 := by
  have hndorder : (g.topologicalSort.filter
      (fun nid => nid ∈ g.getRequiredNodes outputs)).Nodup :=
    (topologicalSort_spec g hnodup).1.filter _
  have hordorder : TopoOrdered g (g.topologicalSort.filter
      (fun nid => nid ∈ g.getRequiredNodes outputs)) :=
    topoOrdered_filter g hnodup _
  have hrec := levelOf_recurrence g _ hordorder hndorder
  have HA : ∀ n ∈ g.topologicalSort.filter (fun nid => nid ∈ g.getRequiredNodes outputs),
      ∀ d, d ∈ g.getDependencies n → d ∈ g.getRequiredNodes outputs →
      d ∈ g.topologicalSort.filter (fun nid => nid ∈ g.getRequiredNodes outputs) ∧
        g.levelOf (g.topologicalSort.filter
          (fun nid => nid ∈ g.getRequiredNodes outputs)) d <
        g.levelOf (g.topologicalSort.filter
          (fun nid => nid ∈ g.getRequiredNodes outputs)) n := by
    intro n hn d hd hdr
    have hstep := (getDependencies_mem g n d).mp hd
    rcases hstep with ⟨e, hein, hesrc, hedst⟩
    have hdp : (alookup g.nodes d).isSome := by
      have := (hwf e hein).1
      rw [hesrc] at this
      exact this
    have hdts : d ∈ g.topologicalSort := topologicalSort_complete g hnodup hwf hacyc d hdp
    have hdo : d ∈ g.topologicalSort.filter
        (fun nid => nid ∈ g.getRequiredNodes outputs) :=
      List.mem_filter.mpr ⟨hdts, by simp [hdr]⟩
    refine ⟨hdo, ?_⟩
    have hdpred : d ∈ g.predsIn (g.topologicalSort.filter
        (fun nid => nid ∈ g.getRequiredNodes outputs)) n := by
      unfold Graph.predsIn
      rw [List.mem_toFinset]
      apply List.mem_map.mpr
      refine ⟨e, List.mem_filter.mpr ⟨hein, ?_⟩, hesrc⟩
      rw [hesrc]
      simp only [decide_eq_true_eq]
      exact ⟨hedst, hdo⟩
    have hne : g.predsIn (g.topologicalSort.filter
        (fun nid => nid ∈ g.getRequiredNodes outputs)) n ≠ ∅ :=
      Finset.ne_empty_of_mem hdpred
    have hrn := hrec n hn
    rw [if_neg hne] at hrn
    have hle := Finset.le_sup hdpred
      (f := g.levelOf (g.topologicalSort.filter
        (fun nid => nid ∈ g.getRequiredNodes outputs)))
    omega
  have hmain := execLoop_disc oracle cancelAt force g (g.getRequiredNodes outputs)
    (g.topologicalSort.filter (fun nid => nid ∈ g.getRequiredNodes outputs))
    (g.levelOf (g.topologicalSort.filter (fun nid => nid ∈ g.getRequiredNodes outputs)))
    HA
    (((g.topologicalSort.filter (fun nid => nid ∈ g.getRequiredNodes outputs)).map
        (g.levelOf (g.topologicalSort.filter
          (fun nid => nid ∈ g.getRequiredNodes outputs)))).dedup.insertionSort (· ≤ ·))
    0 g [] [EEvent.mk .started none]
    (List.sorted_insertionSort _ _)
    (by
      intro n hn
      have hnts := (List.mem_filter.mp hn).1
      exact (topologicalSort_spec g hnodup).2.1 n hnts)
    (by
      intro d hdo hdnot
      exfalso
      apply hdnot
      rw [(List.perm_insertionSort (· ≤ ·) _).mem_iff, List.mem_dedup]
      exact List.mem_map_of_mem _ hdo)
    (by
      intro pre n post hsplit d _ _
      exfalso
      have hm := mem_of_middle _ _ _ _ hsplit
      simp at hm)
  exact hmain

theorem mem_app4 {α : Type} (A B C D : List α) (x : α) (h : x ∈ A ++ B ++ C ++ D) :
    x ∈ A ∨ x ∈ B ∨ x ∈ C ∨ x ∈ D := by
  rcases List.mem_append.mp h with h3 | hD
  · rcases List.mem_append.mp h3 with h2 | hC
    · rcases List.mem_append.mp h2 with hA | hB
      · exact Or.inl hA
      · exact Or.inr (Or.inl hB)
    · exact Or.inr (Or.inr (Or.inl hC))
  · exact Or.inr (Or.inr (Or.inr hD))

theorem execLoop_failShape (oracle : String → Except String MediaResult)
    (cancelAt : Nat → Bool) (force : Bool) (order : List String) (lv : String → Nat) :
    ∀ (vals : List Nat) (i : Nat) (g : Graph) (outputs : List (String × MediaResult))
      (events0 : List EEvent),
      List.Sorted (· < ·) vals →
      (∀ n, EEvent.mk .nodeFailed (some n) ∉ events0) →
      (∀ n, EEvent.mk .nodeStarted (some n) ∈ events0 → ∀ L2 ∈ vals, lv n < L2) →
      (∀ n, EEvent.mk .nodeStarted (some n) ∈ events0 →
        EEvent.mk .nodeCompleted (some n) ∈ events0) →
      ((∀ n, EEvent.mk .nodeStarted (some n) ∈
          (execLoop oracle cancelAt force
            (vals.map (fun L => order.filter (fun nid => lv nid = L)))
            i g outputs events0).1 →
        EEvent.mk .nodeCompleted (some n) ∈
          (execLoop oracle cancelAt force
            (vals.map (fun L => order.filter (fun nid => lv nid = L)))
            i g outputs events0).1 ∨
          EEvent.mk .nodeFailed (some n) ∈
            (execLoop oracle cancelAt force
              (vals.map (fun L => order.filter (fun nid => lv nid = L)))
              i g outputs events0).1) ∧
        ((execLoop oracle cancelAt force
            (vals.map (fun L => order.filter (fun nid => lv nid = L)))
            i g outputs events0).2.2 = .failed →
          (∃ E, (execLoop oracle cancelAt force
              (vals.map (fun L => order.filter (fun nid => lv nid = L)))
              i g outputs events0).1 = E ++ [EEvent.mk .runFailed none]) ∧
          (∃ n, EEvent.mk .nodeFailed (some n) ∈
            (execLoop oracle cancelAt force
              (vals.map (fun L => order.filter (fun nid => lv nid = L)))
              i g outputs events0).1) ∧
          ∃ K, (∀ n, EEvent.mk .nodeFailed (some n) ∈
              (execLoop oracle cancelAt force
                (vals.map (fun L => order.filter (fun nid => lv nid = L)))
                i g outputs events0).1 → lv n = K) ∧
            (∀ n, EEvent.mk .nodeStarted (some n) ∈
              (execLoop oracle cancelAt force
                (vals.map (fun L => order.filter (fun nid => lv nid = L)))
                i g outputs events0).1 → lv n ≤ K)) ∧
        ((execLoop oracle cancelAt force
            (vals.map (fun L => order.filter (fun nid => lv nid = L)))
            i g outputs events0).2.2 ≠ .failed →
          ∀ n, EEvent.mk .nodeFailed (some n) ∉
            (execLoop oracle cancelAt force
              (vals.map (fun L => order.filter (fun nid => lv nid = L)))
              i g outputs events0).1)) := by
  intro vals
  induction vals with
  | nil =>
    intro i g outputs events0 _ h1 _ h3
    rw [List.map_nil, execLoop_nil]
    refine ⟨?_, ?_, ?_⟩
    · intro n hn
      rcases List.mem_append.mp hn with hx | hx
      · exact Or.inl (List.mem_append_left _ (h3 n hx))
      · simp at hx
    · intro hst
      simp at hst
    · intro _ n hn
      rcases List.mem_append.mp hn with hx | hx
      · exact h1 n hx
      · simp at hx
  | cons L tail ih =>
    intro i g outputs events0 hsorted h1 h2 h3
    simp only [List.map_cons]
    by_cases hcb : cancelAt i = true
    · rw [execLoop_cancel _ _ _ _ _ _ _ _ _ hcb]
      refine ⟨?_, ?_, ?_⟩
      · intro n hn
        rcases List.mem_append.mp hn with hx | hx
        · exact Or.inl (List.mem_append_left _ (h3 n hx))
        · simp at hx
      · intro hst
        simp at hst
      · intro _ n hn
        rcases List.mem_append.mp hn with hx | hx
        · exact h1 n hx
        · simp at hx
    · have hc2 : cancelAt i = false := by simpa using hcb
      rcases hlp : levelPartition force g (order.filter (fun nid => lv nid = L)) outputs
        with ⟨se, o1, tr⟩
      have hfold : (order.filter (fun nid => lv nid = L)).foldl (lpStep force g)
          ([], outputs, []) = (se, o1, tr) := by
        rw [← levelPartition_eq]
        exact hlp
      have hse : ∀ ev ∈ se, ev.etype = EvType.nodeSkipped := by
        intro ev hev
        have hmem : ev ∈ ((order.filter (fun nid => lv nid = L)).foldl (lpStep force g)
            ([], outputs, [])).1 := by
          rw [hfold]
          exact hev
        rcases lpGo_events_char force g _ _ ev hmem with hin | ⟨nid, _, rfl⟩
        · simp at hin
        · rfl
      have htr_char : ∀ nid ∈ tr, lv nid = L := by
        intro nid hnid
        have hmem : nid ∈ ((order.filter (fun nid => lv nid = L)).foldl (lpStep force g)
            ([], outputs, [])).2.2 := by
          rw [hfold]
          exact hnid
        rcases lpGo_toRun_char force g _ _ nid hmem with hin | hin
        · simp at hin
        · have := (List.mem_filter.mp hin).2
          simpa using this
      by_cases htr0 : tr = []
      · subst htr0
        rw [execLoop_skipLevel _ _ _ _ _ _ _ _ _ _ _ hc2 hlp]
        apply ih (i + 1) g o1 (events0 ++ se) (List.Sorted.of_cons hsorted)
        · intro n hn
          rcases List.mem_append.mp hn with hx | hx
          · exact h1 n hx
          · have := hse _ hx
            simp at this
        · intro n hn L2 hL2
          rcases List.mem_append.mp hn with hx | hx
          · exact h2 n hx L2 (List.mem_cons_of_mem _ hL2)
          · have := hse _ hx
            simp at this
        · intro n hn
          rcases List.mem_append.mp hn with hx | hx
          · exact List.mem_append_left _ (h3 n hx)
          · have := hse _ hx
            simp at this
      · rcases hrr : runResults oracle (markRunning g tr) o1 tr with ⟨g2, o2, re, hf⟩
        have hfold2 : tr.foldl (rrStep oracle) (markRunning g tr, o1, [], false) =
            (g2, o2, re, hf) := by
          rw [← runResults_eq]
          exact hrr
        have hre_mem : ∀ ev ∈ re, ev ∈ (tr.foldl (rrStep oracle)
            (markRunning g tr, o1, [], false)).2.2.1 := by
          intro ev hev
          rw [hfold2]
          exact hev
        have hre_char : ∀ ev ∈ re,
            (∃ m ∈ tr, ev = EEvent.mk .nodeCompleted (some m)) ∨
            (∃ m ∈ tr, ev = EEvent.mk .nodeFailed (some m)) := by
          intro ev hev
          rcases rrGo_events_char oracle tr _ ev (hre_mem ev hev) with hin | hx | hx
          · simp at hin
          · exact Or.inl hx
          · exact Or.inr hx
        have hreports : ∀ nid ∈ tr,
            EEvent.mk .nodeCompleted (some nid) ∈ re ∨
              EEvent.mk .nodeFailed (some nid) ∈ re := by
          intro nid hnid
          have := rrGo_reports oracle tr (markRunning g tr, o1, [], false) nid hnid
          rw [hfold2] at this
          exact this
        cases hf with
        | true =>
          rw [execLoop_fail _ _ _ _ _ _ _ _ _ _ _ _ _ _ _ hc2 hlp htr0 hrr]
          have hmemE : ∀ (x : EEvent),
              x ∈ events0 ++ se ++ startEvents tr ++ re ++ [EEvent.mk .runFailed none] →
              x ∈ events0 ∨ x ∈ se ∨ x ∈ startEvents tr ∨ x ∈ re ∨
                x = EEvent.mk .runFailed none := by
            intro x hx
            rcases List.mem_append.mp hx with h4 | hF
            · rcases mem_app4 _ _ _ _ _ h4 with hA | hB | hC | hD
              · exact Or.inl hA
              · exact Or.inr (Or.inl hB)
              · exact Or.inr (Or.inr (Or.inl hC))
              · exact Or.inr (Or.inr (Or.inr (Or.inl hD)))
            · simp only [List.mem_singleton] at hF
              exact Or.inr (Or.inr (Or.inr (Or.inr hF)))
          refine ⟨?_, ?_, ?_⟩
          · intro n hn
            rcases hmemE _ hn with hx | hx | hx | hx | hx
            · left
              exact List.mem_append_left _ (List.mem_append_left _
                (List.mem_append_left _ (List.mem_append_left _ (h3 n hx))))
            · have := hse _ hx
              simp at this
            · have hntr := mem_startEvents tr n hx
              rcases hreports n hntr with hcp | hfl
              · left
                exact List.mem_append_left _ (List.mem_append_right _ hcp)
              · right
                exact List.mem_append_left _ (List.mem_append_right _ hfl)
            · rcases hre_char _ hx with ⟨m, _, heq⟩ | ⟨m, _, heq⟩ <;>
                · have := congrArg EEvent.etype heq
                  simp at this
            · have := congrArg EEvent.etype hx
              simp at this
          · intro _
            refine ⟨⟨events0 ++ se ++ startEvents tr ++ re, rfl⟩, ?_, ?_⟩
            · have hex := rrGo_fail_exists oracle tr (markRunning g tr, o1, [], false)
                (by rw [hfold2])
              rcases hex with hx | ⟨nid, hnid, hfl⟩
              · simp at hx
              · rw [hfold2] at hfl
                exact ⟨nid, List.mem_append_left _ (List.mem_append_right _ hfl)⟩
            · refine ⟨L, ?_, ?_⟩
              · intro n hn
                rcases hmemE _ hn with hx | hx | hx | hx | hx
                · exact absurd hx (h1 n)
                · have := hse _ hx
                  simp at this
                · have := startEvents_etype tr _ hx
                  simp at this
                · rcases hre_char _ hx with ⟨m, _, heq⟩ | ⟨m, hm, heq⟩
                  · have := congrArg EEvent.etype heq
                    simp at this
                  · have hnode := congrArg EEvent.node heq
                    simp only [Option.some.injEq] at hnode
                    rw [hnode]
                    exact htr_char m hm
                · have := congrArg EEvent.etype hx
                  simp at this
              · intro n hn
                rcases hmemE _ hn with hx | hx | hx | hx | hx
                · have := h2 n hx L (List.mem_cons_self _ _)
                  omega
                · have := hse _ hx
                  simp at this
                · have hntr := mem_startEvents tr n hx
                  rw [htr_char n hntr]
                · rcases hre_char _ hx with ⟨m, _, heq⟩ | ⟨m, _, heq⟩ <;>
                    · have := congrArg EEvent.etype heq
                      simp at this
                · have := congrArg EEvent.etype hx
                  simp at this
          · intro hst
            exact absurd rfl hst
        | false =>
          rw [execLoop_okLevel _ _ _ _ _ _ _ _ _ _ _ _ _ _ _ hc2 hlp htr0 hrr]
          have hok := rrGo_ok_events oracle tr (markRunning g tr, o1, [], false)
            (by rw [hfold2])
          have hokc : ∀ nid ∈ tr, EEvent.mk .nodeCompleted (some nid) ∈ re := by
            intro nid hnid
            have := hok.1 nid hnid
            rw [hfold2] at this
            exact this
          have hre_comp : ∀ ev ∈ re, ∃ m ∈ tr, ev = EEvent.mk .nodeCompleted (some m) := by
            intro ev hev
            rcases hok.2 ev (hre_mem ev hev) with hin | hx
            · simp at hin
            · exact hx
          apply ih (i + 1) g2 o2 (events0 ++ se ++ startEvents tr ++ re)
            (List.Sorted.of_cons hsorted)
          · intro n hn
            rcases mem_app4 _ _ _ _ _ hn with hx | hx | hx | hx
            · exact h1 n hx
            · have := hse _ hx
              simp at this
            · have := startEvents_etype tr _ hx
              simp at this
            · rcases hre_comp _ hx with ⟨m, _, heq⟩
              have := congrArg EEvent.etype heq
              simp at this
          · intro n hn L2 hL2
            rcases mem_app4 _ _ _ _ _ hn with hx | hx | hx | hx
            · exact h2 n hx L2 (List.mem_cons_of_mem _ hL2)
            · have := hse _ hx
              simp at this
            · have hntr := mem_startEvents tr n hx
              have hL2lt : L < L2 := (List.sorted_cons.mp hsorted).1 _ hL2
              rw [htr_char n hntr]
              exact hL2lt
            · rcases hre_comp _ hx with ⟨m, _, heq⟩
              have := congrArg EEvent.etype heq
              simp at this
          · intro n hn
            rcases mem_app4 _ _ _ _ _ hn with hx | hx | hx | hx
            · exact List.mem_append_left _ (List.mem_append_left _
                (List.mem_append_left _ (h3 n hx)))
            · have := hse _ hx
              simp at this
            · have hntr := mem_startEvents tr n hx
              exact List.mem_append_right _ (hokc n hntr)
            · rcases hre_comp _ hx with ⟨m, _, heq⟩
              have := congrArg EEvent.etype heq
              simp at this

/-- Claim C6: in a single-graph run, every dispatched node is awaited and
reported (`node_completed` or `node_failed`); when the run fails, the event
stream ends with the terminal `run_failed` event, some node did fail, and
there is a single level index `K` such that all failures sit at level `K`
while every dispatched node sits at level at most `K` — so no node of a
later level ever emitted `node_started`; and a run that did not fail
contains no `node_failed` event. -/
theorem claim_C6 (g : Graph) (outputs : List String) (force : Bool)
    (oracle : String → Except String MediaResult) (cancelAt : Nat → Bool) :
    (∀ n, EEvent.mk .nodeStarted (some n) ∈ (g.execute outputs force oracle cancelAt).1 →
      EEvent.mk .nodeCompleted (some n) ∈ (g.execute outputs force oracle cancelAt).1 ∨
        EEvent.mk .nodeFailed (some n) ∈ (g.execute outputs force oracle cancelAt).1) ∧
    ((g.execute outputs force oracle cancelAt).2.2 = .failed →
      (∃ E, (g.execute outputs force oracle cancelAt).1 =
        E ++ [EEvent.mk .runFailed none]) ∧
      (∃ n, EEvent.mk .nodeFailed (some n) ∈ (g.execute outputs force oracle cancelAt).1) ∧
      ∃ K, (∀ n, EEvent.mk .nodeFailed (some n) ∈
          (g.execute outputs force oracle cancelAt).1 →
          g.levelOf (g.topologicalSort.filter
            (fun nid => nid ∈ g.getRequiredNodes outputs)) n = K) ∧
        (∀ n, EEvent.mk .nodeStarted (some n) ∈
          (g.execute outputs force oracle cancelAt).1 →
          g.levelOf (g.topologicalSort.filter
            (fun nid => nid ∈ g.getRequiredNodes outputs)) n ≤ K)) ∧
    ((g.execute outputs force oracle cancelAt).2.2 ≠ .failed →
      ∀ n, EEvent.mk .nodeFailed (some n) ∉ (g.execute outputs force oracle cancelAt).1) := by
  have hnd : ((((g.topologicalSort.filter
      (fun nid => nid ∈ g.getRequiredNodes outputs)).map
        (g.levelOf (g.topologicalSort.filter
          (fun nid => nid ∈ g.getRequiredNodes outputs)))).dedup).insertionSort
      (· ≤ ·)).Nodup :=
    (List.perm_insertionSort (· ≤ ·) _).nodup_iff.mpr (List.nodup_dedup _)
  have hsle := List.sorted_insertionSort (α := ℕ) (· ≤ ·)
    (((g.topologicalSort.filter (fun nid => nid ∈ g.getRequiredNodes outputs)).map
      (g.levelOf (g.topologicalSort.filter
        (fun nid => nid ∈ g.getRequiredNodes outputs)))).dedup)
  have hslt : List.Sorted (· < ·)
      ((((g.topologicalSort.filter (fun nid => nid ∈ g.getRequiredNodes outputs)).map
        (g.levelOf (g.topologicalSort.filter
          (fun nid => nid ∈ g.getRequiredNodes outputs)))).dedup).insertionSort
        (· ≤ ·)) := by
    have hand := List.Pairwise.and hsle hnd
    exact hand.imp (fun h => lt_of_le_of_ne h.1 h.2)
  exact execLoop_failShape oracle cancelAt force
    (g.topologicalSort.filter (fun nid => nid ∈ g.getRequiredNodes outputs))
    (g.levelOf (g.topologicalSort.filter (fun nid => nid ∈ g.getRequiredNodes outputs)))
    ((((g.topologicalSort.filter (fun nid => nid ∈ g.getRequiredNodes outputs)).map
      (g.levelOf (g.topologicalSort.filter
        (fun nid => nid ∈ g.getRequiredNodes outputs)))).dedup).insertionSort (· ≤ ·))
    0 g [] [EEvent.mk .started none] hslt
    (by intro n hn; simp at hn)
    (by
      intro n hn
      exfalso
      simp at hn)
    (by
      intro n hn
      exfalso
      simp at hn)

theorem isSkippable_addGeneration (n : Node) (r : MediaResult) :
    isSkippable false (n.addGeneration r) = true := by
  simp [isSkippable, Node.addGeneration]

theorem isSkippable_of_skippable (force : Bool) (n : Node)
    (h : isSkippable force n = true) : isSkippable false n = true := by
  unfold isSkippable at h ⊢
  simp only [Bool.and_eq_true] at h
  simp [h.1.1.2, h.1.2, h.2]

theorem akeys_aupdate {α : Type} (l : List (String × α)) (k : String) (f : α → α) :
    akeys (aupdate l k f) = akeys l := by
  induction l with
  | nil => simp [aupdate]
  | cons p t ih =>
    by_cases hp : p.1 = k
    · simp [aupdate, hp, akeys]
    · simp only [aupdate, if_neg hp, akeys, List.map_cons] at ih ⊢
      rw [ih]

theorem lpGo_covers2 (force : Bool) (g : Graph) :
    ∀ (lvl : List String) (acc : List EEvent × List (String × MediaResult) × List String),
      ∀ nid ∈ lvl, (g.getNode nid).isSome →
        nid ∈ (lvl.foldl (lpStep force g) acc).2.2 ∨
          ∃ node, g.getNode nid = some node ∧ isSkippable force node = true := by
  intro lvl
  induction lvl with
  | nil => intro acc nid h; simp at h
  | cons x rest ih =>
    intro acc nid h hsome
    simp only [List.foldl_cons]
    rcases List.mem_cons.mp h with rfl | hmem
    · cases hgn : g.getNode nid with
      | none => rw [hgn] at hsome; simp at hsome
      | some node =>
        by_cases hs : isSkippable force node
        · exact Or.inr ⟨node, rfl, hs⟩
        · left
          apply lpGo_toRun_mono
          rw [lpStep_run force g acc nid node hgn (by simpa using hs)]
          exact List.mem_append_right _ (List.mem_singleton.mpr rfl)
    · exact ih _ nid hmem hsome

theorem lpGo_toRun_nil (force : Bool) (g : Graph) :
    ∀ (lvl : List String) (acc : List EEvent × List (String × MediaResult) × List String),
      (∀ nid ∈ lvl, ∃ node, g.getNode nid = some node ∧ isSkippable force node = true) →
      (lvl.foldl (lpStep force g) acc).2.2 = acc.2.2 := by
  intro lvl
  induction lvl with
  | nil => intro acc _; rfl
  | cons x rest ih =>
    intro acc hall
    simp only [List.foldl_cons]
    obtain ⟨node, hgn, hs⟩ := hall x (List.mem_cons_self _ _)
    rw [lpStep_skip force g acc x node hgn hs]
    exact ih _ (fun nid hnid => hall nid (List.mem_cons_of_mem _ hnid))

theorem lpGo_toRun_sublist (force : Bool) (g : Graph) :
    ∀ (lvl : List String) (acc : List EEvent × List (String × MediaResult) × List String),
      ∃ tr2, (lvl.foldl (lpStep force g) acc).2.2 = acc.2.2 ++ tr2 ∧
        List.Sublist tr2 lvl := by
  intro lvl
  induction lvl with
  | nil => intro acc; exact ⟨[], by simp, List.nil_sublist _⟩
  | cons x rest ih =>
    intro acc
    simp only [List.foldl_cons]
    cases hgn : g.getNode x with
    | none =>
      rw [lpStep_none force g acc x hgn]
      obtain ⟨tr2, heq, hsub⟩ := ih acc
      exact ⟨tr2, heq, hsub.cons _⟩
    | some node =>
      by_cases hs : isSkippable force node
      · rw [lpStep_skip force g acc x node hgn hs]
        obtain ⟨tr2, heq, hsub⟩ := ih _
        exact ⟨tr2, heq, hsub.cons _⟩
      · rw [lpStep_run force g acc x node hgn (by simpa using hs)]
        obtain ⟨tr2, heq, hsub⟩ := ih (acc.1, acc.2.1, acc.2.2 ++ [x])
        refine ⟨x :: tr2, ?_, hsub.cons₂ _⟩
        rw [heq]
        simp

theorem rrGo_run_value (oracle : String → Except String MediaResult) :
    ∀ (tr : List String) (acc : Graph × List (String × MediaResult) × List EEvent × Bool),
      tr.Nodup → (tr.foldl (rrStep oracle) acc).2.2.2 = false →
      ∀ nid ∈ tr, ∃ r, oracle nid = .ok r ∧
        alookup (tr.foldl (rrStep oracle) acc).1.nodes nid =
          (alookup acc.1.nodes nid).map (fun n => n.addGeneration r) := by
  intro tr
  induction tr with
  | nil => intro acc _ _ nid h; simp at h
  | cons x rest ih =>
    intro acc hnd hflag nid h
    simp only [List.foldl_cons] at hflag ⊢
    cases horc : oracle x with
    | error msg =>
      exfalso
      have h2 := rrGo_flag_mono oracle rest _ hflag
      rw [rrStep_error oracle acc x msg horc] at h2
      simp at h2
    | ok r =>
      rcases List.mem_cons.mp h with rfl | hmem
      · refine ⟨r, horc, ?_⟩
        rw [rrGo_notMem oracle rest _ nid (List.nodup_cons.mp hnd).1,
          rrStep_ok oracle acc nid r horc]
        exact (alookup_updateNode _ _ _ _).trans (if_pos rfl)
      · obtain ⟨r2, horc2, hval⟩ := ih _ (List.nodup_cons.mp hnd).2 hflag nid hmem
        refine ⟨r2, horc2, ?_⟩
        rw [hval, rrStep_ok oracle acc x r horc]
        have hne : ¬ nid = x := fun he =>
          (List.nodup_cons.mp hnd).1 (he ▸ hmem)
        rw [(alookup_updateNode _ _ _ _ : _), if_neg hne]

theorem lpGo_toRun_present (force : Bool) (g : Graph) :
    ∀ (lvl : List String) (acc : List EEvent × List (String × MediaResult) × List String),
      ∀ nid ∈ (lvl.foldl (lpStep force g) acc).2.2,
        nid ∈ acc.2.2 ∨ (g.getNode nid).isSome := by
  intro lvl
  induction lvl with
  | nil => intro acc nid h; exact Or.inl h
  | cons x rest ih =>
    intro acc nid h
    simp only [List.foldl_cons] at h
    rcases ih _ nid h with hin | hin
    · cases hgn : g.getNode x with
      | none =>
        rw [lpStep_none force g acc x hgn] at hin
        exact Or.inl hin
      | some node =>
        by_cases hs : isSkippable force node
        · rw [lpStep_skip force g acc x node hgn hs] at hin
          exact Or.inl hin
        · rw [lpStep_run force g acc x node hgn (by simpa using hs)] at hin
          rcases List.mem_append.mp hin with hy | hy
          · exact Or.inl hy
          · simp only [List.mem_singleton] at hy
            subst hy
            rw [hgn]
            exact Or.inr rfl
    · exact Or.inr hin

theorem execLoop_completed_skippable (oracle : String → Except String MediaResult)
    (cancelAt : Nat → Bool) (force : Bool) :
    ∀ (groups : List (List String)) (i : Nat) (g : Graph)
      (outs : List (String × MediaResult)) (evs : List EEvent),
      (∀ lvl ∈ groups, lvl.Nodup) →
      (execLoop oracle cancelAt force groups i g outs evs).2.2 = .completed →
      ∀ nid, ((∃ node, alookup g.nodes nid = some node ∧ isSkippable false node = true) ∨
          (∃ lvl ∈ groups, nid ∈ lvl ∧ (alookup g.nodes nid).isSome)) →
        ∃ node, alookup (execLoop oracle cancelAt force groups i g outs evs).2.1.nodes nid =
            some node ∧ isSkippable false node = true := by
  intro groups
  induction groups with
  | nil =>
    intro i g outs evs _ _ nid hd
    rcases hd with ⟨node, hv, hs⟩ | ⟨lvl, hl, _⟩
    · exact ⟨node, hv, hs⟩
    · simp at hl
  | cons lvl rest ih =>
    intro i g outs evs hnds hcomp nid hd
    by_cases hcb : cancelAt i = true
    · rw [execLoop_cancel _ _ _ _ _ _ _ _ _ hcb] at hcomp
      simp at hcomp
    · have hc2 : cancelAt i = false := by simpa using hcb
      rcases hlp : levelPartition force g lvl outs with ⟨se, o1, tr⟩
      have hfold : lvl.foldl (lpStep force g) ([], outs, []) = (se, o1, tr) := by
        rw [← levelPartition_eq]
        exact hlp
      have hcov2 : ∀ m ∈ lvl, (alookup g.nodes m).isSome →
          m ∈ tr ∨ ∃ node, alookup g.nodes m = some node ∧
            isSkippable force node = true := by
        intro m hm hms
        have hh := lpGo_covers2 force g lvl ([], outs, []) m hm hms
        rw [hfold] at hh
        exact hh
      by_cases htr0 : tr = []
      · subst htr0
        rw [execLoop_skipLevel _ _ _ _ _ _ _ _ _ _ _ hc2 hlp] at hcomp ⊢
        apply ih (i + 1) g o1 (evs ++ se)
          (fun l hl => hnds l (List.mem_cons_of_mem _ hl)) hcomp nid
        rcases hd with hone | ⟨l, hl, hmem, hms⟩
        · exact Or.inl hone
        · rcases List.mem_cons.mp hl with rfl | hl2
          · rcases hcov2 nid hmem hms with htr | ⟨node, hv, hs⟩
            · simp at htr
            · exact Or.inl ⟨node, hv, isSkippable_of_skippable force node hs⟩
          · exact Or.inr ⟨l, hl2, hmem, hms⟩
      · rcases hrr : runResults oracle (markRunning g tr) o1 tr with ⟨g2, o2, re, hf⟩
        have hfold2 : tr.foldl (rrStep oracle) (markRunning g tr, o1, [], false) =
            (g2, o2, re, hf) := by
          rw [← runResults_eq]
          exact hrr
        cases hf with
        | true =>
          rw [execLoop_fail _ _ _ _ _ _ _ _ _ _ _ _ _ _ _ hc2 hlp htr0 hrr] at hcomp
          simp at hcomp
        | false =>
          rw [execLoop_okLevel _ _ _ _ _ _ _ _ _ _ _ _ _ _ _ hc2 hlp htr0 hrr] at hcomp ⊢
          have htrnd : tr.Nodup := by
            obtain ⟨tr2, heq, hsub⟩ := lpGo_toRun_sublist force g lvl ([], outs, [])
            rw [hfold] at heq
            have heq2 : tr = tr2 := by simpa using heq
            rw [heq2]
            exact hsub.nodup (hnds lvl (List.mem_cons_self _ _))
          have hrun : ∀ m ∈ tr, ∃ r, oracle m = .ok r ∧
              alookup g2.nodes m = (alookup (markRunning g tr).nodes m).map
                (fun n => n.addGeneration r) := by
            intro m hm
            have hh := rrGo_run_value oracle tr (markRunning g tr, o1, [], false) htrnd
              (by rw [hfold2]) m hm
            rw [hfold2] at hh
            exact hh
          have hg2_mem_tr : ∀ m ∈ tr, ∃ node, alookup g2.nodes m = some node ∧
              isSkippable false node = true := by
            intro m hm
            obtain ⟨r, _, hval⟩ := hrun m hm
            have hmp : (alookup g.nodes m).isSome := by
              have hh := lpGo_toRun_present force g lvl ([], outs, []) m
                (by rw [hfold]; exact hm)
              rcases hh with h0 | h0
              · simp at h0
              · exact h0
            have hmp2 : (alookup (markRunning g tr).nodes m).isSome := by
              rw [isSome_markRunning]
              exact hmp
            cases hmk : alookup (markRunning g tr).nodes m with
            | none => rw [hmk] at hmp2; simp at hmp2
            | some node0 =>
              rw [hmk] at hval
              exact ⟨node0.addGeneration r, by simpa using hval,
                isSkippable_addGeneration node0 r⟩
          have hg2_notMem : ∀ m, m ∉ tr → alookup g2.nodes m = alookup g.nodes m := by
            intro m hm
            have h1 := rrGo_notMem oracle tr (markRunning g tr, o1, [], false) m hm
            rw [hfold2] at h1
            rw [h1]
            exact alookup_markRunning_notMem g tr m hm
          have hg2_isSome : ∀ m, (alookup g2.nodes m).isSome =
              (alookup g.nodes m).isSome := by
            intro m
            have h1 := rrGo_isSome oracle tr (markRunning g tr, o1, [], false) m
            rw [hfold2] at h1
            rw [h1, isSome_markRunning]
          apply ih (i + 1) g2 o2 _
            (fun l hl => hnds l (List.mem_cons_of_mem _ hl)) hcomp nid
          rcases hd with ⟨node, hv, hs⟩ | ⟨l, hl, hmem, hms⟩
          · by_cases hmtr : nid ∈ tr
            · exact Or.inl (hg2_mem_tr nid hmtr)
            · exact Or.inl ⟨node, by rw [hg2_notMem nid hmtr]; exact hv, hs⟩
          · rcases List.mem_cons.mp hl with rfl | hl2
            · rcases hcov2 nid hmem hms with htr | ⟨node, hv, hs⟩
              · exact Or.inl (hg2_mem_tr nid htr)
              · by_cases hmtr : nid ∈ tr
                · exact Or.inl (hg2_mem_tr nid hmtr)
                · exact Or.inl ⟨node, by rw [hg2_notMem nid hmtr]; exact hv,
                    isSkippable_of_skippable force node hs⟩
            · refine Or.inr ⟨l, hl2, hmem, ?_⟩
              rw [hg2_isSome]
              exact hms

theorem akeys_markRunning (g : Graph) (toRun : List String) :
    akeys (markRunning g toRun).nodes = akeys g.nodes := by
  unfold markRunning
  induction toRun generalizing g with
  | nil => rfl
  | cons nid rest ih =>
    simp only [List.foldl_cons]
    rw [ih]
    exact akeys_aupdate _ _ _

theorem rrGo_akeys (oracle : String → Except String MediaResult) :
    ∀ (toRun : List String) (acc : Graph × List (String × MediaResult) × List EEvent × Bool),
      akeys (toRun.foldl (rrStep oracle) acc).1.nodes = akeys acc.1.nodes := by
  intro toRun
  induction toRun with
  | nil => intro acc; rfl
  | cons x rest ih =>
    intro acc
    simp only [List.foldl_cons]
    rw [ih]
    cases horc : oracle x with
    | error msg =>
      rw [rrStep_error oracle acc x msg horc]
      exact akeys_aupdate _ _ _
    | ok r =>
      rw [rrStep_ok oracle acc x r horc]
      exact akeys_aupdate _ _ _

theorem execLoop_edges (oracle : String → Except String MediaResult)
    (cancelAt : Nat → Bool) (force : Bool) :
    ∀ (groups : List (List String)) (i : Nat) (g : Graph)
      (outs : List (String × MediaResult)) (evs : List EEvent),
      (execLoop oracle cancelAt force groups i g outs evs).2.1.edges = g.edges := by
  intro groups
  induction groups with
  | nil => intro i g outs evs; rfl
  | cons lvl rest ih =>
    intro i g outs evs
    by_cases hcb : cancelAt i = true
    · rw [execLoop_cancel _ _ _ _ _ _ _ _ _ hcb]
    · have hc2 : cancelAt i = false := by simpa using hcb
      rcases hlp : levelPartition force g lvl outs with ⟨se, o1, tr⟩
      by_cases htr0 : tr = []
      · subst htr0
        rw [execLoop_skipLevel _ _ _ _ _ _ _ _ _ _ _ hc2 hlp]
        exact ih _ _ _ _
      · rcases hrr : runResults oracle (markRunning g tr) o1 tr with ⟨g2, o2, re, hf⟩
        have hfold2 : tr.foldl (rrStep oracle) (markRunning g tr, o1, [], false) =
            (g2, o2, re, hf) := by
          rw [← runResults_eq]
          exact hrr
        have hg2 : g2.edges = g.edges := by
          have h1 := rrGo_edges oracle tr (markRunning g tr, o1, [], false)
          rw [hfold2] at h1
          rw [h1]
          exact markRunning_edges g tr
        cases hf with
        | true =>
          rw [execLoop_fail _ _ _ _ _ _ _ _ _ _ _ _ _ _ _ hc2 hlp htr0 hrr]
          exact hg2
        | false =>
          rw [execLoop_okLevel _ _ _ _ _ _ _ _ _ _ _ _ _ _ _ hc2 hlp htr0 hrr]
          rw [ih _ _ _ _]
          exact hg2

theorem execLoop_akeys (oracle : String → Except String MediaResult)
    (cancelAt : Nat → Bool) (force : Bool) :
    ∀ (groups : List (List String)) (i : Nat) (g : Graph)
      (outs : List (String × MediaResult)) (evs : List EEvent),
      akeys (execLoop oracle cancelAt force groups i g outs evs).2.1.nodes =
        akeys g.nodes := by
  intro groups
  induction groups with
  | nil => intro i g outs evs; rfl
  | cons lvl rest ih =>
    intro i g outs evs
    by_cases hcb : cancelAt i = true
    · rw [execLoop_cancel _ _ _ _ _ _ _ _ _ hcb]
    · have hc2 : cancelAt i = false := by simpa using hcb
      rcases hlp : levelPartition force g lvl outs with ⟨se, o1, tr⟩
      by_cases htr0 : tr = []
      · subst htr0
        rw [execLoop_skipLevel _ _ _ _ _ _ _ _ _ _ _ hc2 hlp]
        exact ih _ _ _ _
      · rcases hrr : runResults oracle (markRunning g tr) o1 tr with ⟨g2, o2, re, hf⟩
        have hfold2 : tr.foldl (rrStep oracle) (markRunning g tr, o1, [], false) =
            (g2, o2, re, hf) := by
          rw [← runResults_eq]
          exact hrr
        have hg2 : akeys g2.nodes = akeys g.nodes := by
          have h1 := rrGo_akeys oracle tr (markRunning g tr, o1, [], false)
          rw [hfold2] at h1
          rw [h1]
          exact akeys_markRunning g tr
        cases hf with
        | true =>
          rw [execLoop_fail _ _ _ _ _ _ _ _ _ _ _ _ _ _ _ hc2 hlp htr0 hrr]
          exact hg2
        | false =>
          rw [execLoop_okLevel _ _ _ _ _ _ _ _ _ _ _ _ _ _ _ hc2 hlp htr0 hrr]
          rw [ih _ _ _ _]
          exact hg2

theorem execLoop_allSkippable (oracle : String → Except String MediaResult)
    (cancelAt : Nat → Bool) (hc : ∀ i2, cancelAt i2 = false) :
    ∀ (groups : List (List String)) (i : Nat) (g : Graph)
      (outs : List (String × MediaResult)) (evs : List EEvent),
      (∀ lvl ∈ groups, ∀ nid ∈ lvl, ∃ node, alookup g.nodes nid = some node ∧
        isSkippable false node = true) →
      (execLoop oracle cancelAt false groups i g outs evs).2.1 = g ∧
      (execLoop oracle cancelAt false groups i g outs evs).2.2 = .completed ∧
      (∀ lvl ∈ groups, ∀ nid ∈ lvl, EEvent.mk .nodeSkipped (some nid) ∈
        (execLoop oracle cancelAt false groups i g outs evs).1) ∧
      (∀ ev ∈ evs, ev ∈ (execLoop oracle cancelAt false groups i g outs evs).1) := by
  intro groups
  induction groups with
  | nil =>
    intro i g outs evs _
    refine ⟨rfl, rfl, ?_, ?_⟩
    · intro lvl hl
      simp at hl
    · intro ev hev
      rw [execLoop_nil]
      exact List.mem_append_left _ hev
  | cons lvl rest ih =>
    intro i g outs evs hall
    rcases hlp : levelPartition false g lvl outs with ⟨se, o1, tr⟩
    have hfold : lvl.foldl (lpStep false g) ([], outs, []) = (se, o1, tr) := by
      rw [← levelPartition_eq]
      exact hlp
    have htr0 : tr = [] := by
      have h1 := lpGo_toRun_nil false g lvl ([], outs, [])
        (hall lvl (List.mem_cons_self _ _))
      rw [hfold] at h1
      exact h1
    subst htr0
    rw [execLoop_skipLevel _ _ _ _ _ _ _ _ _ _ _ (hc i) hlp]
    obtain ⟨ih1, ih2, ih3, ih4⟩ := ih (i + 1) g o1 (evs ++ se)
      (fun l hl => hall l (List.mem_cons_of_mem _ hl))
    refine ⟨ih1, ih2, ?_, ?_⟩
    · intro l hl nid hnid
      rcases List.mem_cons.mp hl with rfl | hl2
      · obtain ⟨node, hv, _⟩ := hall l (List.mem_cons_self _ _) nid hnid
        have hpres : (g.getNode nid).isSome := by
          unfold Graph.getNode
          rw [hv]
          rfl
        have hcov := lpGo_covers false g l ([], outs, []) nid hnid hpres
        rw [hfold] at hcov
        rcases hcov with hsk | htr
        · exact ih4 _ (List.mem_append_right _ hsk)
        · simp at htr
      · exact ih3 l hl2 nid hnid
    · intro ev hev
      exact ih4 _ (List.mem_append_left _ hev)

theorem map_key_const {α β : Type} (l : List (String × α)) (c : β) :
    l.map (fun p => (p.1, c)) = (akeys l).map (fun k => (k, c)) := by
  unfold akeys
  rw [List.map_map]
  rfl

theorem buildInDeg_congr (g1 g : Graph) (hedges : g1.edges = g.edges)
    (hakeys : akeys g1.nodes = akeys g.nodes) : g1.buildInDeg = g.buildInDeg := by
  unfold Graph.buildInDeg
  rw [hedges, map_key_const, map_key_const, hakeys]

theorem buildAdjBase_congr (g1 g : Graph) (hedges : g1.edges = g.edges)
    (hakeys : akeys g1.nodes = akeys g.nodes) : g1.buildAdjBase = g.buildAdjBase := by
  unfold Graph.buildAdjBase
  rw [hedges, map_key_const, map_key_const, hakeys]

theorem topologicalSort_congr (g1 g : Graph) (hedges : g1.edges = g.edges)
    (hakeys : akeys g1.nodes = akeys g.nodes) :
    g1.topologicalSort = g.topologicalSort := by
  unfold Graph.topologicalSort
  rw [buildInDeg_congr g1 g hedges hakeys, buildAdjBase_congr g1 g hedges hakeys]

theorem getDependencies_congr (g1 g : Graph) (hedges : g1.edges = g.edges) :
    g1.getDependencies = g.getDependencies := by
  funext n
  unfold Graph.getDependencies Graph.getIncomingEdges
  rw [hedges]

theorem searchUniv_congr (g1 g : Graph) (hedges : g1.edges = g.edges)
    (extra : List String) : g1.searchUniv extra = g.searchUniv extra := by
  unfold Graph.searchUniv
  rw [hedges]

theorem getRequiredNodes_congr (g1 g : Graph) (hedges : g1.edges = g.edges)
    (outputs : List String) :
    g1.getRequiredNodes outputs = g.getRequiredNodes outputs := by
  unfold Graph.getRequiredNodes
  rw [getDependencies_congr g1 g hedges, searchUniv_congr g1 g hedges]

theorem predsIn_congr (g1 g : Graph) (hedges : g1.edges = g.edges)
    (ids : List String) (nid : String) : g1.predsIn ids nid = g.predsIn ids nid := by
  unfold Graph.predsIn
  rw [hedges]

theorem levelFold_congr (g1 g : Graph) (hedges : g1.edges = g.edges)
    (ids : List String) : g1.levelFold ids = g.levelFold ids := by
  rw [levelFold_eq, levelFold_eq]
  have hfun : (fun (levels : List (String × Nat)) nid =>
      aset levels nid (if g1.predsIn ids nid = ∅ then 0
        else ((g1.predsIn ids nid).sup (fun p => (alookup levels p).getD 0)) + 1)) =
    (fun (levels : List (String × Nat)) nid =>
      aset levels nid (if g.predsIn ids nid = ∅ then 0
        else ((g.predsIn ids nid).sup (fun p => (alookup levels p).getD 0)) + 1)) := by
    funext levels nid
    rw [predsIn_congr g1 g hedges ids nid]
  rw [hfun]

theorem topologicalLevels_congr (g1 g : Graph) (hedges : g1.edges = g.edges)
    (ids : List String) : g1.topologicalLevels ids = g.topologicalLevels ids := by
  unfold Graph.topologicalLevels
  rw [levelFold_congr g1 g hedges ids]

theorem mem_topologicalLevels_self (g : Graph) (ids : List String) (nid : String)
    (h : nid ∈ ids) : ∃ lvl ∈ g.topologicalLevels ids, nid ∈ lvl := by
  unfold Graph.topologicalLevels
  refine ⟨ids.filter (fun m => (alookup (g.levelFold ids) m).getD 0 =
      (alookup (g.levelFold ids) nid).getD 0), ?_, ?_⟩
  · apply List.mem_map_of_mem
    rw [(List.perm_insertionSort (· ≤ ·) _).mem_iff, List.mem_dedup]
    exact List.mem_map_of_mem _ h
  · exact List.mem_filter.mpr ⟨h, by simp⟩

theorem mem_of_mem_topologicalLevels (g : Graph) (ids : List String) (lvl : List String)
    (hl : lvl ∈ g.topologicalLevels ids) : ∀ nid ∈ lvl, nid ∈ ids := by
  unfold Graph.topologicalLevels at hl
  rcases List.mem_map.mp hl with ⟨L, _, rfl⟩
  intro nid hn
  exact (List.mem_filter.mp hn).1

theorem nodup_of_mem_topologicalLevels (g : Graph) (ids : List String) (hnd : ids.Nodup)
    (lvl : List String) (hl : lvl ∈ g.topologicalLevels ids) : lvl.Nodup := by
  unfold Graph.topologicalLevels at hl
  rcases List.mem_map.mp hl with ⟨L, _, rfl⟩
  exact hnd.filter _

/-- Claim C3: after a run that completed successfully, re-executing the
unchanged result graph with `force = false` (and no cancellation) leaves
the graph object exactly as it was — no node's `result` changes and no
`generation_history` grows, hence zero new `MediaResult`s — finishes with
status completed, and emits `node_skipped` for every node of the required
set. -/
theorem claim_C3 (g : Graph) (outputs : List String) (force : Bool)
    (oracle oracle2 : String → Except String MediaResult)
    (cancelAt cancelAt2 : Nat → Bool)
    (hnodup : g.NodesNodup) (hwf : g.EdgesWF) (hacyc : g.Acyclic)
    (hc2 : ∀ i, cancelAt2 i = false)
    (h1 : (g.execute outputs force oracle cancelAt).2.2 = .completed) :
    ((g.execute outputs force oracle cancelAt).2.1.execute outputs false oracle2
        cancelAt2).2.1 = (g.execute outputs force oracle cancelAt).2.1 ∧
    ((g.execute outputs force oracle cancelAt).2.1.execute outputs false oracle2
        cancelAt2).2.2 = .completed ∧
    (∀ nid ∈ g.getRequiredNodes outputs, (alookup g.nodes nid).isSome →
      EEvent.mk .nodeSkipped (some nid) ∈
        ((g.execute outputs force oracle cancelAt).2.1.execute outputs false oracle2
          cancelAt2).1) := by
  have hex1 : g.execute outputs force oracle cancelAt =
      execLoop oracle cancelAt force
        (g.topologicalLevels (g.topologicalSort.filter
          (fun nid => nid ∈ g.getRequiredNodes outputs)))
        0 g [] [EEvent.mk .started none] := rfl
  have hedges : (g.execute outputs force oracle cancelAt).2.1.edges = g.edges := by
    rw [hex1]
    exact execLoop_edges oracle cancelAt force _ _ _ _ _
  have hakeys : akeys (g.execute outputs force oracle cancelAt).2.1.nodes =
      akeys g.nodes := by
    rw [hex1]
    exact execLoop_akeys oracle cancelAt force _ _ _ _ _
  have hordernd : (g.topologicalSort.filter
      (fun nid => nid ∈ g.getRequiredNodes outputs)).Nodup :=
    (topologicalSort_spec g hnodup).1.filter _
  have hgroupsnodup : ∀ lvl ∈ g.topologicalLevels (g.topologicalSort.filter
      (fun nid => nid ∈ g.getRequiredNodes outputs)), lvl.Nodup :=
    fun lvl hl => nodup_of_mem_topologicalLevels g _ hordernd lvl hl
  have hskip : ∀ nid ∈ g.topologicalSort.filter
      (fun nid => nid ∈ g.getRequiredNodes outputs),
      ∃ node, alookup (g.execute outputs force oracle cancelAt).2.1.nodes nid =
        some node ∧ isSkippable false node = true := by
    intro nid hnid
    have hpres : (alookup g.nodes nid).isSome :=
      (topologicalSort_spec g hnodup).2.1 nid (List.mem_filter.mp hnid).1
    obtain ⟨lvl, hlvl, hmemlvl⟩ := mem_topologicalLevels_self g
      (g.topologicalSort.filter (fun nid => nid ∈ g.getRequiredNodes outputs)) nid hnid
    rw [hex1]
    refine execLoop_completed_skippable oracle cancelAt force _ 0 g []
      [EEvent.mk .started none] hgroupsnodup ?_ nid (Or.inr ⟨lvl, hlvl, hmemlvl, hpres⟩)
    rw [← hex1]
    exact h1
  have hrun2 : (g.execute outputs force oracle cancelAt).2.1.execute outputs false
      oracle2 cancelAt2 =
      execLoop oracle2 cancelAt2 false
        (g.topologicalLevels (g.topologicalSort.filter
          (fun nid => nid ∈ g.getRequiredNodes outputs)))
        0 (g.execute outputs force oracle cancelAt).2.1 [] [EEvent.mk .started none] := by
    show execLoop oracle2 cancelAt2 false
        ((g.execute outputs force oracle cancelAt).2.1.topologicalLevels
          ((g.execute outputs force oracle cancelAt).2.1.topologicalSort.filter
            (fun nid => nid ∈
              (g.execute outputs force oracle cancelAt).2.1.getRequiredNodes outputs)))
        0 (g.execute outputs force oracle cancelAt).2.1 [] [EEvent.mk .started none] = _
    rw [topologicalSort_congr _ g hedges hakeys, getRequiredNodes_congr _ g hedges,
      topologicalLevels_congr _ g hedges]
  have hallskip : ∀ lvl ∈ g.topologicalLevels (g.topologicalSort.filter
      (fun nid => nid ∈ g.getRequiredNodes outputs)), ∀ nid ∈ lvl,
      ∃ node, alookup (g.execute outputs force oracle cancelAt).2.1.nodes nid =
        some node ∧ isSkippable false node = true := by
    intro lvl hl nid hnid
    exact hskip nid (mem_of_mem_topologicalLevels g _ lvl hl nid hnid)
  obtain ⟨hA1, hA2, hA3, _⟩ := execLoop_allSkippable oracle2 cancelAt2 hc2
    (g.topologicalLevels (g.topologicalSort.filter
      (fun nid => nid ∈ g.getRequiredNodes outputs)))
    0 (g.execute outputs force oracle cancelAt).2.1 [] [EEvent.mk .started none] hallskip
  refine ⟨?_, ?_, ?_⟩
  · rw [hrun2]
    exact hA1
  · rw [hrun2]
    exact hA2
  · intro nid hreq hpres
    have hts : nid ∈ g.topologicalSort :=
      topologicalSort_complete g hnodup hwf hacyc nid hpres
    have hnid : nid ∈ g.topologicalSort.filter
        (fun nid => nid ∈ g.getRequiredNodes outputs) :=
      List.mem_filter.mpr ⟨hts, by simp [hreq]⟩
    obtain ⟨lvl, hlvl, hmemlvl⟩ := mem_topologicalLevels_self g
      (g.topologicalSort.filter (fun nid => nid ∈ g.getRequiredNodes outputs)) nid hnid
    rw [hrun2]
    exact hA3 lvl hlvl nid hmemlvl

/-- Witness for `claim_C3`: a completed one-node graph re-run with
`force = false` skips its node. -/
theorem claim_C3_witness :
    (gDone.execute ["a"] false demoOracle (fun _ => false)).2.2 = .completed ∧
    EEvent.mk .nodeSkipped (some "a") ∈
      ((gDone.execute ["a"] false demoOracle (fun _ => false)).2.1.execute ["a"] false
        demoOracle (fun _ => false)).1 := by
  have hnodup : gDone.NodesNodup := by unfold Graph.NodesNodup; decide
  have hwf : gDone.EdgesWF := by unfold Graph.EdgesWF; decide
  have hacyc : gDone.Acyclic := fun hcyc =>
    acyclic_of_rank gDone.edges (fun _ => 0)
      (by
        intro a b hs
        rcases hs with ⟨e, he, _⟩
        simp [gDone] at he) hcyc
  have h1 : (gDone.execute ["a"] false demoOracle (fun _ => false)).2.2 = .completed := by
    have hexd : gDone.execute ["a"] false demoOracle (fun _ => false) =
        execLoop demoOracle (fun _ => false) false
          (gDone.topologicalLevels (gDone.topologicalSort.filter
            (fun nid => nid ∈ gDone.getRequiredNodes ["a"])))
          0 gDone [] [EEvent.mk .started none] := rfl
    rw [hexd]
    refine (execLoop_allSkippable demoOracle (fun _ => false) (fun _ => rfl) _ 0 gDone []
      [EEvent.mk .started none] ?_).2.1
    intro lvl hl nid hnid
    have hmemo : nid ∈ gDone.topologicalSort.filter
        (fun nid => nid ∈ gDone.getRequiredNodes ["a"]) :=
      mem_of_mem_topologicalLevels gDone _ lvl hl nid hnid
    have hpres : (alookup gDone.nodes nid).isSome :=
      (topologicalSort_spec gDone hnodup).2.1 nid (List.mem_filter.mp hmemo).1
    have hna : nid = "a" := by
      by_cases h : "a" = nid
      · exact h.symm
      · exfalso
        have hnone : alookup gDone.nodes nid = none := by
          simp [gDone, alookup, h]
        rw [hnone] at hpres
        simp at hpres
    subst hna
    exact ⟨completedNode "a", rfl, by decide⟩
  have hmain := claim_C3 gDone ["a"] false demoOracle demoOracle (fun _ => false)
    (fun _ => false) hnodup hwf hacyc (fun _ => rfl) h1
  refine ⟨h1, ?_⟩
  apply hmain.2.2 "a" ?_ (by decide)
  apply (mem_getRequiredNodes gDone ["a"] "a").mpr
  exact ⟨"a", List.mem_singleton.mpr rfl, Relation.ReflTransGen.refl⟩

/-! ## Batch scheduler: dispatch discipline -/

theorem bTerminal_mono (t t2 : List BEvent) (d : String) (h : bTerminal t d) :
    bTerminal (t ++ t2) d := by
  rcases h with ⟨gid, hm⟩ | ⟨gid, hm⟩
  · exact Or.inl ⟨gid, List.mem_append_left _ hm⟩
  · exact Or.inr ⟨gid, List.mem_append_left _ hm⟩

theorem singleton_split {α : Type} (e x : α) (t1 t2 : List α)
    (h : [e] = t1 ++ x :: t2) : t1 = [] ∧ e = x ∧ t2 = [] := by
  cases t1 with
  | nil =>
    simp only [List.nil_append] at h
    have h1 := (List.cons.injEq _ _ _ _ ▸ h : _)
    exact ⟨rfl, h1.1, h1.2.symm⟩
  | cons y yt =>
    simp only [List.cons_append] at h
    have h1 := (List.cons.injEq _ _ _ _ ▸ h : _)
    exact absurd h1.2.symm (by simp)

theorem bDeps_extend (P : BParams) (t : List BEvent) (ev : BEvent)
    (HE : bDepsRespected P t)
    (hT : ∀ gid n, ev = BEvent.nodeStarted gid n →
      ∀ sn, sfind P.nodes n = some sn → ∀ d ∈ validDeps P.nodes sn, bTerminal t d) :
    bDepsRespected P (t ++ [ev]) := by
  intro pre gid n post hsplit sn hsn d hd
  rcases split_append t [ev] pre post (BEvent.nodeStarted gid n) hsplit with
    ⟨mid, hE0, _⟩ | ⟨t1, hT1, hpre⟩
  · exact HE pre gid n mid hE0 sn hsn d hd
  · obtain ⟨ht1, hev, _⟩ := singleton_split _ _ _ _ hT1
    subst ht1
    rw [hpre, List.append_nil]
    exact hT gid n hev sn hsn d hd

theorem bDeps_of_no_started (P : BParams) (t : List BEvent)
    (h : ∀ gid n, BEvent.nodeStarted gid n ∉ t) : bDepsRespected P t := by
  intro pre gid n post hsplit sn _ d _
  exact absurd (mem_of_middle _ _ _ _ hsplit) (h gid n)

theorem sfind_some (nodes : List SNode) (c : String) (sn : SNode)
    (h : sfind nodes c = some sn) : sn ∈ nodes ∧ sn.nodeId = c := by
  unfold sfind at h
  refine ⟨List.mem_of_find?_eq_some h, ?_⟩
  have := List.find?_some h
  simpa using this

theorem sfind_mem_nodup (nodes : List SNode) (hnd : (snodeIds nodes).Nodup)
    (sn : SNode) (h1 : sn ∈ nodes) : sfind nodes sn.nodeId = some sn := by
  induction nodes with
  | nil => simp at h1
  | cons x t ih =>
    rcases List.mem_cons.mp h1 with rfl | hmem
    · unfold sfind
      rw [List.find?_cons_of_pos _ (by simp)]
    · unfold sfind
      have hne : ¬ x.nodeId = sn.nodeId := by
        intro he
        have hk : sn.nodeId ∈ snodeIds t := by
          unfold snodeIds
          exact List.mem_map_of_mem _ hmem
        unfold snodeIds at hnd
        simp only [List.map_cons, List.nodup_cons] at hnd
        rw [he] at hnd
        exact hnd.1 hk
      rw [List.find?_cons_of_neg _ (by simp [hne])]
      exact ih (by
        unfold snodeIds at hnd ⊢
        simp only [List.map_cons, List.nodup_cons] at hnd
        exact hnd.2) hmem

theorem mem_childrenOf (P : BParams) (hnd : (snodeIds P.nodes).Nodup)
    (c : String) (sn : SNode) (hsn : sfind P.nodes c = some sn) (pid : String) :
    c ∈ childrenOf P.nodes pid ↔ pid ∈ validDeps P.nodes sn := by
  unfold childrenOf
  rw [List.mem_toFinset]
  constructor
  · intro h
    rcases List.mem_map.mp h with ⟨sn2, hf, hid⟩
    rcases List.mem_filter.mp hf with ⟨hmem, hcond⟩
    have hfind : sfind P.nodes sn2.nodeId = some sn2 := sfind_mem_nodup _ hnd sn2 hmem
    rw [hid, hsn] at hfind
    have hsn2 : sn2 = sn := by
      injection hfind with hv
      exact hv.symm
    rw [← hsn2]
    simpa using hcond
  · intro h
    obtain ⟨hmem, hid⟩ := sfind_some _ _ _ hsn
    apply List.mem_map.mpr
    exact ⟨sn, List.mem_filter.mpr ⟨hmem, by simp [h]⟩, hid⟩

theorem mem_skipSet (P : BParams) (hnd : (snodeIds P.nodes).Nodup) (d : String) :
    d ∈ skipSet P ↔
      ∃ sn, sfind P.nodes d = some sn ∧ isSkippable P.force sn.node = true := by
  unfold skipSet
  rw [List.mem_toFinset]
  constructor
  · intro h
    rcases List.mem_map.mp h with ⟨sn, hf, hid⟩
    rcases List.mem_filter.mp hf with ⟨hmem, hcond⟩
    refine ⟨sn, ?_, by simpa using hcond⟩
    rw [← hid]
    exact sfind_mem_nodup _ hnd sn hmem
  · rintro ⟨sn, hsn, hsk⟩
    obtain ⟨hmem, hid⟩ := sfind_some _ _ _ hsn
    apply List.mem_map.mpr
    exact ⟨sn, List.mem_filter.mpr ⟨hmem, by simp [hsk]⟩, hid⟩

theorem mem_readySet (P : BParams) (hnd : (snodeIds P.nodes).Nodup) (s : BState)
    (n : String) (h : n ∈ readySet P s) :
    ∃ sn, sfind P.nodes n = some sn ∧ s.pending n ≤ 0 ∧ n ∉ s.launched ∧
      sn.graphId ∉ s.failedGraphs := by
  unfold readySet at h
  rw [List.mem_toFinset] at h
  rcases List.mem_map.mp h with ⟨sn, hf, hid⟩
  rcases List.mem_filter.mp hf with ⟨hmem, hcond⟩
  have hcond2 : s.pending sn.nodeId ≤ 0 ∧ sn.nodeId ∉ s.launched ∧
      sn.graphId ∉ s.failedGraphs := by simpa using hcond
  refine ⟨sn, ?_, ?_, ?_, hcond2.2.2⟩
  · rw [← hid]
    exact sfind_mem_nodup _ hnd sn hmem
  · rw [← hid]
    exact hcond2.1
  · rw [← hid]
    exact hcond2.2.1

theorem deps_covered (vd cover : Finset String)
    (hcard : (vd.card : Int) - ((vd ∩ cover).card : Int) ≤ 0) : vd ⊆ cover := by
  have hsub : vd ∩ cover ⊆ vd := Finset.inter_subset_left
  have hcard2 : vd.card ≤ (vd ∩ cover).card := by omega
  have heq : vd ∩ cover = vd := Finset.eq_of_subset_of_card_le hsub hcard2
  intro d hd
  have : d ∈ vd ∩ cover := by rw [heq]; exact hd
  exact (Finset.mem_inter.mp this).2

theorem prepass_go (P : BParams) (hnd : (snodeIds P.nodes).Nodup) :
    ∀ (l : List SNode) (s : BState) (S : Finset String),
      (∀ sn ∈ l, sn.nodeId ∉ S) →
      ((l.map (fun sn => sn.nodeId)).Nodup) →
      (∀ c sn, sfind P.nodes c = some sn →
        s.pending c = ((validDeps P.nodes sn).card : Int) -
          (((validDeps P.nodes sn) ∩ S).card : Int)) →
      (∀ d ∈ S, bTerminal s.trace d) →
      ((∀ c sn, sfind P.nodes c = some sn →
        (l.foldl (fun s sn =>
          if isSkippable P.force sn.node then applySkip P s sn else s) s).pending c =
          ((validDeps P.nodes sn).card : Int) -
          (((validDeps P.nodes sn) ∩ (S ∪
            ((l.filter (fun sn => isSkippable P.force sn.node)).map
              (fun sn => sn.nodeId)).toFinset)).card : Int)) ∧
       (∀ d ∈ S ∪ ((l.filter (fun sn => isSkippable P.force sn.node)).map
            (fun sn => sn.nodeId)).toFinset,
         bTerminal (l.foldl (fun s sn =>
           if isSkippable P.force sn.node then applySkip P s sn else s) s).trace d) ∧
       (∀ ev ∈ (l.foldl (fun s sn =>
           if isSkippable P.force sn.node then applySkip P s sn else s) s).trace,
         ev ∈ s.trace ∨ ∃ gid nid, ev = BEvent.nodeSkipped gid nid) ∧
       (∀ ev ∈ s.trace, ev ∈ (l.foldl (fun s sn =>
           if isSkippable P.force sn.node then applySkip P s sn else s) s).trace) ∧
       ((l.foldl (fun s sn =>
           if isSkippable P.force sn.node then applySkip P s sn else s) s).wphase =
         s.wphase) ∧
       ((l.foldl (fun s sn =>
           if isSkippable P.force sn.node then applySkip P s sn else s) s).promoted =
         s.promoted) ∧
       ((l.foldl (fun s sn =>
           if isSkippable P.force sn.node then applySkip P s sn else s) s).launched =
         s.launched ∪ ((l.filter (fun sn => isSkippable P.force sn.node)).map
           (fun sn => sn.nodeId)).toFinset)) := by
  intro l
  induction l with
  | nil =>
    intro s S _ _ hpend hterm
    refine ⟨?_, ?_, ?_, ?_, rfl, rfl, ?_⟩
    · intro c sn hsn
      simpa using hpend c sn hsn
    · intro d hd
      simp only [List.filter_nil, List.map_nil, List.toFinset_nil,
        Finset.union_empty] at hd
      exact hterm d hd
    · intro ev hev
      exact Or.inl hev
    · intro ev hev
      exact hev
    · simp
  | cons sn l' ih =>
    intro s S hfresh hlnd hpend hterm
    simp only [List.foldl_cons]
    by_cases hsk : isSkippable P.force sn.node
    · rw [if_pos hsk]
      have hnS : sn.nodeId ∉ S := hfresh sn (List.mem_cons_self _ _)
      have hfresh' : ∀ x ∈ l', x.nodeId ∉ insert sn.nodeId S := by
        intro x hx hmem
        rcases Finset.mem_insert.mp hmem with he | he
        · have : sn.nodeId ∈ l'.map (fun sn => sn.nodeId) := by
            rw [← he]
            exact List.mem_map_of_mem _ hx
          simp only [List.map_cons, List.nodup_cons] at hlnd
          exact hlnd.1 this
        · exact hfresh x (List.mem_cons_of_mem _ hx) he
      have hlnd' : (l'.map (fun sn => sn.nodeId)).Nodup := by
        simp only [List.map_cons, List.nodup_cons] at hlnd
        exact hlnd.2
      have hpend' : ∀ c snc, sfind P.nodes c = some snc →
          (applySkip P s sn).pending c =
            ((validDeps P.nodes snc).card : Int) -
            (((validDeps P.nodes snc) ∩ (insert sn.nodeId S)).card : Int) := by
        intro c snc hsnc
        have hold := hpend c snc hsnc
        show decPendingMany s.pending (childrenOf P.nodes sn.nodeId) c = _
        unfold decPendingMany
        by_cases hch : c ∈ childrenOf P.nodes sn.nodeId
        · have hvd : sn.nodeId ∈ validDeps P.nodes snc :=
            (mem_childrenOf P hnd c snc hsnc sn.nodeId).mp hch
          rw [if_pos hch]
          have hint : validDeps P.nodes snc ∩ insert sn.nodeId S =
              insert sn.nodeId (validDeps P.nodes snc ∩ S) := by
            rw [Finset.inter_comm, Finset.insert_inter_of_mem hvd, Finset.inter_comm]
          rw [hint, Finset.card_insert_of_not_mem
            (fun hm => hnS (Finset.mem_inter.mp hm).2)]
          push_cast
          omega
        · have hvd : sn.nodeId ∉ validDeps P.nodes snc :=
            fun hm => hch ((mem_childrenOf P hnd c snc hsnc sn.nodeId).mpr hm)
          rw [if_neg hch]
          have hint : validDeps P.nodes snc ∩ insert sn.nodeId S =
              validDeps P.nodes snc ∩ S := by
            rw [Finset.inter_comm, Finset.insert_inter_of_not_mem hvd, Finset.inter_comm]
          rw [hint]
          exact hold
      have hterm' : ∀ d ∈ insert sn.nodeId S, bTerminal (applySkip P s sn).trace d := by
        intro d hd
        rcases Finset.mem_insert.mp hd with rfl | hd2
        · exact Or.inr ⟨sn.graphId, List.mem_append_right _ (List.mem_singleton.mpr rfl)⟩
        · exact bTerminal_mono _ _ _ (hterm d hd2)
      obtain ⟨c1, c2, c3, c4, c5, c6, c7⟩ := ih (applySkip P s sn) (insert sn.nodeId S)
        hfresh' hlnd' hpend' hterm'
      have hcov : insert sn.nodeId S ∪
          ((l'.filter (fun sn => isSkippable P.force sn.node)).map
            (fun sn => sn.nodeId)).toFinset =
          S ∪ (((sn :: l').filter (fun sn => isSkippable P.force sn.node)).map
            (fun sn => sn.nodeId)).toFinset := by
        rw [show (sn :: l').filter (fun sn => isSkippable P.force sn.node) =
            sn :: l'.filter (fun sn => isSkippable P.force sn.node) from by
          simp [hsk]]
        ext x
        simp only [Finset.mem_union, Finset.mem_insert, List.toFinset_cons,
          List.map_cons, List.mem_toFinset, List.mem_cons]
        constructor
        · rintro ((rfl | hx) | hx)
          · exact Or.inr (Or.inl rfl)
          · exact Or.inl hx
          · exact Or.inr (Or.inr (by simpa using hx))
        · rintro (hx | (rfl | hx))
          · exact Or.inl (Or.inr hx)
          · exact Or.inl (Or.inl rfl)
          · exact Or.inr (by simpa using hx)
      refine ⟨?_, ?_, ?_, ?_, c5, c6, ?_⟩
      · intro c snc hsnc
        rw [← hcov]
        exact c1 c snc hsnc
      · intro d hd
        rw [← hcov] at hd
        exact c2 d hd
      · intro ev hev
        rcases c3 ev hev with hin | hsk2
        · rcases List.mem_append.mp hin with hin2 | hin2
          · exact Or.inl hin2
          · simp only [List.mem_singleton] at hin2
            exact Or.inr ⟨sn.graphId, sn.nodeId, hin2⟩
        · exact Or.inr hsk2
      · intro ev hev
        exact c4 ev (List.mem_append_left _ hev)
      · rw [c7]
        show insert sn.nodeId s.launched ∪ _ = _
        rw [show (sn :: l').filter (fun sn => isSkippable P.force sn.node) =
            sn :: l'.filter (fun sn => isSkippable P.force sn.node) from by
          simp [hsk]]
        ext x
        simp only [Finset.mem_union, Finset.mem_insert, List.toFinset_cons,
          List.map_cons, List.mem_toFinset]
        tauto
    · rw [if_neg hsk]
      have hfresh' : ∀ x ∈ l', x.nodeId ∉ S :=
        fun x hx => hfresh x (List.mem_cons_of_mem _ hx)
      have hlnd' : (l'.map (fun sn => sn.nodeId)).Nodup := by
        simp only [List.map_cons, List.nodup_cons] at hlnd
        exact hlnd.2
      obtain ⟨c1, c2, c3, c4, c5, c6, c7⟩ := ih s S hfresh' hlnd' hpend hterm
      rw [show (sn :: l').filter (fun sn => isSkippable P.force sn.node) =
          l'.filter (fun sn => isSkippable P.force sn.node) from by
        simp [hsk]]
      exact ⟨c1, c2, c3, c4, c5, c6, c7⟩

theorem bDeps_append_no_started (P : BParams) (t T : List BEvent)
    (HE : bDepsRespected P t) (hT : ∀ gid n, BEvent.nodeStarted gid n ∉ T) :
    bDepsRespected P (t ++ T) := by
  intro pre gid n post hsplit sn hsn d hd
  rcases split_append t T pre post (BEvent.nodeStarted gid n) hsplit with
    ⟨mid, hE0, _⟩ | ⟨t1, hT1, _⟩
  · exact HE pre gid n mid hE0 sn hsn d hd
  · exact absurd (mem_of_middle _ _ _ _ hT1) (hT gid n)

theorem BInv_extend_trace (P : BParams) (s s2 : BState)
    (htr : ∃ T, s2.trace = s.trace ++ T ∧ ∀ gid n, BEvent.nodeStarted gid n ∉ T)
    (hw : s2.wphase = s.wphase) (hp : s2.pending = s.pending)
    (hpr : s2.promoted = s.promoted) (hl : s2.launched = s.launched)
    (hinv : BInv P s) : BInv P s2 := by
  obtain ⟨T, htr2, hno⟩ := htr
  obtain ⟨a1, a2, a3, a4, a5, a6, a7, a8, a9, a10, a11⟩ := hinv
  rw [BInv, htr2, hw, hp, hpr, hl]
  refine ⟨bDeps_append_no_started P _ T a1 hno, a2, ?_, ?_, ?_, ?_, a7, a8, a9, a10, a11⟩
  · intro d hd
    exact bTerminal_mono _ _ _ (a3 d hd)
  · intro d hd
    exact bTerminal_mono _ _ _ (a4 d hd)
  · intro n hn
    obtain ⟨sn, hsn, hdeps⟩ := a5 n hn
    exact ⟨sn, hsn, fun d hd => bTerminal_mono _ _ _ (hdeps d hd)⟩
  · intro n hn
    obtain ⟨gid, hg⟩ := a6 n hn
    exact ⟨gid, List.mem_append_left _ hg⟩

theorem earlyComplete_facts (P : BParams) (s : BState) :
    (∃ T, (earlyComplete P s).trace = s.trace ++ T ∧
      ∀ gid n, BEvent.nodeStarted gid n ∉ T) ∧
    (earlyComplete P s).wphase = s.wphase ∧
    (earlyComplete P s).pending = s.pending ∧
    (earlyComplete P s).promoted = s.promoted ∧
    (earlyComplete P s).launched = s.launched := by
  have hfold : ∀ (l : List String) (acc : BState),
      (∃ T, (l.foldl (fun acc gid =>
          if acc.graphDone gid ≥ graphTotalOf P.nodes gid then
            { acc with
              outcomes := setOutcome acc.outcomes gid GraphOutcome.completed
              trace := acc.trace ++ [BEvent.graphCompleted gid] }
          else acc) acc).trace = acc.trace ++ T ∧
        ∀ gid n, BEvent.nodeStarted gid n ∉ T) ∧
      (l.foldl (fun acc gid =>
          if acc.graphDone gid ≥ graphTotalOf P.nodes gid then
            { acc with
              outcomes := setOutcome acc.outcomes gid GraphOutcome.completed
              trace := acc.trace ++ [BEvent.graphCompleted gid] }
          else acc) acc).wphase = acc.wphase ∧
      (l.foldl (fun acc gid =>
          if acc.graphDone gid ≥ graphTotalOf P.nodes gid then
            { acc with
              outcomes := setOutcome acc.outcomes gid GraphOutcome.completed
              trace := acc.trace ++ [BEvent.graphCompleted gid] }
          else acc) acc).pending = acc.pending ∧
      (l.foldl (fun acc gid =>
          if acc.graphDone gid ≥ graphTotalOf P.nodes gid then
            { acc with
              outcomes := setOutcome acc.outcomes gid GraphOutcome.completed
              trace := acc.trace ++ [BEvent.graphCompleted gid] }
          else acc) acc).promoted = acc.promoted ∧
      (l.foldl (fun acc gid =>
          if acc.graphDone gid ≥ graphTotalOf P.nodes gid then
            { acc with
              outcomes := setOutcome acc.outcomes gid GraphOutcome.completed
              trace := acc.trace ++ [BEvent.graphCompleted gid] }
          else acc) acc).launched = acc.launched := by
    intro l
    induction l with
    | nil =>
      intro acc
      exact ⟨⟨[], by simp, by intro gid n h; simp at h⟩, rfl, rfl, rfl, rfl⟩
    | cons g rest ih =>
      intro acc
      simp only [List.foldl_cons]
      by_cases hc : acc.graphDone g ≥ graphTotalOf P.nodes g
      · rw [if_pos hc]
        obtain ⟨⟨T, hT1, hT2⟩, h2, h3, h4, h5⟩ := ih
          { acc with
            outcomes := setOutcome acc.outcomes g GraphOutcome.completed
            trace := acc.trace ++ [BEvent.graphCompleted g] }
        refine ⟨⟨BEvent.graphCompleted g :: T, ?_, ?_⟩, h2, h3, h4, h5⟩
        · rw [hT1]
          simp
        · intro gid n h
          rcases List.mem_cons.mp h with he | he
          · simp at he
          · exact hT2 gid n he
      · rw [if_neg hc]
        exact ih acc
  obtain ⟨⟨T, hT1, hT2⟩, h2, h3, h4, h5⟩ := hfold P.graphIds s
  unfold earlyComplete
  refine ⟨⟨T ++ [BEvent.batchCompleted (P.graphIds.map (fun gid =>
      (gid, ((P.graphIds.foldl (fun acc gid =>
        if acc.graphDone gid ≥ graphTotalOf P.nodes gid then
          { acc with
            outcomes := setOutcome acc.outcomes gid GraphOutcome.completed
            trace := acc.trace ++ [BEvent.graphCompleted gid] }
        else acc) s).outcomes gid).getD GraphOutcome.completed)))], ?_, ?_⟩,
    h2, h3, h4, h5⟩
  · show (P.graphIds.foldl _ s).trace ++ [_] = _
    rw [hT1]
    simp
  · intro gid n h
    rcases List.mem_append.mp h with he | he
    · exact hT2 gid n he
    · simp at he

theorem BInv_init (P : BParams) (hnd : (snodeIds P.nodes).Nodup) :
    BInv P (initBatch P) := by
  by_cases hn : P.nodes = []
  · have hinit : initBatch P = { batchStart P with
        terminalDone := true
        sentinel := true
        trace := (batchStart P).trace ++ [BEvent.batchCompleted []] } := by
      simp [initBatch, hn]
    rw [hinit]
    refine ⟨?_, ?_, ?_, ?_, ?_, ?_, ?_, ?_, ?_, ?_, ?_⟩
    · apply bDeps_of_no_started
      intro gid n hmem
      simp [batchStart] at hmem
    · intro c sn hsn
      rw [hn] at hsn
      simp [sfind] at hsn
    · intro d hd
      unfold skipSet at hd
      rw [hn] at hd
      simp at hd
    · intro d hd
      simp [batchStart] at hd
    · intro n h
      simp [batchStart] at h
    · intro n h
      rcases h with h | h <;> simp [batchStart] at h
    · intro n h
      simp [batchStart] at h
    · intro x hx
      simp [batchStart] at hx
    · intro n h
      simp [batchStart] at h
    · intro d hd
      unfold skipSet at hd
      rw [hn] at hd
      simp at hd
    · intro d hd
      unfold skipSet at hd
      rw [hn] at hd
      simp at hd
  · obtain ⟨p1, p2, p3, p4, p5, p6, p7⟩ := prepass_go P hnd P.nodes (batchStart P) ∅
      (by intro sn _ h; exact absurd h (Finset.not_mem_empty _))
      hnd
      (by
        intro c sn hsn
        show (match sfind P.nodes c with
          | some sn => ((validDeps P.nodes sn).card : Int)
          | none => 0) = _
        rw [hsn]
        simp)
      (by intro d hd; exact absurd hd (Finset.not_mem_empty _))
    have hP : P.nodes.foldl (fun s sn =>
        if isSkippable P.force sn.node then applySkip P s sn else s) (batchStart P) =
        prepass P := rfl
    have hSd : ((P.nodes.filter (fun sn => isSkippable P.force sn.node)).map
        (fun sn => sn.nodeId)).toFinset = skipSet P := rfl
    rw [hP] at p1 p2 p3 p4 p5 p6 p7
    rw [hSd] at p1 p2 p7
    rw [Finset.empty_union] at p1 p2
    have hbw : (batchStart P).wphase = fun _ => none := rfl
    have hbp : (batchStart P).promoted = ∅ := rfl
    have hbl : (batchStart P).launched = ∅ := rfl
    have hbt : (batchStart P).trace = [BEvent.batchStarted P.graphIds P.nodes.length] :=
      rfl
    rw [hbw] at p5
    rw [hbp] at p6
    rw [hbl, Finset.empty_union] at p7
    have p1' : ∀ c sn, sfind P.nodes c = some sn →
        (prepass P).pending c = ((validDeps P.nodes sn).card : Int) -
          (((validDeps P.nodes sn) ∩ (skipSet P ∪ (prepass P).promoted)).card : Int) := by
      intro c sn hsn
      rw [p6, Finset.union_empty]
      exact p1 c sn hsn
    have hnost : ∀ gid n, BEvent.nodeStarted gid n ∉ (prepass P).trace := by
      intro gid n hmem
      rcases p3 _ hmem with hin | ⟨g2, n2, hev⟩
      · rw [hbt] at hin
        simp at hin
      · simp at hev
    have hs2inv : BInv P { prepass P with
        launched := (prepass P).launched ∪ readySet P (prepass P)
        wphase := spawnPhases (prepass P).wphase (readySet P (prepass P)) } := by
      refine ⟨?_, ?_, ?_, ?_, ?_, ?_, ?_, ?_, ?_, ?_, ?_⟩
      · exact bDeps_of_no_started P _ hnost
      · exact p1'
      · exact p2
      · intro d hd
        rw [p6] at hd
        simp at hd
      · intro n hph
        have hph2 : spawnPhases (prepass P).wphase (readySet P (prepass P)) n =
            some WPhase.ready := hph
        by_cases hm : n ∈ readySet P (prepass P)
        · obtain ⟨sn, hsn, hpend, _, _⟩ := mem_readySet P hnd (prepass P) n hm
          refine ⟨sn, hsn, ?_⟩
          intro d hd
          have hchar := p1 n sn hsn
          have hsub : validDeps P.nodes sn ⊆ skipSet P :=
            deps_covered _ _ (by omega)
          exact p2 d (hsub hd)
        · unfold spawnPhases at hph2
          rw [if_neg hm, p5] at hph2
          simp at hph2
      · intro n h
        rcases h with h | h <;>
        · have h2 : spawnPhases (prepass P).wphase (readySet P (prepass P)) n = _ := h
          unfold spawnPhases at h2
          by_cases hm : n ∈ readySet P (prepass P)
          · rw [if_pos hm] at h2
            simp at h2
          · rw [if_neg hm, p5] at h2
            simp at h2
      · intro n h
        rw [p6] at h
        simp at h
      · intro x hx
        rw [p6] at hx
        simp at hx
      · intro n h
        have h2 : spawnPhases (prepass P).wphase (readySet P (prepass P)) n ≠ none := h
        by_cases hm : n ∈ readySet P (prepass P)
        · exact Finset.mem_union_right _ hm
        · unfold spawnPhases at h2
          rw [if_neg hm, p5] at h2
          simp at h2
      · intro d hd
        rw [p7]
        exact Finset.mem_union_left _ hd
      · intro d hd
        show spawnPhases (prepass P).wphase (readySet P (prepass P)) d = none
        by_cases hm : d ∈ readySet P (prepass P)
        · exfalso
          obtain ⟨_, _, _, hnl, _⟩ := mem_readySet P hnd (prepass P) d hm
          rw [p7] at hnl
          exact hnl hd
        · unfold spawnPhases
          rw [if_neg hm, p5]
    by_cases hr : (prepass P).remaining = 0
    · have hinit : initBatch P = earlyComplete P { prepass P with
          launched := (prepass P).launched ∪ readySet P (prepass P)
          wphase := spawnPhases (prepass P).wphase (readySet P (prepass P)) } := by
        simp [initBatch, hn, hr]
      rw [hinit]
      obtain ⟨ht, hw2, hp2, hpr2, hl2⟩ := earlyComplete_facts P _
      exact BInv_extend_trace P _ _ ht hw2 hp2 hpr2 hl2 hs2inv
    · have hinit : initBatch P = { prepass P with
          launched := (prepass P).launched ∪ readySet P (prepass P)
          wphase := spawnPhases (prepass P).wphase (readySet P (prepass P)) } := by
        simp [initBatch, hn, hr]
      rw [hinit]
      exact hs2inv

theorem card_inter_insert_mem (vd X : Finset String) (a : String)
    (ha : a ∈ vd) (hx : a ∉ X) :
    (vd ∩ insert a X).card = (vd ∩ X).card + 1 := by
  rw [Finset.inter_comm vd (insert a X), Finset.insert_inter_of_mem ha,
    Finset.inter_comm X vd]
  exact Finset.card_insert_of_not_mem (fun hmem => hx (Finset.mem_inter.mp hmem).2)

theorem inter_insert_not_mem (vd X : Finset String) (a : String)
    (ha : a ∉ vd) : vd ∩ insert a X = vd ∩ X := by
  ext x
  simp only [Finset.mem_inter, Finset.mem_insert]
  constructor
  · rintro ⟨hx, rfl | hxX⟩
    · exact absurd hx ha
    · exact ⟨hx, hxX⟩
  · rintro ⟨hx, hxX⟩
    exact ⟨hx, Or.inr hxX⟩

theorem BInv_step (P : BParams) (hnd : (snodeIds P.nodes).Nodup)
    (s s2 : BState) (hinv : BInv P s) (hstep : BStep P s s2) : BInv P s2 := by
  obtain ⟨hA, hB, hC, hD, hE, hF, hG, hH, hI, hJ, hK⟩ := hinv
  cases hstep with
  | cancel hs =>
    exact ⟨hA, hB, hC, hD, hE, hF, hG, hH, hI, hJ, hK⟩
  | beginGuarded sn hfind hph hguard =>
    refine ⟨hA, hB, hC, hD, ?_, ?_, ?_, hH, ?_, hJ, ?_⟩
    · intro n h
      have h2 : setPhase s.wphase sn.nodeId (some WPhase.finishing) n =
          some WPhase.ready := h
      simp only [setPhase] at h2
      by_cases hx : n = sn.nodeId
      · rw [if_pos hx] at h2
        simp at h2
      · rw [if_neg hx] at h2
        exact hE n h2
    · intro n h
      have h2 : setPhase s.wphase sn.nodeId (some WPhase.finishing) n =
          some WPhase.checkGraph ∨
          setPhase s.wphase sn.nodeId (some WPhase.finishing) n =
          some WPhase.promoting := h
      simp only [setPhase] at h2
      by_cases hx : n = sn.nodeId
      · rw [if_pos hx] at h2
        rcases h2 with h2 | h2 <;> simp at h2
      · rw [if_neg hx] at h2
        exact hF n h2
    · intro n hn
      show setPhase s.wphase sn.nodeId (some WPhase.finishing) n =
        some WPhase.finishing ∨
        setPhase s.wphase sn.nodeId (some WPhase.finishing) n = none
      simp only [setPhase]
      by_cases hx : n = sn.nodeId
      · rw [if_pos hx]
        left
        rfl
      · rw [if_neg hx]
        exact hG n hn
    · intro n h
      have h2 : setPhase s.wphase sn.nodeId (some WPhase.finishing) n ≠ none := h
      show n ∈ s.launched
      by_cases hx : n = sn.nodeId
      · rw [hx]
        exact hI sn.nodeId (by rw [hph]; simp)
      · simp only [setPhase] at h2
        rw [if_neg hx] at h2
        exact hI n h2
    · intro n hn
      have hx : n ≠ sn.nodeId := by
        intro he
        have h' := hK n hn
        rw [he, hph] at h'
        simp at h'
      show setPhase s.wphase sn.nodeId (some WPhase.finishing) n = none
      simp only [setPhase]
      rw [if_neg hx]
      exact hK n hn
  | beginRun sn hfind hph hguard =>
    refine ⟨?_, hB, ?_, ?_, ?_, ?_, ?_, hH, ?_, hJ, ?_⟩
    · refine bDeps_extend P s.trace _ hA ?_
      intro gid n hev sn' hsn' d hd
      injection hev with hg hn
      subst hn
      rw [hfind] at hsn'
      injection hsn' with hv
      subst hv
      obtain ⟨sn'', hsn'', hdeps⟩ := hE sn.nodeId hph
      rw [hfind] at hsn''
      injection hsn'' with hv2
      rw [← hv2] at hdeps
      exact hdeps d hd
    · intro d hd
      exact bTerminal_mono _ _ _ (hC d hd)
    · intro d hd
      exact bTerminal_mono _ _ _ (hD d hd)
    · intro n h
      have h2 : setPhase s.wphase sn.nodeId (some WPhase.executing) n =
          some WPhase.ready := h
      simp only [setPhase] at h2
      by_cases hx : n = sn.nodeId
      · rw [if_pos hx] at h2
        simp at h2
      · rw [if_neg hx] at h2
        obtain ⟨sn', hsn', hdeps⟩ := hE n h2
        exact ⟨sn', hsn', fun d hd => bTerminal_mono _ _ _ (hdeps d hd)⟩
    · intro n h
      have h2 : setPhase s.wphase sn.nodeId (some WPhase.executing) n =
          some WPhase.checkGraph ∨
          setPhase s.wphase sn.nodeId (some WPhase.executing) n =
          some WPhase.promoting := h
      simp only [setPhase] at h2
      by_cases hx : n = sn.nodeId
      · rw [if_pos hx] at h2
        rcases h2 with h2 | h2 <;> simp at h2
      · rw [if_neg hx] at h2
        obtain ⟨gid, hg⟩ := hF n h2
        exact ⟨gid, List.mem_append_left _ hg⟩
    · intro n hn
      have hx : n ≠ sn.nodeId := by
        intro he
        rcases hG n hn with h' | h' <;> rw [he, hph] at h' <;> simp at h'
      show setPhase s.wphase sn.nodeId (some WPhase.executing) n =
        some WPhase.finishing ∨
        setPhase s.wphase sn.nodeId (some WPhase.executing) n = none
      simp only [setPhase]
      rw [if_neg hx]
      exact hG n hn
    · intro n h
      have h2 : setPhase s.wphase sn.nodeId (some WPhase.executing) n ≠ none := h
      show n ∈ s.launched
      by_cases hx : n = sn.nodeId
      · rw [hx]
        exact hI sn.nodeId (by rw [hph]; simp)
      · simp only [setPhase] at h2
        rw [if_neg hx] at h2
        exact hI n h2
    · intro n hn
      have hx : n ≠ sn.nodeId := by
        intro he
        have h' := hK n hn
        rw [he, hph] at h'
        simp at h'
      show setPhase s.wphase sn.nodeId (some WPhase.executing) n = none
      simp only [setPhase]
      rw [if_neg hx]
      exact hK n hn
  | succeed sn r hfind hph horacle =>
    refine ⟨?_, hB, ?_, ?_, ?_, ?_, ?_, hH, ?_, hJ, ?_⟩
    · refine bDeps_append_no_started P s.trace _ hA ?_
      intro gid n hmem
      simp at hmem
    · intro d hd
      exact bTerminal_mono _ _ _ (hC d hd)
    · intro d hd
      exact bTerminal_mono _ _ _ (hD d hd)
    · intro n h
      have h2 : setPhase s.wphase sn.nodeId (some WPhase.checkGraph) n =
          some WPhase.ready := h
      simp only [setPhase] at h2
      by_cases hx : n = sn.nodeId
      · rw [if_pos hx] at h2
        simp at h2
      · rw [if_neg hx] at h2
        obtain ⟨sn', hsn', hdeps⟩ := hE n h2
        exact ⟨sn', hsn', fun d hd => bTerminal_mono _ _ _ (hdeps d hd)⟩
    · intro n h
      by_cases hx : n = sn.nodeId
      · exact ⟨sn.graphId, by rw [hx]; simp⟩
      · have h2 : setPhase s.wphase sn.nodeId (some WPhase.checkGraph) n =
            some WPhase.checkGraph ∨
            setPhase s.wphase sn.nodeId (some WPhase.checkGraph) n =
            some WPhase.promoting := h
        simp only [setPhase] at h2
        rw [if_neg hx] at h2
        obtain ⟨gid, hg⟩ := hF n h2
        exact ⟨gid, List.mem_append_left _ hg⟩
    · intro n hn
      have hx : n ≠ sn.nodeId := by
        intro he
        rcases hG n hn with h' | h' <;> rw [he, hph] at h' <;> simp at h'
      show setPhase s.wphase sn.nodeId (some WPhase.checkGraph) n =
        some WPhase.finishing ∨
        setPhase s.wphase sn.nodeId (some WPhase.checkGraph) n = none
      simp only [setPhase]
      rw [if_neg hx]
      exact hG n hn
    · intro n h
      have h2 : setPhase s.wphase sn.nodeId (some WPhase.checkGraph) n ≠ none := h
      show n ∈ s.launched
      by_cases hx : n = sn.nodeId
      · rw [hx]
        exact hI sn.nodeId (by rw [hph]; simp)
      · simp only [setPhase] at h2
        rw [if_neg hx] at h2
        exact hI n h2
    · intro n hn
      have hx : n ≠ sn.nodeId := by
        intro he
        have h' := hK n hn
        rw [he, hph] at h'
        simp at h'
      show setPhase s.wphase sn.nodeId (some WPhase.checkGraph) n = none
      simp only [setPhase]
      rw [if_neg hx]
      exact hK n hn
  | checkGraphDone sn hfind hph hge =>
    refine ⟨?_, hB, ?_, ?_, ?_, ?_, ?_, hH, ?_, hJ, ?_⟩
    · refine bDeps_append_no_started P s.trace _ hA ?_
      intro gid n hmem
      simp at hmem
    · intro d hd
      exact bTerminal_mono _ _ _ (hC d hd)
    · intro d hd
      exact bTerminal_mono _ _ _ (hD d hd)
    · intro n h
      have h2 : setPhase s.wphase sn.nodeId (some WPhase.promoting) n =
          some WPhase.ready := h
      simp only [setPhase] at h2
      by_cases hx : n = sn.nodeId
      · rw [if_pos hx] at h2
        simp at h2
      · rw [if_neg hx] at h2
        obtain ⟨sn', hsn', hdeps⟩ := hE n h2
        exact ⟨sn', hsn', fun d hd => bTerminal_mono _ _ _ (hdeps d hd)⟩
    · intro n h
      by_cases hx : n = sn.nodeId
      · obtain ⟨gid, hg⟩ := hF sn.nodeId (Or.inl hph)
        exact ⟨gid, by rw [hx]; exact List.mem_append_left _ hg⟩
      · have h2 : setPhase s.wphase sn.nodeId (some WPhase.promoting) n =
            some WPhase.checkGraph ∨
            setPhase s.wphase sn.nodeId (some WPhase.promoting) n =
            some WPhase.promoting := h
        simp only [setPhase] at h2
        rw [if_neg hx] at h2
        obtain ⟨gid, hg⟩ := hF n h2
        exact ⟨gid, List.mem_append_left _ hg⟩
    · intro n hn
      have hx : n ≠ sn.nodeId := by
        intro he
        rcases hG n hn with h' | h' <;> rw [he, hph] at h' <;> simp at h'
      show setPhase s.wphase sn.nodeId (some WPhase.promoting) n =
        some WPhase.finishing ∨
        setPhase s.wphase sn.nodeId (some WPhase.promoting) n = none
      simp only [setPhase]
      rw [if_neg hx]
      exact hG n hn
    · intro n h
      have h2 : setPhase s.wphase sn.nodeId (some WPhase.promoting) n ≠ none := h
      show n ∈ s.launched
      by_cases hx : n = sn.nodeId
      · rw [hx]
        exact hI sn.nodeId (by rw [hph]; simp)
      · simp only [setPhase] at h2
        rw [if_neg hx] at h2
        exact hI n h2
    · intro n hn
      have hx : n ≠ sn.nodeId := by
        intro he
        have h' := hK n hn
        rw [he, hph] at h'
        simp at h'
      show setPhase s.wphase sn.nodeId (some WPhase.promoting) n = none
      simp only [setPhase]
      rw [if_neg hx]
      exact hK n hn
  | checkGraphPendingStep sn hfind hph hlt =>
    refine ⟨hA, hB, hC, hD, ?_, ?_, ?_, hH, ?_, hJ, ?_⟩
    · intro n h
      have h2 : setPhase s.wphase sn.nodeId (some WPhase.promoting) n =
          some WPhase.ready := h
      simp only [setPhase] at h2
      by_cases hx : n = sn.nodeId
      · rw [if_pos hx] at h2
        simp at h2
      · rw [if_neg hx] at h2
        exact hE n h2
    · intro n h
      by_cases hx : n = sn.nodeId
      · obtain ⟨gid, hg⟩ := hF sn.nodeId (Or.inl hph)
        exact ⟨gid, by rw [hx]; exact hg⟩
      · have h2 : setPhase s.wphase sn.nodeId (some WPhase.promoting) n =
            some WPhase.checkGraph ∨
            setPhase s.wphase sn.nodeId (some WPhase.promoting) n =
            some WPhase.promoting := h
        simp only [setPhase] at h2
        rw [if_neg hx] at h2
        exact hF n h2
    · intro n hn
      have hx : n ≠ sn.nodeId := by
        intro he
        rcases hG n hn with h' | h' <;> rw [he, hph] at h' <;> simp at h'
      show setPhase s.wphase sn.nodeId (some WPhase.promoting) n =
        some WPhase.finishing ∨
        setPhase s.wphase sn.nodeId (some WPhase.promoting) n = none
      simp only [setPhase]
      rw [if_neg hx]
      exact hG n hn
    · intro n h
      have h2 : setPhase s.wphase sn.nodeId (some WPhase.promoting) n ≠ none := h
      show n ∈ s.launched
      by_cases hx : n = sn.nodeId
      · rw [hx]
        exact hI sn.nodeId (by rw [hph]; simp)
      · simp only [setPhase] at h2
        rw [if_neg hx] at h2
        exact hI n h2
    · intro n hn
      have hx : n ≠ sn.nodeId := by
        intro he
        have h' := hK n hn
        rw [he, hph] at h'
        simp at h'
      show setPhase s.wphase sn.nodeId (some WPhase.promoting) n = none
      simp only [setPhase]
      rw [if_neg hx]
      exact hK n hn
  | promote sn hfind hph =>
    have hnidp : sn.nodeId ∉ s.promoted := by
      intro hmem
      rcases hG sn.nodeId hmem with h' | h' <;> rw [hph] at h' <;> simp at h'
    have hnids : sn.nodeId ∉ skipSet P := by
      intro hmem
      have h' := hK sn.nodeId hmem
      rw [hph] at h'
      simp at h'
    have hnidl : sn.nodeId ∈ s.launched := hI sn.nodeId (by rw [hph]; simp)
    have hnot : sn.nodeId ∉ skipSet P ∪ s.promoted := by
      intro h'
      rcases Finset.mem_union.mp h' with h' | h'
      · exact hnids h'
      · exact hnidp h'
    obtain ⟨gidN, hgN⟩ := hF sn.nodeId (Or.inr hph)
    have htermN : bTerminal s.trace sn.nodeId := Or.inl ⟨gidN, hgN⟩
    refine ⟨hA, ?_, hC, ?_, ?_, ?_, ?_, ?_, ?_, ?_, ?_⟩
    · intro c sn' hsn'
      have hBc := hB c sn' hsn'
      show decPendingMany s.pending (childrenOf P.nodes sn.nodeId) c =
        ((validDeps P.nodes sn').card : Int) -
          (((validDeps P.nodes sn') ∩
            (skipSet P ∪ insert sn.nodeId s.promoted)).card : Int)
      rw [Finset.union_insert]
      simp only [decPendingMany]
      by_cases hc : c ∈ childrenOf P.nodes sn.nodeId
      · rw [if_pos hc]
        have hnvd : sn.nodeId ∈ validDeps P.nodes sn' :=
          (mem_childrenOf P hnd c sn' hsn' sn.nodeId).mp hc
        rw [card_inter_insert_mem _ _ _ hnvd hnot, hBc]
        push_cast
        ring
      · rw [if_neg hc]
        have hnvd : sn.nodeId ∉ validDeps P.nodes sn' :=
          fun hm => hc ((mem_childrenOf P hnd c sn' hsn' sn.nodeId).mpr hm)
        rw [inter_insert_not_mem _ _ _ hnvd]
        exact hBc
    · intro d hd
      rcases Finset.mem_insert.mp (show d ∈ insert sn.nodeId s.promoted from hd) with
        rfl | hmem
      · exact htermN
      · exact hD d hmem
    · intro n h
      have h2 : spawnPhases (setPhase s.wphase sn.nodeId (some WPhase.finishing))
          (newlyReady P s sn.nodeId) n = some WPhase.ready := h
      by_cases hm : n ∈ newlyReady P s sn.nodeId
      · obtain ⟨hchild, hpend, hnl2, hgr⟩ := Finset.mem_filter.mp hm
        cases hsf : sfind P.nodes n with
        | none =>
          rw [hsf] at hgr
          simp at hgr
        | some sn' =>
          refine ⟨sn', rfl, ?_⟩
          have hBn := hB n sn' hsf
          have hnvd : sn.nodeId ∈ validDeps P.nodes sn' :=
            (mem_childrenOf P hnd n sn' hsf sn.nodeId).mp hchild
          have hsub : validDeps P.nodes sn' ⊆
              insert sn.nodeId (skipSet P ∪ s.promoted) := by
            apply deps_covered
            rw [card_inter_insert_mem _ _ _ hnvd hnot]
            rw [hBn] at hpend
            push_cast
            push_cast at hpend
            omega
          intro d hd
          rcases Finset.mem_insert.mp (hsub hd) with rfl | hmem
          · exact htermN
          · rcases Finset.mem_union.mp hmem with hsk | hpr
            · exact hC d hsk
            · exact hD d hpr
      · simp only [spawnPhases] at h2
        rw [if_neg hm] at h2
        simp only [setPhase] at h2
        by_cases hx : n = sn.nodeId
        · rw [if_pos hx] at h2
          simp at h2
        · rw [if_neg hx] at h2
          exact hE n h2
    · intro n h
      have h2 : spawnPhases (setPhase s.wphase sn.nodeId (some WPhase.finishing))
          (newlyReady P s sn.nodeId) n = some WPhase.checkGraph ∨
          spawnPhases (setPhase s.wphase sn.nodeId (some WPhase.finishing))
          (newlyReady P s sn.nodeId) n = some WPhase.promoting := h
      simp only [spawnPhases, setPhase] at h2
      by_cases hm : n ∈ newlyReady P s sn.nodeId
      · rw [if_pos hm] at h2
        rcases h2 with h2 | h2 <;> simp at h2
      · rw [if_neg hm] at h2
        by_cases hx : n = sn.nodeId
        · rw [if_pos hx] at h2
          rcases h2 with h2 | h2 <;> simp at h2
        · rw [if_neg hx] at h2
          exact hF n h2
    · intro n hn
      have hn2 : n ∈ insert sn.nodeId s.promoted := hn
      have hnl : n ∈ s.launched := by
        rcases Finset.mem_insert.mp hn2 with rfl | hmem
        · exact hnidl
        · exact hH hmem
      have hnm : n ∉ newlyReady P s sn.nodeId := by
        intro hm
        exact (Finset.mem_filter.mp hm).2.2.1 hnl
      show spawnPhases (setPhase s.wphase sn.nodeId (some WPhase.finishing))
          (newlyReady P s sn.nodeId) n = some WPhase.finishing ∨
        spawnPhases (setPhase s.wphase sn.nodeId (some WPhase.finishing))
          (newlyReady P s sn.nodeId) n = none
      simp only [spawnPhases, setPhase]
      rw [if_neg hnm]
      by_cases hx : n = sn.nodeId
      · rw [if_pos hx]
        left
        rfl
      · rw [if_neg hx]
        rcases Finset.mem_insert.mp hn2 with rfl | hmem
        · exact absurd rfl hx
        · exact hG n hmem
    · intro x hx
      show x ∈ s.launched ∪ newlyReady P s sn.nodeId
      rcases Finset.mem_insert.mp (show x ∈ insert sn.nodeId s.promoted from hx) with
        rfl | hmem
      · exact Finset.mem_union_left _ hnidl
      · exact Finset.mem_union_left _ (hH hmem)
    · intro n h
      have h2 : spawnPhases (setPhase s.wphase sn.nodeId (some WPhase.finishing))
          (newlyReady P s sn.nodeId) n ≠ none := h
      show n ∈ s.launched ∪ newlyReady P s sn.nodeId
      by_cases hm : n ∈ newlyReady P s sn.nodeId
      · exact Finset.mem_union_right _ hm
      · simp only [spawnPhases, setPhase] at h2
        rw [if_neg hm] at h2
        by_cases hx : n = sn.nodeId
        · rw [hx]
          exact Finset.mem_union_left _ hnidl
        · rw [if_neg hx] at h2
          exact Finset.mem_union_left _ (hI n h2)
    · intro d hd
      exact Finset.mem_union_left _ (hJ hd)
    · intro n hn
      have hnl : n ∈ s.launched := hJ hn
      have hnm : n ∉ newlyReady P s sn.nodeId := by
        intro hm
        exact (Finset.mem_filter.mp hm).2.2.1 hnl
      have hx : n ≠ sn.nodeId := by
        intro he
        have h' := hK n hn
        rw [he, hph] at h'
        simp at h'
      show spawnPhases (setPhase s.wphase sn.nodeId (some WPhase.finishing))
          (newlyReady P s sn.nodeId) n = none
      simp only [spawnPhases, setPhase]
      rw [if_neg hnm, if_neg hx]
      exact hK n hn
  | fail sn msg hfind hph horacle =>
    refine ⟨?_, hB, ?_, ?_, ?_, ?_, ?_, hH, ?_, hJ, ?_⟩
    · refine bDeps_append_no_started P s.trace _ hA ?_
      intro gid n hmem
      simp at hmem
    · intro d hd
      exact bTerminal_mono _ _ _ (hC d hd)
    · intro d hd
      exact bTerminal_mono _ _ _ (hD d hd)
    · intro n h
      have h2 : setPhase s.wphase sn.nodeId (some WPhase.failEmitting) n =
          some WPhase.ready := h
      simp only [setPhase] at h2
      by_cases hx : n = sn.nodeId
      · rw [if_pos hx] at h2
        simp at h2
      · rw [if_neg hx] at h2
        obtain ⟨sn', hsn', hdeps⟩ := hE n h2
        exact ⟨sn', hsn', fun d hd => bTerminal_mono _ _ _ (hdeps d hd)⟩
    · intro n h
      have h2 : setPhase s.wphase sn.nodeId (some WPhase.failEmitting) n =
          some WPhase.checkGraph ∨
          setPhase s.wphase sn.nodeId (some WPhase.failEmitting) n =
          some WPhase.promoting := h
      simp only [setPhase] at h2
      by_cases hx : n = sn.nodeId
      · rw [if_pos hx] at h2
        rcases h2 with h2 | h2 <;> simp at h2
      · rw [if_neg hx] at h2
        obtain ⟨gid, hg⟩ := hF n h2
        exact ⟨gid, List.mem_append_left _ hg⟩
    · intro n hn
      have hx : n ≠ sn.nodeId := by
        intro he
        rcases hG n hn with h' | h' <;> rw [he, hph] at h' <;> simp at h'
      show setPhase s.wphase sn.nodeId (some WPhase.failEmitting) n =
        some WPhase.finishing ∨
        setPhase s.wphase sn.nodeId (some WPhase.failEmitting) n = none
      simp only [setPhase]
      rw [if_neg hx]
      exact hG n hn
    · intro n h
      have h2 : setPhase s.wphase sn.nodeId (some WPhase.failEmitting) n ≠ none := h
      show n ∈ s.launched
      by_cases hx : n = sn.nodeId
      · rw [hx]
        exact hI sn.nodeId (by rw [hph]; simp)
      · simp only [setPhase] at h2
        rw [if_neg hx] at h2
        exact hI n h2
    · intro n hn
      have hx : n ≠ sn.nodeId := by
        intro he
        have h' := hK n hn
        rw [he, hph] at h'
        simp at h'
      show setPhase s.wphase sn.nodeId (some WPhase.failEmitting) n = none
      simp only [setPhase]
      rw [if_neg hx]
      exact hK n hn
  | failEmit sn msg hfind hph horacle =>
    refine ⟨?_, hB, ?_, ?_, ?_, ?_, ?_, hH, ?_, hJ, ?_⟩
    · refine bDeps_append_no_started P s.trace _ hA ?_
      intro gid n hmem
      simp at hmem
    · intro d hd
      exact bTerminal_mono _ _ _ (hC d hd)
    · intro d hd
      exact bTerminal_mono _ _ _ (hD d hd)
    · intro n h
      have h2 : setPhase s.wphase sn.nodeId (some WPhase.finishing) n =
          some WPhase.ready := h
      simp only [setPhase] at h2
      by_cases hx : n = sn.nodeId
      · rw [if_pos hx] at h2
        simp at h2
      · rw [if_neg hx] at h2
        obtain ⟨sn', hsn', hdeps⟩ := hE n h2
        exact ⟨sn', hsn', fun d hd => bTerminal_mono _ _ _ (hdeps d hd)⟩
    · intro n h
      have h2 : setPhase s.wphase sn.nodeId (some WPhase.finishing) n =
          some WPhase.checkGraph ∨
          setPhase s.wphase sn.nodeId (some WPhase.finishing) n =
          some WPhase.promoting := h
      simp only [setPhase] at h2
      by_cases hx : n = sn.nodeId
      · rw [if_pos hx] at h2
        rcases h2 with h2 | h2 <;> simp at h2
      · rw [if_neg hx] at h2
        obtain ⟨gid, hg⟩ := hF n h2
        exact ⟨gid, List.mem_append_left _ hg⟩
    · intro n hn
      show setPhase s.wphase sn.nodeId (some WPhase.finishing) n =
        some WPhase.finishing ∨
        setPhase s.wphase sn.nodeId (some WPhase.finishing) n = none
      simp only [setPhase]
      by_cases hx : n = sn.nodeId
      · rw [if_pos hx]
        left
        rfl
      · rw [if_neg hx]
        exact hG n hn
    · intro n h
      have h2 : setPhase s.wphase sn.nodeId (some WPhase.finishing) n ≠ none := h
      show n ∈ s.launched
      by_cases hx : n = sn.nodeId
      · rw [hx]
        exact hI sn.nodeId (by rw [hph]; simp)
      · simp only [setPhase] at h2
        rw [if_neg hx] at h2
        exact hI n h2
    · intro n hn
      have hx : n ≠ sn.nodeId := by
        intro he
        have h' := hK n hn
        rw [he, hph] at h'
        simp at h'
      show setPhase s.wphase sn.nodeId (some WPhase.finishing) n = none
      simp only [setPhase]
      rw [if_neg hx]
      exact hK n hn
  | finishWorker sn hfind hph =>
    refine ⟨hA, hB, hC, hD, ?_, ?_, ?_, hH, ?_, hJ, ?_⟩
    · intro n h
      have h2 : setPhase s.wphase sn.nodeId none n = some WPhase.ready := h
      simp only [setPhase] at h2
      by_cases hx : n = sn.nodeId
      · rw [if_pos hx] at h2
        simp at h2
      · rw [if_neg hx] at h2
        exact hE n h2
    · intro n h
      have h2 : setPhase s.wphase sn.nodeId none n = some WPhase.checkGraph ∨
          setPhase s.wphase sn.nodeId none n = some WPhase.promoting := h
      simp only [setPhase] at h2
      by_cases hx : n = sn.nodeId
      · rw [if_pos hx] at h2
        rcases h2 with h2 | h2 <;> simp at h2
      · rw [if_neg hx] at h2
        exact hF n h2
    · intro n hn
      show setPhase s.wphase sn.nodeId none n = some WPhase.finishing ∨
        setPhase s.wphase sn.nodeId none n = none
      simp only [setPhase]
      by_cases hx : n = sn.nodeId
      · rw [if_pos hx]
        right
        rfl
      · rw [if_neg hx]
        exact hG n hn
    · intro n h
      have h2 : setPhase s.wphase sn.nodeId none n ≠ none := h
      show n ∈ s.launched
      simp only [setPhase] at h2
      by_cases hx : n = sn.nodeId
      · rw [if_pos hx] at h2
        exact absurd rfl h2
      · rw [if_neg hx] at h2
        exact hI n h2
    · intro n hn
      show setPhase s.wphase sn.nodeId none n = none
      simp only [setPhase]
      by_cases hx : n = sn.nodeId
      · rw [if_pos hx]
      · rw [if_neg hx]
        exact hK n hn
  | terminal hsent hterm =>
    refine ⟨?_, hB, ?_, ?_, ?_, ?_, hG, hH, hI, hJ, hK⟩
    · refine bDeps_append_no_started P s.trace _ hA ?_
      intro gid n hmem
      simp only [List.mem_singleton] at hmem
      cases hc : s.cancelled <;> simp [hc] at hmem
    · intro d hd
      exact bTerminal_mono _ _ _ (hC d hd)
    · intro d hd
      exact bTerminal_mono _ _ _ (hD d hd)
    · intro n h
      obtain ⟨sn', hsn', hdeps⟩ := hE n h
      exact ⟨sn', hsn', fun d hd => bTerminal_mono _ _ _ (hdeps d hd)⟩
    · intro n h
      obtain ⟨gid, hg⟩ := hF n h
      exact ⟨gid, List.mem_append_left _ hg⟩

theorem batch_depsRespected (P : BParams) (hnd : (snodeIds P.nodes).Nodup) :
    ∀ s, BReach P s → bDepsRespected P s.trace := by
  intro s hreach
  have hinv : BInv P s := by
    unfold BReach at hreach
    induction hreach with
    | refl => exact BInv_init P hnd
    | tail hab hbc ih => exact BInv_step P hnd _ _ ih hbc
  exact hinv.1

/-- C1: in every run, single-graph or batch, a node's handler is
dispatched only after each of its dependencies inside the required
sub-DAG has emitted `node_completed` or `node_skipped` in that run: the
single-graph executor awaits each level before starting the next, and
the batch scheduler launches a node only once its pending-dependency
counter reached zero through skips, completions or failure cleanup. -/
theorem claim_C1 :
    (∀ (g : Graph) (outputs : List String) (fc : Bool)
        (oracle : String → Except String MediaResult) (cancelAt : Nat → Bool),
      g.NodesNodup → g.EdgesWF → g.Acyclic →
      sgDepsRespected g (g.getRequiredNodes outputs)
        (g.execute outputs fc oracle cancelAt).1) ∧
    (∀ P : BParams, (snodeIds P.nodes).Nodup →
      ∀ s, BReach P s → bDepsRespected P s.trace) := by
  constructor
  · intro g outputs fc oracle cancelAt h1 h2 h3
    exact execute_depsRespected g outputs fc oracle cancelAt h1 h2 h3
  · intro P hnd s hreach
    exact batch_depsRespected P hnd s hreach

theorem claim_C1_witness :
    sgDepsRespected gChain3 (gChain3.getRequiredNodes ["c"])
      (gChain3.execute ["c"] false demoOracle (fun _ => false)).1 ∧
    bDepsRespected batchP1 (initBatch batchP1).trace := by
  constructor
  · exact claim_C1.1 gChain3 ["c"] false demoOracle (fun _ => false)
      (by unfold Graph.NodesNodup; decide)
      (by unfold Graph.EdgesWF; decide)
      (fun hcyc => acyclic_of_rank gChain3.edges
        (fun x => if x = "a" then 0 else if x = "b" then 1 else 2)
        (by
          intro a b hs
          rcases hs with ⟨e, he, hf, ht⟩
          rcases (by decide :
              ∀ e2 ∈ gChain3.edges, (e2.connection.fromNodeId = "a" ∧
                e2.connection.toNodeId = "b") ∨
              (e2.connection.fromNodeId = "b" ∧ e2.connection.toNodeId = "c"))
            e he with ⟨h1, h2⟩ | ⟨h1, h2⟩ <;>
          · rw [← hf, ← ht, h1, h2]
            decide) hcyc)
  · exact claim_C1.2 batchP1 (by decide) (initBatch batchP1)
      Relation.ReflTransGen.refl

theorem c2_cases (c : String) (sn : SNode)
    (h : sfind batchP2.nodes c = some sn) :
    (sn = snodeA1 ∧ c = "a1") ∨ (sn = snodeB2 ∧ c = "b2") := by
  obtain ⟨hmem, hid⟩ := sfind_some _ _ _ h
  have hmem2 : sn = snodeA1 ∨ sn = snodeB2 := by
    have h2 : sn ∈ [snodeA1, snodeB2] := hmem
    simpa using h2
  rcases hmem2 with rfl | rfl
  · exact Or.inl ⟨rfl, hid.symm⟩
  · exact Or.inr ⟨rfl, hid.symm⟩

theorem c2_init : C2Inv (initBatch batchP2) := by
  refine ⟨by decide, by decide, by decide, by decide, by decide, ?_⟩
  intro oc hmem
  have ht : (initBatch batchP2).trace =
      [BEvent.batchStarted ["G1", "G2"] 2, BEvent.nodeSkipped "G2" "b2"] := by decide
  rw [ht] at hmem
  simp at hmem

theorem c2_step (s s2 : BState) (hinv : C2Inv s) (hstep : BStep batchP2 s s2) :
    C2Inv s2 := by
  obtain ⟨i2, i3, i4, i5, i6, i7⟩ := hinv
  cases hstep with
  | cancel hs =>
    exact ⟨i2, i3, i4, i5, i6, i7⟩
  | beginGuarded sn hfind hph hguard =>
    rcases c2_cases _ _ hfind with ⟨rfl, hc⟩ | ⟨rfl, hc⟩
    · refine ⟨?_, ?_, ?_, i5, i6, i7⟩
      · show setPhase s.wphase snodeA1.nodeId (some WPhase.finishing) "b2" = none
        simp only [setPhase]
        rw [if_neg (by decide : ¬("b2" : String) = snodeA1.nodeId)]
        exact i2
      · show setPhase s.wphase snodeA1.nodeId (some WPhase.finishing) "a1" ≠
          some WPhase.checkGraph
        simp only [setPhase]
        rw [if_pos (by decide : ("a1" : String) = snodeA1.nodeId)]
        simp
      · show setPhase s.wphase snodeA1.nodeId (some WPhase.finishing) "a1" ≠
          some WPhase.promoting
        simp only [setPhase]
        rw [if_pos (by decide : ("a1" : String) = snodeA1.nodeId)]
        simp
    · exfalso
      have hb := hph
      rw [show snodeB2.nodeId = "b2" from rfl, i2] at hb
      exact Option.noConfusion hb
  | beginRun sn hfind hph hguard =>
    rcases c2_cases _ _ hfind with ⟨rfl, hc⟩ | ⟨rfl, hc⟩
    · refine ⟨?_, ?_, ?_, i5, ?_, ?_⟩
      · show setPhase s.wphase snodeA1.nodeId (some WPhase.executing) "b2" = none
        simp only [setPhase]
        rw [if_neg (by decide : ¬("b2" : String) = snodeA1.nodeId)]
        exact i2
      · show setPhase s.wphase snodeA1.nodeId (some WPhase.executing) "a1" ≠
          some WPhase.checkGraph
        simp only [setPhase]
        rw [if_pos (by decide : ("a1" : String) = snodeA1.nodeId)]
        simp
      · show setPhase s.wphase snodeA1.nodeId (some WPhase.executing) "a1" ≠
          some WPhase.promoting
        simp only [setPhase]
        rw [if_pos (by decide : ("a1" : String) = snodeA1.nodeId)]
        simp
      · intro hmem
        rcases List.mem_append.mp hmem with h | h
        · exact i6 h
        · simp at h
      · intro oc hmem
        rcases List.mem_append.mp hmem with h | h
        · exact i7 oc h
        · simp at h
    · exfalso
      have hb := hph
      rw [show snodeB2.nodeId = "b2" from rfl, i2] at hb
      exact Option.noConfusion hb
  | succeed sn r hfind hph horacle =>
    rcases c2_cases _ _ hfind with ⟨rfl, hc⟩ | ⟨rfl, hc⟩
    · exfalso
      have hb := horacle
      rw [show snodeA1.nodeId = "a1" from rfl,
        show batchP2.oracle "a1" = Except.error "boom" from rfl] at hb
      exact Except.noConfusion hb
    · exfalso
      have hb := hph
      rw [show snodeB2.nodeId = "b2" from rfl, i2] at hb
      exact Option.noConfusion hb
  | checkGraphDone sn hfind hph hge =>
    rcases c2_cases _ _ hfind with ⟨rfl, hc⟩ | ⟨rfl, hc⟩
    · exact absurd hph i3
    · exfalso
      have hb := hph
      rw [show snodeB2.nodeId = "b2" from rfl, i2] at hb
      exact Option.noConfusion hb
  | checkGraphPendingStep sn hfind hph hlt =>
    rcases c2_cases _ _ hfind with ⟨rfl, hc⟩ | ⟨rfl, hc⟩
    · exact absurd hph i3
    · exfalso
      have hb := hph
      rw [show snodeB2.nodeId = "b2" from rfl, i2] at hb
      exact Option.noConfusion hb
  | promote sn hfind hph =>
    rcases c2_cases _ _ hfind with ⟨rfl, hc⟩ | ⟨rfl, hc⟩
    · exact absurd hph i4
    · exfalso
      have hb := hph
      rw [show snodeB2.nodeId = "b2" from rfl, i2] at hb
      exact Option.noConfusion hb
  | fail sn msg hfind hph horacle =>
    rcases c2_cases _ _ hfind with ⟨rfl, hc⟩ | ⟨rfl, hc⟩
    · refine ⟨?_, ?_, ?_, ?_, ?_, ?_⟩
      · show setPhase s.wphase snodeA1.nodeId (some WPhase.failEmitting) "b2" = none
        simp only [setPhase]
        rw [if_neg (by decide : ¬("b2" : String) = snodeA1.nodeId)]
        exact i2
      · show setPhase s.wphase snodeA1.nodeId (some WPhase.failEmitting) "a1" ≠
          some WPhase.checkGraph
        simp only [setPhase]
        rw [if_pos (by decide : ("a1" : String) = snodeA1.nodeId)]
        simp
      · show setPhase s.wphase snodeA1.nodeId (some WPhase.failEmitting) "a1" ≠
          some WPhase.promoting
        simp only [setPhase]
        rw [if_pos (by decide : ("a1" : String) = snodeA1.nodeId)]
        simp
      · show setOutcome s.outcomes snodeA1.graphId GraphOutcome.failed "G2" =
          some GraphOutcome.pending
        simp only [setOutcome]
        rw [if_neg (by decide : ¬("G2" : String) = snodeA1.graphId)]
        exact i5
      · intro hmem
        rcases List.mem_append.mp hmem with h | h
        · exact i6 h
        · simp at h
      · intro oc hmem
        rcases List.mem_append.mp hmem with h | h
        · exact i7 oc h
        · simp at h
    · exfalso
      have hb := hph
      rw [show snodeB2.nodeId = "b2" from rfl, i2] at hb
      exact Option.noConfusion hb
  | failEmit sn msg hfind hph horacle =>
    rcases c2_cases _ _ hfind with ⟨rfl, hc⟩ | ⟨rfl, hc⟩
    · refine ⟨?_, ?_, ?_, i5, ?_, ?_⟩
      · show setPhase s.wphase snodeA1.nodeId (some WPhase.finishing) "b2" = none
        simp only [setPhase]
        rw [if_neg (by decide : ¬("b2" : String) = snodeA1.nodeId)]
        exact i2
      · show setPhase s.wphase snodeA1.nodeId (some WPhase.finishing) "a1" ≠
          some WPhase.checkGraph
        simp only [setPhase]
        rw [if_pos (by decide : ("a1" : String) = snodeA1.nodeId)]
        simp
      · show setPhase s.wphase snodeA1.nodeId (some WPhase.finishing) "a1" ≠
          some WPhase.promoting
        simp only [setPhase]
        rw [if_pos (by decide : ("a1" : String) = snodeA1.nodeId)]
        simp
      · intro hmem
        rcases List.mem_append.mp hmem with h | h
        · exact i6 h
        · simp at h
      · intro oc hmem
        rcases List.mem_append.mp hmem with h | h
        · exact i7 oc h
        · simp at h
    · exfalso
      have hb := hph
      rw [show snodeB2.nodeId = "b2" from rfl, i2] at hb
      exact Option.noConfusion hb
  | finishWorker sn hfind hph =>
    rcases c2_cases _ _ hfind with ⟨rfl, hc⟩ | ⟨rfl, hc⟩
    · refine ⟨?_, ?_, ?_, i5, i6, i7⟩
      · show setPhase s.wphase snodeA1.nodeId none "b2" = none
        simp only [setPhase]
        rw [if_neg (by decide : ¬("b2" : String) = snodeA1.nodeId)]
        exact i2
      · show setPhase s.wphase snodeA1.nodeId none "a1" ≠ some WPhase.checkGraph
        simp only [setPhase]
        rw [if_pos (by decide : ("a1" : String) = snodeA1.nodeId)]
        simp
      · show setPhase s.wphase snodeA1.nodeId none "a1" ≠ some WPhase.promoting
        simp only [setPhase]
        rw [if_pos (by decide : ("a1" : String) = snodeA1.nodeId)]
        simp
    · exfalso
      have hb := hph
      rw [show snodeB2.nodeId = "b2" from rfl, i2] at hb
      exact Option.noConfusion hb
  | terminal hsent hterm =>
    refine ⟨i2, i3, i4, i5, ?_, ?_⟩
    · intro hmem
      rcases List.mem_append.mp hmem with h | h
      · exact i6 h
      · simp only [List.mem_singleton] at h
        cases hc : s.cancelled <;> rw [hc] at h <;> simp at h
    · intro oc hmem
      rcases List.mem_append.mp hmem with h | h
      · exact i7 oc h
      · simp only [List.mem_singleton] at h
        cases hc : s.cancelled
        · rw [hc] at h
          simp only [Bool.false_eq_true, if_false] at h
          have hoc : oc = batchP2.graphIds.map
              (fun gid => (gid, (s.outcomes gid).getD GraphOutcome.pending)) := by
            injection h
          subst hoc
          intro hmem2
          have hgl : batchP2.graphIds = ["G1", "G2"] := rfl
          rw [hgl] at hmem2
          simp only [List.map_cons, List.map_nil] at hmem2
          rcases List.mem_cons.mp hmem2 with he | hmem3
          · have hfst := congrArg Prod.fst he
            simp at hfst
          · rcases List.mem_cons.mp hmem3 with he | h0
            · have hsnd := congrArg Prod.snd he
              rw [show Prod.snd (("G2", GraphOutcome.completed) :
                  String × GraphOutcome) = GraphOutcome.completed from rfl] at hsnd
              rw [show ("G2", (s.outcomes "G2").getD GraphOutcome.pending).2 =
                  (s.outcomes "G2").getD GraphOutcome.pending from rfl, i5] at hsnd
              exact GraphOutcome.noConfusion hsnd
            · simp at h0
        · rw [hc] at h
          simp at h

theorem c2_reach (s : BState) (hreach : BReach batchP2 s) : C2Inv s := by
  unfold BReach at hreach
  induction hreach with
  | refl => exact c2_init
  | tail hab hbc ih => exact c2_step _ _ ih hbc

theorem no_graphFailed_of_all (gid : String) (t : List BEvent)
    (h : t.all (fun e => match e with
      | BEvent.graphFailed g _ => decide (g ≠ gid)
      | _ => true) = true) :
    ∀ e ∈ t, ∀ msg, e ≠ BEvent.graphFailed gid msg := by
  intro e he msg heq
  subst heq
  have h2 := List.all_eq_true.mp h _ he
  simp at h2

/-- C2: REFUTED on the pool `batchP2` (graph `G1` = one node `a1` whose
handler raises, graph `G2` = one node `b2` already completed and skipped
by the pre-pass).  Exactly one graph, `G1`, fails: the run below reaches
the terminal `batch_completed` with `graph_failed` only for `G1` while
`G2`'s node ended in `node_skipped`; yet no reachable state of this batch
ever contains a `graph_completed` event for `G2`, and every emitted
`batch_completed` outcome map carries `G2 := pending`, never `completed`
— the graph-completion check only runs inside executing workers of the
producing graph and in the `remaining == 0` early exit, neither of which
covers a pre-pass-skipped graph while other graphs still have nodes. -/
theorem claim_C2 :
    (∀ s, BReach batchP2 s → BEvent.graphCompleted "G2" ∉ s.trace ∧
      ∀ oc, BEvent.batchCompleted oc ∈ s.trace →
        ("G2", GraphOutcome.completed) ∉ oc) ∧
    (∃ s, BReach batchP2 s ∧ s.terminalDone = true ∧
      BEvent.graphFailed "G1" "boom" ∈ s.trace ∧
      BEvent.nodeSkipped "G2" "b2" ∈ s.trace ∧
      (∀ e ∈ s.trace, ∀ msg, e ≠ BEvent.graphFailed "G2" msg) ∧
      BEvent.batchCompleted
        [("G1", GraphOutcome.failed), ("G2", GraphOutcome.pending)] ∈ s.trace) := by
  constructor
  · intro s hreach
    have hinv := c2_reach s hreach
    exact ⟨hinv.2.2.2.2.1, hinv.2.2.2.2.2⟩
  · have r0 : Relation.ReflTransGen (BStep batchP2) (initBatch batchP2)
        (initBatch batchP2) := Relation.ReflTransGen.refl
    have r1 := Relation.ReflTransGen.tail r0
      (BStep.beginRun (initBatch batchP2) snodeA1 rfl (by decide) (by decide))
    have r2 := Relation.ReflTransGen.tail r1
      (BStep.fail _ snodeA1 "boom" rfl (by decide) rfl)
    have r3 := Relation.ReflTransGen.tail r2
      (BStep.failEmit _ snodeA1 "boom" rfl (by decide) rfl)
    have r4 := Relation.ReflTransGen.tail r3
      (BStep.finishWorker _ snodeA1 rfl (by decide))
    have r5 := Relation.ReflTransGen.tail r4
      (BStep.terminal _ (by decide) (by decide))
    exact ⟨_, r5, by decide, by decide, by decide,
      no_graphFailed_of_all "G2" _ (by decide), by decide⟩

end PixelGroove
